import Mathlib

/-!
Verification of the scheduling engine of the ProjectMannagee backend
(`backend/tools/cpa/engine/`): calendar date arithmetic
(`sprint_timeline.py`), the PERT / RCPSP passes (`cpa.py`), cycle
detection and ETA range estimation (`sprint_eta.py`), the date-based
dependency scheduler (`sprint_dependency.py`), and duration derivation
from raw issue fields (`jira.py`).

Dates are modelled as integers (days), with `weekday d = d % 7` and the
convention that day 0 is a Monday, matching Python's `date.weekday()`
(Monday = 0 .. Sunday = 6).  Working-day sets and holiday sets are
finite sets of integers.  Python floats are modelled as rationals.
Loops of the source that walk day by day are modelled with explicit
fuel returning `Option`; `none` corresponds to a run of the source that
has not returned within that many iterations.
-/

namespace Engine

/-! ## Calendar primitives (`sprint_timeline.py`) -/

/-- A day counts when its weekday is in the working set and it is not a
holiday (`d.weekday() in working_days and d not in holidays`). -/
def isWorking (wd : Finset ℤ) (hol : Finset ℤ) (d : ℤ) : Bool :=
  decide (d % 7 ∈ wd) && decide (d ∉ hol)

/-- Loop body of `_advance_working_days`: walk one day at a time,
counting only working non-holiday days, and return the date on which
the last day is consumed.  `remaining` is `days - consumed` of the
source and is at least 1 on entry. -/
def advanceAux (wd hol : Finset ℤ) : ℕ → ℤ → ℕ → Option ℤ
  | 0, _, _ => none
  | fuel+1, d, remaining =>
    if isWorking wd hol d then
      if remaining ≤ 1 then some d
      else advanceAux wd hol fuel (d+1) (remaining - 1)
    else advanceAux wd hol fuel (d+1) remaining

/-- Fuel that is always sufficient when the working-day set contains a
genuine weekday (proved below). -/
def advanceFuel (hol : Finset ℤ) (days : ℕ) : ℕ :=
  7 * (hol.card + days + 1)

/-- `_advance_working_days start days working_days holidays`.
Returns `start` unchanged when `days ≤ 0` (here: `days = 0`). -/
def advance_working_days (start : ℤ) (days : ℕ) (wd hol : Finset ℤ) : Option ℤ :=
  if days = 0 then some start
  else advanceAux wd hol (advanceFuel hol days) start days

/-- Loop body of `_next_working_day`. -/
def nextWorkingAux (wd hol : Finset ℤ) : ℕ → ℤ → Option ℤ
  | 0, _ => none
  | fuel+1, d => if isWorking wd hol d then some d else nextWorkingAux wd hol fuel (d+1)

/-- `_next_working_day d working_days holidays`: the same date if it is
a working day, otherwise the next working day. -/
def next_working_day (d : ℤ) (wd hol : Finset ℤ) : Option ℤ :=
  nextWorkingAux wd hol (7 * (hol.card + 1)) d

/-- Number of working days in the closed interval `[s, e]`. -/
def countWorking (wd hol : Finset ℤ) (s e : ℤ) : ℕ :=
  ((Finset.Icc s e).filter (fun x => isWorking wd hol x = true)).card

/-- The working-day set contains at least one value a weekday can take. -/
def HasWorkResidue (wd : Finset ℤ) : Prop :=
  ∃ r ∈ wd, 0 ≤ r ∧ r < 7

lemma advanceAux_mono_fuel {wd hol : Finset ℤ} :
    ∀ {fuel fuel' : ℕ} {d : ℤ} {n : ℕ} {e : ℤ},
      advanceAux wd hol fuel d n = some e → fuel ≤ fuel' →
      advanceAux wd hol fuel' d n = some e := by
  intro fuel
  induction fuel with
  | zero => intro _ _ _ _ h _; simp [advanceAux] at h
  | succ f ih =>
    intro fuel' d n e h hle
    obtain ⟨f', rfl⟩ : ∃ f', fuel' = f' + 1 :=
      ⟨fuel' - 1, by omega⟩
    simp only [advanceAux] at h ⊢
    by_cases hw : isWorking wd hol d
    · simp only [hw, if_true] at h ⊢
      by_cases hr : n ≤ 1
      · simpa [hr] using h
      · simp only [hr, if_false] at h ⊢
        exact ih h (by omega)
    · simp only [hw] at h ⊢
      simp only [if_false, Bool.false_eq_true] at h ⊢
      exact ih h (by omega)

lemma nextWorkingAux_mono_fuel {wd hol : Finset ℤ} :
    ∀ {fuel fuel' : ℕ} {d : ℤ} {e : ℤ},
      nextWorkingAux wd hol fuel d = some e → fuel ≤ fuel' →
      nextWorkingAux wd hol fuel' d = some e := by
  intro fuel
  induction fuel with
  | zero => intro _ _ _ h _; simp [nextWorkingAux] at h
  | succ f ih =>
    intro fuel' d e h hle
    obtain ⟨f', rfl⟩ : ∃ f', fuel' = f' + 1 := ⟨fuel' - 1, by omega⟩
    simp only [nextWorkingAux] at h ⊢
    by_cases hw : isWorking wd hol d
    · simpa [hw] using h
    · simp only [hw, Bool.false_eq_true, if_false] at h ⊢
      exact ih h (by omega)

lemma countWorking_empty {wd hol : Finset ℤ} {s e : ℤ} (h : e < s) :
    countWorking wd hol s e = 0 := by
  unfold countWorking
  rw [Finset.Icc_eq_empty (by omega)]
  simp

lemma countWorking_split_pos {wd hol : Finset ℤ} {s e : ℤ}
    (hw : isWorking wd hol s = true) (h : s ≤ e) :
    countWorking wd hol s e = 1 + countWorking wd hol (s+1) e := by
  unfold countWorking
  have hicc : Finset.Icc s e = insert s (Finset.Icc (s+1) e) := by
    apply Finset.ext
    intro x
    simp only [Finset.mem_Icc, Finset.mem_insert]
    omega
  rw [hicc, Finset.filter_insert, if_pos hw, Finset.card_insert_of_not_mem]
  · omega
  · simp only [Finset.mem_filter, Finset.mem_Icc]
    omega

lemma countWorking_split_neg {wd hol : Finset ℤ} {s e : ℤ}
    (hw : isWorking wd hol s = false) (h : s ≤ e) :
    countWorking wd hol s e = countWorking wd hol (s+1) e := by
  unfold countWorking
  have hicc : Finset.Icc s e = insert s (Finset.Icc (s+1) e) := by
    apply Finset.ext
    intro x
    simp only [Finset.mem_Icc, Finset.mem_insert]
    omega
  rw [hicc, Finset.filter_insert, if_neg (by simp [hw])]

/-- Characterization of the advancing loop: a successful run lands on a
working day `e ≥ s`, and the closed interval `[s, e]` contains exactly
`n` working days. -/
lemma advanceAux_spec {wd hol : Finset ℤ} :
    ∀ {fuel : ℕ} {s : ℤ} {n : ℕ} {e : ℤ},
      advanceAux wd hol fuel s n = some e → 1 ≤ n →
      isWorking wd hol e = true ∧ s ≤ e ∧ countWorking wd hol s e = n := by
  intro fuel
  induction fuel with
  | zero => intro _ _ _ h _; simp [advanceAux] at h
  | succ f ih =>
    intro s n e h hn
    simp only [advanceAux] at h
    by_cases hw : isWorking wd hol s
    · simp only [hw, if_true] at h
      by_cases hr : n ≤ 1
      · simp only [hr, if_true, Option.some.injEq] at h
        subst h
        refine ⟨hw, le_refl _, ?_⟩
        have hn1 : n = 1 := by omega
        subst hn1
        rw [countWorking_split_pos hw (le_refl _),
          countWorking_empty (by omega)]
      · simp only [hr, if_false] at h
        obtain ⟨he, hse, hcount⟩ := ih h (by omega)
        refine ⟨he, by omega, ?_⟩
        rw [countWorking_split_pos hw (by omega), hcount]
        omega
    · simp only [hw, Bool.false_eq_true, if_false] at h
      obtain ⟨he, hse, hcount⟩ := ih h hn
      refine ⟨he, by omega, ?_⟩
      rw [countWorking_split_neg (by simpa using hw) (by omega), hcount]

lemma nextWorkingAux_spec {wd hol : Finset ℤ} :
    ∀ {fuel : ℕ} {s : ℤ} {e : ℤ},
      nextWorkingAux wd hol fuel s = some e →
      isWorking wd hol e = true ∧ s ≤ e ∧
        ∀ x, s ≤ x → x < e → isWorking wd hol x = false := by
  intro fuel
  induction fuel with
  | zero => intro _ _ h; simp [nextWorkingAux] at h
  | succ f ih =>
    intro s e h
    simp only [nextWorkingAux] at h
    by_cases hw : isWorking wd hol s
    · simp only [hw, if_true, Option.some.injEq] at h
      subst h
      exact ⟨hw, le_refl _, fun x h1 h2 => by omega⟩
    · simp only [hw, Bool.false_eq_true, if_false] at h
      obtain ⟨he, hse, hmin⟩ := ih h
      refine ⟨he, by omega, ?_⟩
      intro x h1 h2
      rcases eq_or_lt_of_le h1 with rfl | hlt
      · simpa using hw
      · exact hmin x (by omega) h2

lemma countWorking_mono_interval {wd hol : Finset ℤ} {s s' e : ℤ} (h : s ≤ s') :
    countWorking wd hol s' e ≤ countWorking wd hol s e := by
  unfold countWorking
  apply Finset.card_le_card
  apply Finset.filter_subset_filter
  apply Finset.Icc_subset_Icc_left h

lemma countWorking_append {wd hol : Finset ℤ} {s m e : ℤ}
    (h1 : s ≤ m + 1) (h2 : m ≤ e) :
    countWorking wd hol s e = countWorking wd hol s m + countWorking wd hol (m+1) e := by
  have hicc : Finset.Icc s e = Finset.Icc s m ∪ Finset.Icc (m+1) e := by
    apply Finset.ext
    intro x
    simp only [Finset.mem_Icc, Finset.mem_union]
    omega
  unfold countWorking
  rw [hicc, Finset.filter_union, Finset.card_union_of_disjoint]
  apply Finset.disjoint_filter_filter
  rw [Finset.disjoint_left]
  intro x hx hx'
  simp only [Finset.mem_Icc] at hx hx'
  omega

lemma countWorking_pos {wd hol : Finset ℤ} {a b x : ℤ}
    (hx : isWorking wd hol x = true) (h1 : a ≤ x) (h2 : x ≤ b) :
    1 ≤ countWorking wd hol a b := by
  unfold countWorking
  rw [Nat.succ_le_iff, Finset.card_pos]
  exact ⟨x, by simp only [Finset.mem_filter, Finset.mem_Icc]; exact ⟨⟨h1, h2⟩, hx⟩⟩

/-- In any window of `7 * (hol.card + n)` consecutive days there are at
least `n` working days, provided the working-day set contains a genuine
weekday. -/
lemma le_countWorking_window {wd hol : Finset ℤ} (h : HasWorkResidue wd)
    (s : ℤ) (n : ℕ) :
    n ≤ countWorking wd hol s (s + (7*(hol.card + n) : ℕ) - 1) := by
  obtain ⟨r, hr, hr0, hr7⟩ := h
  set k : ℕ := hol.card + n with hk
  set f : ℕ → ℤ := fun i => s + (r - s) % 7 + 7 * i with hf
  have hmod : ∀ i : ℕ, (f i) % 7 = r := by
    intro i
    simp only [hf]
    omega
  have hinj : Function.Injective f := by
    intro a b hab
    simp only [hf] at hab
    omega
  set S : Finset ℤ := (Finset.range k).image f with hS
  have hcardS : S.card = k := by
    rw [hS, Finset.card_image_of_injective _ hinj, Finset.card_range]
  have hsub : S \ hol ⊆ (Finset.Icc s (s + (7*(hol.card + n) : ℕ) - 1)).filter
      (fun x => isWorking wd hol x = true) := by
    intro x hx
    rw [Finset.mem_sdiff] at hx
    obtain ⟨hxS, hxhol⟩ := hx
    rw [hS, Finset.mem_image] at hxS
    obtain ⟨i, hi, rfl⟩ := hxS
    rw [Finset.mem_range] at hi
    have hb : 0 ≤ (r - s) % 7 ∧ (r - s) % 7 < 7 := by omega
    simp only [Finset.mem_filter, Finset.mem_Icc]
    refine ⟨⟨by simp only [hf]; omega, by simp only [hf]; push_cast; omega⟩, ?_⟩
    unfold isWorking
    rw [hmod i]
    simp [hr, hxhol]
  calc n = k - hol.card := by omega
    _ = S.card - hol.card := by rw [hcardS]
    _ ≤ (S \ hol).card := Finset.le_card_sdiff _ _
    _ ≤ _ := Finset.card_le_card hsub

lemma advanceAux_some_of_count {wd hol : Finset ℤ} :
    ∀ {B fuel : ℕ} {s : ℤ} {n : ℕ},
      1 ≤ n → n ≤ countWorking wd hol s (s + B - 1) → B ≤ fuel →
      ∃ e, advanceAux wd hol fuel s n = some e := by
  intro B
  induction B with
  | zero =>
    intro fuel s n hn hcount _
    rw [countWorking_empty (by omega)] at hcount
    omega
  | succ B ih =>
    intro fuel s n hn hcount hfuel
    obtain ⟨f, rfl⟩ : ∃ f, fuel = f + 1 := ⟨fuel - 1, by omega⟩
    simp only [advanceAux]
    have hB1 : (s + ((B+1:ℕ) : ℤ) - 1) = s + (B : ℤ) := by push_cast; ring
    rw [hB1] at hcount
    have hB2 : ((s+1) + ((B:ℕ) : ℤ) - 1) = s + (B : ℤ) := by push_cast; ring
    by_cases hw : isWorking wd hol s
    · simp only [hw, if_true]
      by_cases hr : n ≤ 1
      · simp [hr]
      · simp only [hr, if_false]
        refine ih (n := n - 1) (by omega) ?_ (by omega)
        rw [countWorking_split_pos hw (show s ≤ s + (B:ℤ) by omega)] at hcount
        rw [hB2]
        omega
    · simp only [hw, Bool.false_eq_true, if_false]
      refine ih hn ?_ (by omega)
      rw [countWorking_split_neg (by simpa using hw)
        (show s ≤ s + (B:ℤ) by omega)] at hcount
      rw [hB2]
      exact hcount

/-- When the working-day set contains a genuine weekday,
`_advance_working_days` terminates (the default fuel is sufficient). -/
lemma advance_working_days_total {wd hol : Finset ℤ} (h : HasWorkResidue wd)
    (start : ℤ) (days : ℕ) :
    ∃ e, advance_working_days start days wd hol = some e := by
  unfold advance_working_days
  by_cases hd : days = 0
  · exact ⟨start, by simp [hd]⟩
  · simp only [hd, if_false]
    apply advanceAux_some_of_count (n := days) (by omega)
      (le_countWorking_window h start days)
    unfold advanceFuel
    omega

/-- When the working-day set contains a genuine weekday,
`_next_working_day` terminates. -/
lemma next_working_day_total {wd hol : Finset ℤ} (h : HasWorkResidue wd) (d : ℤ) :
    ∃ e, next_working_day d wd hol = some e := by
  unfold next_working_day
  suffices hgen : ∀ (B fuel : ℕ) (s : ℤ), 1 ≤ countWorking wd hol s (s + (B:ℤ) - 1) →
      B ≤ fuel → ∃ e, nextWorkingAux wd hol fuel s = some e by
    exact hgen (7 * (hol.card + 1)) _ d (le_countWorking_window h d 1) (le_refl _)
  intro B
  induction B with
  | zero =>
    intro fuel s hcount _
    rw [countWorking_empty (by omega)] at hcount
    omega
  | succ B ih =>
    intro fuel s hcount hfuel
    obtain ⟨f, rfl⟩ : ∃ f, fuel = f + 1 := ⟨fuel - 1, by omega⟩
    simp only [nextWorkingAux]
    have hB1 : (s + ((B+1:ℕ) : ℤ) - 1) = s + (B : ℤ) := by push_cast; ring
    rw [hB1] at hcount
    have hB2 : ((s+1) + ((B:ℕ) : ℤ) - 1) = s + (B : ℤ) := by push_cast; ring
    by_cases hw : isWorking wd hol s
    · simp [hw]
    · simp only [hw, Bool.false_eq_true, if_false]
      refine ih f (s+1) ?_ (by omega)
      rw [countWorking_split_neg (by simpa using hw)
        (show s ≤ s + (B:ℤ) by omega)] at hcount
      rw [hB2]
      exact hcount

lemma isWorking_empty_wd (hol : Finset ℤ) (d : ℤ) : isWorking ∅ hol d = false := by
  unfold isWorking
  simp

/-- With an empty working-day set the advancing loop never consumes a
day: it returns `none` at every fuel, i.e. the source loop never
terminates. -/
lemma advanceAux_empty_none (hol : Finset ℤ) :
    ∀ (fuel : ℕ) (d : ℤ) (n : ℕ), 1 ≤ n → advanceAux ∅ hol fuel d n = none := by
  intro fuel
  induction fuel with
  | zero => intro d n _; rfl
  | succ f ih =>
    intro d n hn
    simp only [advanceAux, isWorking_empty_wd, Bool.false_eq_true, if_false]
    exact ih (d+1) n hn

/-- With an empty working-day set `_next_working_day` never finds a
working day. -/
lemma nextWorkingAux_empty_none (hol : Finset ℤ) :
    ∀ (fuel : ℕ) (d : ℤ), nextWorkingAux ∅ hol fuel d = none := by
  intro fuel
  induction fuel with
  | zero => intro d; rfl
  | succ f ih =>
    intro d
    simp only [nextWorkingAux, isWorking_empty_wd, Bool.false_eq_true, if_false]
    exact ih (d+1)

lemma advanceAux_le {wd hol : Finset ℤ} {fuel : ℕ} {s : ℤ} {n : ℕ} {e : ℤ}
    (h : advanceAux wd hol fuel s n = some e) (hn : 1 ≤ n) : s ≤ e :=
  (advanceAux_spec h hn).2.1

lemma advanceAux_mono {wd hol : Finset ℤ} {fuel fuel' : ℕ} {s s' : ℤ} {n : ℕ} {e e' : ℤ}
    (h : advanceAux wd hol fuel s n = some e)
    (h' : advanceAux wd hol fuel' s' n = some e')
    (hs : s ≤ s') (hn : 1 ≤ n) : e ≤ e' := by
  obtain ⟨hwe, hse, hce⟩ := advanceAux_spec h hn
  obtain ⟨hwe', hse', hce'⟩ := advanceAux_spec h' hn
  by_contra hlt
  push_neg at hlt
  have hsplit : countWorking wd hol s e =
      countWorking wd hol s e' + countWorking wd hol (e'+1) e :=
    countWorking_append (by omega) (by omega)
  have h1 : n ≤ countWorking wd hol s e' :=
    hce' ▸ countWorking_mono_interval hs
  have h2 : 1 ≤ countWorking wd hol (e'+1) e :=
    countWorking_pos hwe (by omega) (le_refl e)
  omega

/-- `_advance_working_days` never moves backwards. -/
lemma advance_working_days_le {wd hol : Finset ℤ} {s : ℤ} {n : ℕ} {e : ℤ}
    (h : advance_working_days s n wd hol = some e) : s ≤ e := by
  unfold advance_working_days at h
  by_cases hn : n = 0
  · simp only [hn, if_true, Option.some.injEq] at h
    omega
  · simp only [hn, if_false] at h
    exact advanceAux_le h (by omega)

/-- `_advance_working_days` is monotone in the start date. -/
lemma advance_working_days_mono {wd hol : Finset ℤ} {s s' : ℤ} {n : ℕ} {e e' : ℤ}
    (h : advance_working_days s n wd hol = some e)
    (h' : advance_working_days s' n wd hol = some e')
    (hs : s ≤ s') : e ≤ e' := by
  unfold advance_working_days at h h'
  by_cases hn : n = 0
  · simp only [hn, if_true, Option.some.injEq] at h h'
    omega
  · simp only [hn, if_false] at h h'
    exact advanceAux_mono h h' hs (by omega)

lemma next_working_day_ge {wd hol : Finset ℤ} {d e : ℤ}
    (h : next_working_day d wd hol = some e) : d ≤ e :=
  (nextWorkingAux_spec h).2.1

/-- `_next_working_day` is monotone in the date. -/
lemma next_working_day_mono {wd hol : Finset ℤ} {d d' e e' : ℤ}
    (h : next_working_day d wd hol = some e)
    (h' : next_working_day d' wd hol = some e')
    (hd : d ≤ d') : e ≤ e' := by
  obtain ⟨hwe, hde, hmin⟩ := nextWorkingAux_spec h
  obtain ⟨hwe', hde', hmin'⟩ := nextWorkingAux_spec h'
  by_contra hlt
  push_neg at hlt
  have := hmin e' (by omega) (by omega)
  rw [hwe'] at this
  exact absurd this (by simp)

/-! ## Sprint items and deterministic ordering (`sprint_timeline.py`) -/

/-- Decimal parse of a digit list, as Python's `int()` parses an issue
key suffix: at least one character, all digits; anything else fails. -/
def parseNatAux (acc : ℕ) : List Char → Option ℕ
  | [] => some acc
  | c :: cs => if c.isDigit then parseNatAux (acc * 10 + (c.toNat - 48)) cs else none

def parseNat : List Char → Option ℕ
  | [] => none
  | cs => parseNatAux 0 cs

/-- `_issue_key_number`: numeric value of the issue key's portion after
the last dash (`k.rsplit('-', 1)[1]`), 0 when there is no dash or the
suffix does not parse as an integer. -/
def issueKeyNumber (k : String) : ℕ :=
  let rev := k.data.reverse
  if rev.any (fun c => c == '-') then
    (parseNat ((rev.takeWhile (fun c => !(c == '-'))).reverse)).getD 0
  else 0

/-- `int(math.ceil(max(0.0, float(duration_days)))) or 1`: whole days,
rounded up, and 0 mapped to 1. -/
def durationWhole (d : ℚ) : ℕ :=
  let c := (max 0 d).ceil.toNat
  if c = 0 then 1 else c

/-- One issue of the current sprint after field extraction: key,
assignee display name (with the `"Unassigned"` default), and whole-day
estimate. -/
structure SprintItem where
  key : String
  assignee : String
  estimated_days : ℕ
deriving DecidableEq, Repr

/-- The sort key `(_issue_key_number(k), k)` compared as Python compares
tuples (lexicographically). -/
def keyTupleLE (k₁ k₂ : String) : Bool :=
  decide (issueKeyNumber k₁ < issueKeyNumber k₂) ||
    (decide (issueKeyNumber k₁ = issueKeyNumber k₂) && decide (k₁ ≤ k₂))

def itemLE (a b : SprintItem) : Bool := keyTupleLE a.key b.key

lemma keyTupleLE_trans {a b c : String} (h₁ : keyTupleLE a b = true)
    (h₂ : keyTupleLE b c = true) : keyTupleLE a c = true := by
  simp only [keyTupleLE, Bool.or_eq_true, Bool.and_eq_true, decide_eq_true_eq] at h₁ h₂ ⊢
  rcases h₁ with h₁ | ⟨h₁, h₁'⟩ <;> rcases h₂ with h₂ | ⟨h₂, h₂'⟩
  · exact Or.inl (by omega)
  · exact Or.inl (by omega)
  · exact Or.inl (by omega)
  · exact Or.inr ⟨by omega, le_trans h₁' h₂'⟩

lemma keyTupleLE_total (a b : String) : (keyTupleLE a b || keyTupleLE b a) = true := by
  simp only [keyTupleLE, Bool.or_eq_true, Bool.and_eq_true, decide_eq_true_eq]
  rcases lt_trichotomy (issueKeyNumber a) (issueKeyNumber b) with h | h | h
  · tauto
  · rcases le_total a b with h' | h' <;> tauto
  · tauto

lemma keyTupleLE_antisymm {a b : String} (h₁ : keyTupleLE a b = true)
    (h₂ : keyTupleLE b a = true) : a = b := by
  simp only [keyTupleLE, Bool.or_eq_true, Bool.and_eq_true, decide_eq_true_eq] at h₁ h₂
  rcases h₁ with h₁ | ⟨h₁, h₁'⟩ <;> rcases h₂ with h₂ | ⟨h₂, h₂'⟩ <;>
    first
      | omega
      | exact le_antisymm h₁' h₂'

lemma itemLE_trans (a b c : SprintItem) (h₁ : itemLE a b = true)
    (h₂ : itemLE b c = true) : itemLE a c = true :=
  keyTupleLE_trans h₁ h₂

lemma itemLE_total (a b : SprintItem) : (itemLE a b || itemLE b a) = true :=
  keyTupleLE_total a.key b.key

/-- Two sorted lists that are permutations of each other are equal, as
long as ties cannot happen between the elements involved. -/
lemma eq_of_perm_of_pairwiseLE {α : Type} {le : α → α → Bool}
    (htrans : ∀ a b c, le a b = true → le b c = true → le a c = true) :
    ∀ {l₁ l₂ : List α}, l₁.Perm l₂ →
      l₁.Pairwise (fun a b => le a b = true) →
      l₂.Pairwise (fun a b => le a b = true) →
      (∀ a ∈ l₁, ∀ b ∈ l₁, le a b = true → le b a = true → a = b) →
      l₁ = l₂ := by
  intro l₁
  induction l₁ with
  | nil =>
    intro l₂ hp _ _ _
    exact (hp.nil_eq).symm ▸ rfl
  | cons a t₁ ih =>
    intro l₂ hp hs₁ hs₂ hanti
    cases l₂ with
    | nil => exact absurd hp.symm.nil_eq (by simp)
    | cons b t₂ =>
      have hba : b = a := by
        by_contra hne
        have hbmem : b ∈ a :: t₁ := hp.mem_iff.mpr (by simp)
        have hbt₁ : b ∈ t₁ := by
          rcases hbmem with _ | h
          · exact absurd rfl hne
          · assumption
        have hab : le a b = true := (List.pairwise_cons.mp hs₁).1 b hbt₁
        have hamem : a ∈ b :: t₂ := hp.subset (by simp)
        have hat₂ : a ∈ t₂ := by
          rcases hamem with _ | h
          · exact absurd rfl (fun h => hne h.symm)
          · assumption
        have hba' : le b a = true := (List.pairwise_cons.mp hs₂).1 a hat₂
        exact hne (hanti b (by simp [hbt₁]) a (by simp) hba' hab)
      subst hba
      have hpt : t₁.Perm t₂ := hp.cons_inv
      have := ih hpt (List.pairwise_cons.mp hs₁).2 (List.pairwise_cons.mp hs₂).2
        (fun x hx y hy => hanti x (by simp [hx]) y (by simp [hy]))
      rw [this]

/-- Stable insertion of an element into a sorted list: the element goes
right before the first list element it compares `le` to.  This models
Python's stable ascending `sorted`. -/
def insertLE {α : Type} (le : α → α → Bool) (a : α) : List α → List α
  | [] => [a]
  | b :: l => if le a b then a :: b :: l else b :: insertLE le a l

/-- Stable sort by the boolean relation `le` (insertion sort). -/
def sortLE {α : Type} (le : α → α → Bool) : List α → List α
  | [] => []
  | a :: l => insertLE le a (sortLE le l)

lemma insertLE_perm {α : Type} (le : α → α → Bool) (a : α) :
    ∀ (l : List α), (insertLE le a l).Perm (a :: l) := by
  intro l
  induction l with
  | nil => exact List.Perm.refl _
  | cons b l ih =>
    simp only [insertLE]
    by_cases h : le a b
    · rw [if_pos h]
    · rw [if_neg h]
      exact (ih.cons b).trans (List.Perm.swap a b l)

lemma sortLE_perm {α : Type} (le : α → α → Bool) :
    ∀ (l : List α), (sortLE le l).Perm l := by
  intro l
  induction l with
  | nil => exact List.Perm.refl _
  | cons a l ih =>
    exact (insertLE_perm le a (sortLE le l)).trans (ih.cons a)

lemma insertLE_pairwise {α : Type} {le : α → α → Bool}
    (htrans : ∀ a b c, le a b = true → le b c = true → le a c = true)
    (htotal : ∀ a b, (le a b || le b a) = true) (a : α) :
    ∀ {l : List α}, l.Pairwise (fun x y => le x y = true) →
      (insertLE le a l).Pairwise (fun x y => le x y = true) := by
  intro l
  induction l with
  | nil => intro _; simp [insertLE]
  | cons b l ih =>
    intro hp
    obtain ⟨hb, hl⟩ := List.pairwise_cons.mp hp
    simp only [insertLE]
    by_cases h : le a b
    · rw [if_pos h]
      refine List.pairwise_cons.mpr ⟨?_, hp⟩
      intro x hx
      rcases hx with _ | hx'
      · exact h
      · exact htrans a b x h (hb x (by assumption))
    · rw [if_neg h]
      refine List.pairwise_cons.mpr ⟨?_, ih hl⟩
      intro x hx
      have hx' : x = a ∨ x ∈ l := by
        have := (insertLE_perm le a l).mem_iff.mp hx
        simpa using this
      rcases hx' with hxa | hx''
      · rw [hxa]
        have h2 := htotal a b
        simp only [Bool.or_eq_true] at h2
        rcases h2 with h' | h'
        · exact absurd h' h
        · exact h'
      · exact hb x hx''

lemma sortLE_pairwise {α : Type} {le : α → α → Bool}
    (htrans : ∀ a b c, le a b = true → le b c = true → le a c = true)
    (htotal : ∀ a b, (le a b || le b a) = true) :
    ∀ (l : List α), (sortLE le l).Pairwise (fun x y => le x y = true) := by
  intro l
  induction l with
  | nil => exact List.Pairwise.nil
  | cons a l ih => exact insertLE_pairwise htrans htotal a ih

/-- Stable sorting commutes with filtering when ties are impossible
among the list's elements. -/
lemma sortLE_filter_comm {α : Type} {le : α → α → Bool}
    (htrans : ∀ a b c, le a b = true → le b c = true → le a c = true)
    (htotal : ∀ a b, (le a b || le b a) = true)
    {l : List α} (p : α → Bool)
    (hanti : ∀ a ∈ l, ∀ b ∈ l, le a b = true → le b a = true → a = b) :
    sortLE le (l.filter p) = (sortLE le l).filter p := by
  apply eq_of_perm_of_pairwiseLE htrans
  · exact (sortLE_perm le _).trans ((sortLE_perm le l).symm.filter p)
  · exact sortLE_pairwise htrans htotal _
  · exact (sortLE_pairwise htrans htotal l).sublist (List.filter_sublist _)
  · intro a ha b hb
    have ha' : a ∈ l := (List.filter_sublist l).mem ((sortLE_perm le _).mem_iff.mp ha)
    have hb' : b ∈ l := (List.filter_sublist l).mem ((sortLE_perm le _).mem_iff.mp hb)
    exact hanti a ha' b hb'

/-! ## Sequential per-assignee calendar scheduling
(`current_sprint_cpa_timeline` in `sprint_timeline.py`) -/

/-- One schedule entry: issue key, assignee, start date, end date
(`finish` stands for the source's `end`, a keyword here), whole days. -/
structure TEntry where
  issue : String
  assignee : String
  start : ℤ
  finish : ℤ
  days : ℕ
deriving DecidableEq, Repr


/-- The `for t in tasks` loop of `current_sprint_cpa_timeline`: align
the start to the next working day, consume the estimate, and let the
next task start the day after (`current = end_d + timedelta(days=1)`).
A day-walking loop that never terminates propagates as `none`. -/
def scheduleUser (wd uhol : Finset ℤ) : ℤ → List SprintItem → Option (List TEntry)
  | _, [] => some []
  | current, t :: rest =>
    (next_working_day current wd uhol).bind fun start_d =>
      (advance_working_days start_d t.estimated_days wd uhol).bind fun end_d =>
        (scheduleUser wd uhol (end_d + 1) rest).map fun entries =>
          ⟨t.key, t.assignee, start_d, end_d, t.estimated_days⟩ :: entries

/-- `by_user` keys: assignees in order of appearance (no property below
depends on this order). -/
def usersOf (items : List SprintItem) : List String :=
  (items.map (·.assignee)).dedup

/-- One assignee's queue: that assignee's items sorted by the
deterministic key `(_issue_key_number, key)`. -/
def userQueue (items : List SprintItem) (u : String) : List SprintItem :=
  sortLE itemLE (items.filter (fun t => t.assignee == u))

/-- Schedule every user of the list in turn, concatenating entries. -/
def timelinePerUsers (wd ghol : Finset ℤ) (hbu : String → Finset ℤ)
    (base : ℤ) (items : List SprintItem) : List String → Option (List TEntry)
  | [] => some []
  | u :: us =>
    (scheduleUser wd (hbu u ∪ ghol) base (userQueue items u)).bind fun es =>
      (timelinePerUsers wd ghol hbu base items us).map fun rest => es ++ rest

/-- `current_sprint_cpa_timeline`, from the per-item data onward:
per-assignee sequential schedules and the overall completion date (the
maximum end over all entries; every end is at least `base`, so this is
the source's `max(all_ends, default=base_start)`). -/
def sprintTimeline (items : List SprintItem) (base : ℤ) (wd ghol : Finset ℤ)
    (hbu : String → Finset ℤ) : Option (List TEntry × ℤ) :=
  (timelinePerUsers wd ghol hbu base items (usersOf items)).map fun es =>
    (es, (es.map (·.finish)).foldl max base)

/-- `sprint_completion_if_issue_removed`, from the per-item data
onward: baseline overall completion, overall completion with one issue
removed (same scheduling logic, issue filtered out), and
`delta_days = before - after`. -/
def sprintCompletionIfRemoved (items : List SprintItem) (removed : String)
    (base : ℤ) (wd ghol : Finset ℤ) (hbu : String → Finset ℤ) :
    Option (ℤ × ℤ × ℤ) :=
  (sprintTimeline items base wd ghol hbu).bind fun before =>
    (sprintTimeline (items.filter (fun t => !(t.key == removed))) base wd ghol hbu).map
      fun best_after => (before.2, best_after.2, before.2 - best_after.2)

lemma scheduleUser_cons_eq {wd uhol : Finset ℤ} {c : ℤ} {t : SprintItem}
    {rest : List SprintItem} {es : List TEntry}
    (h : scheduleUser wd uhol c (t :: rest) = some es) :
    ∃ start_d end_d entries,
      next_working_day c wd uhol = some start_d ∧
      advance_working_days start_d t.estimated_days wd uhol = some end_d ∧
      scheduleUser wd uhol (end_d + 1) rest = some entries ∧
      es = ⟨t.key, t.assignee, start_d, end_d, t.estimated_days⟩ :: entries := by
  simp only [scheduleUser, Option.bind_eq_some, Option.map_eq_some'] at h
  obtain ⟨start_d, hnwd, end_d, hadv, entries, hrest, hes⟩ := h
  exact ⟨start_d, end_d, entries, hnwd, hadv, hrest, hes.symm⟩

lemma scheduleUser_start_ge {wd uhol : Finset ℤ} :
    ∀ {q : List SprintItem} {c : ℤ} {es : List TEntry},
      scheduleUser wd uhol c q = some es → ∀ e ∈ es, c ≤ e.start := by
  intro q
  induction q with
  | nil =>
    intro c es h e he
    simp only [scheduleUser, Option.some.injEq] at h
    subst h
    cases he
  | cons t rest ih =>
    intro c es h e he
    obtain ⟨start_d, end_d, entries, hnwd, hadv, hrest, rfl⟩ := scheduleUser_cons_eq h
    have hcs : c ≤ start_d := next_working_day_ge hnwd
    have hsf : start_d ≤ end_d := advance_working_days_le hadv
    rcases he with _ | he'
    · exact hcs
    · have := ih hrest e (by assumption)
      omega

lemma scheduleUser_start_le_finish {wd uhol : Finset ℤ} :
    ∀ {q : List SprintItem} {c : ℤ} {es : List TEntry},
      scheduleUser wd uhol c q = some es → ∀ e ∈ es, e.start ≤ e.finish := by
  intro q
  induction q with
  | nil =>
    intro c es h e he
    simp only [scheduleUser, Option.some.injEq] at h
    subst h
    cases he
  | cons t rest ih =>
    intro c es h e he
    obtain ⟨start_d, end_d, entries, hnwd, hadv, hrest, rfl⟩ := scheduleUser_cons_eq h
    rcases he with _ | he'
    · exact advance_working_days_le hadv
    · exact ih hrest e (by assumption)

/-- In one assignee's sequential schedule, every task starts strictly
after every earlier task's end. -/
lemma scheduleUser_pairwise {wd uhol : Finset ℤ} :
    ∀ {q : List SprintItem} {c : ℤ} {es : List TEntry},
      scheduleUser wd uhol c q = some es →
      es.Pairwise (fun x y => x.finish < y.start) := by
  intro q
  induction q with
  | nil =>
    intro c es h
    simp only [scheduleUser, Option.some.injEq] at h
    subst h
    exact List.Pairwise.nil
  | cons t rest ih =>
    intro c es h
    obtain ⟨start_d, end_d, entries, hnwd, hadv, hrest, rfl⟩ := scheduleUser_cons_eq h
    refine List.pairwise_cons.mpr ⟨?_, ih hrest⟩
    intro e he
    have := scheduleUser_start_ge hrest e he
    simp only
    omega

lemma scheduleUser_assignee {wd uhol : Finset ℤ} :
    ∀ {q : List SprintItem} {c : ℤ} {es : List TEntry} {u : String},
      scheduleUser wd uhol c q = some es → (∀ t ∈ q, t.assignee = u) →
      ∀ e ∈ es, e.assignee = u := by
  intro q
  induction q with
  | nil =>
    intro c es u h _ e he
    simp only [scheduleUser, Option.some.injEq] at h
    subst h
    cases he
  | cons t rest ih =>
    intro c es u h hq e he
    obtain ⟨start_d, end_d, entries, hnwd, hadv, hrest, rfl⟩ := scheduleUser_cons_eq h
    rcases he with _ | he'
    · exact hq t (by simp)
    · exact ih hrest (fun x hx => hq x (by simp [hx])) e (by assumption)

lemma le_foldl_max_base {xs : List ℤ} {b : ℤ} : b ≤ xs.foldl max b := by
  induction xs generalizing b with
  | nil => exact le_refl b
  | cons x xs ih => exact le_trans (le_max_left b x) ih

lemma le_foldl_max_mem {xs : List ℤ} {b x : ℤ} (hx : x ∈ xs) : x ≤ xs.foldl max b := by
  induction xs generalizing b with
  | nil => cases hx
  | cons y xs ih =>
    rcases hx with _ | hx'
    · exact le_trans (le_max_right b _) le_foldl_max_base
    · exact ih (by assumption)

lemma foldl_max_le {xs : List ℤ} {b m : ℤ} (hb : b ≤ m) (h : ∀ x ∈ xs, x ≤ m) :
    xs.foldl max b ≤ m := by
  induction xs generalizing b with
  | nil => exact hb
  | cons x xs ih =>
    exact ih (max_le hb (h x (by simp))) (fun y hy => h y (by simp [hy]))

/-- Removing items from an assignee's queue never pushes any remaining
task's end later: each entry of the reduced schedule ends no later than
some entry of the full schedule. -/
lemma scheduleUser_dominated {wd uhol : Finset ℤ} {q q' : List SprintItem}
    (hsub : q'.Sublist q) :
    ∀ {c c' : ℤ} {es es' : List TEntry}, c' ≤ c →
      scheduleUser wd uhol c q = some es →
      scheduleUser wd uhol c' q' = some es' →
      ∀ e' ∈ es', ∃ e ∈ es, e'.finish ≤ e.finish := by
  induction hsub with
  | slnil =>
    intro c c' es es' _ _ h' e' he'
    simp only [scheduleUser, Option.some.injEq] at h'
    subst h'
    cases he'
  | cons a hsub ih =>
    intro c c' es es' hc h h' e' he'
    obtain ⟨start_d, end_d, entries, hnwd, hadv, hrest, rfl⟩ := scheduleUser_cons_eq h
    have hcs : c ≤ start_d := next_working_day_ge hnwd
    have hsf : start_d ≤ end_d := advance_working_days_le hadv
    obtain ⟨e, he, hle⟩ := ih (by omega : c' ≤ end_d + 1) hrest h' e' he'
    exact ⟨e, by simp [he], hle⟩
  | cons₂ a hsub ih =>
    intro c c' es es' hc h h' e' he'
    obtain ⟨start_d, end_d, entries, hnwd, hadv, hrest, rfl⟩ := scheduleUser_cons_eq h
    obtain ⟨start_d', end_d', entries', hnwd', hadv', hrest', rfl⟩ := scheduleUser_cons_eq h'
    have hs : start_d' ≤ start_d := next_working_day_mono hnwd' hnwd hc
    have he : end_d' ≤ end_d := advance_working_days_mono hadv' hadv hs
    rcases he' with _ | he''
    · exact ⟨⟨a.key, a.assignee, start_d, end_d, a.estimated_days⟩, by simp, he⟩
    · obtain ⟨e, hemem, hle⟩ := ih (by omega : end_d' + 1 ≤ end_d + 1) hrest hrest' e' (by assumption)
      exact ⟨e, by simp [hemem], hle⟩

lemma timelinePerUsers_mem {wd ghol : Finset ℤ} {hbu : String → Finset ℤ}
    {base : ℤ} {items : List SprintItem} :
    ∀ {us : List String} {es : List TEntry},
      timelinePerUsers wd ghol hbu base items us = some es →
      ∀ e ∈ es, ∃ u ∈ us, ∃ esu,
        scheduleUser wd (hbu u ∪ ghol) base (userQueue items u) = some esu ∧ e ∈ esu := by
  intro us
  induction us with
  | nil =>
    intro es h e he
    simp only [timelinePerUsers, Option.some.injEq] at h
    subst h
    cases he
  | cons u us ih =>
    intro es h e he
    simp only [timelinePerUsers, Option.bind_eq_some, Option.map_eq_some'] at h
    obtain ⟨esu, hesu, rest, hrest, hes⟩ := h
    subst hes
    rcases List.mem_append.mp he with he' | he'
    · exact ⟨u, by simp, esu, hesu, he'⟩
    · obtain ⟨u', hu', esu', h1, h2⟩ := ih hrest e he'
      exact ⟨u', by simp [hu'], esu', h1, h2⟩

lemma timelinePerUsers_user {wd ghol : Finset ℤ} {hbu : String → Finset ℤ}
    {base : ℤ} {items : List SprintItem} :
    ∀ {us : List String} {es : List TEntry},
      timelinePerUsers wd ghol hbu base items us = some es →
      ∀ u ∈ us, ∃ esu,
        scheduleUser wd (hbu u ∪ ghol) base (userQueue items u) = some esu ∧
          ∀ e ∈ esu, e ∈ es := by
  intro us
  induction us with
  | nil => intro es _ u hu; cases hu
  | cons v us ih =>
    intro es h u hu
    simp only [timelinePerUsers, Option.bind_eq_some, Option.map_eq_some'] at h
    obtain ⟨esu, hesu, rest, hrest, hes⟩ := h
    subst hes
    rcases hu with _ | hu'
    · exact ⟨esu, hesu, fun e he => List.mem_append.mpr (Or.inl he)⟩
    · obtain ⟨esu', h1, h2⟩ := ih hrest u (by assumption)
      exact ⟨esu', h1, fun e he => List.mem_append.mpr (Or.inr (h2 e he))⟩

lemma itemLE_antisymm_of_nodup_keys {items : List SprintItem}
    (hkeys : (items.map (·.key)).Nodup) :
    ∀ a ∈ items, ∀ b ∈ items, itemLE a b = true → itemLE b a = true → a = b := by
  intro a ha b hb h₁ h₂
  have hk : a.key = b.key := keyTupleLE_antisymm h₁ h₂
  exact List.inj_on_of_nodup_map hkeys ha hb hk

/-- Filtering out an issue and then grouping/sorting gives the same
queue as filtering the sorted queue: stability of the per-assignee
ordering. -/
lemma userQueue_filter {items : List SprintItem}
    (hkeys : (items.map (·.key)).Nodup) (p : SprintItem → Bool) (u : String) :
    userQueue (items.filter p) u = (userQueue items u).filter p := by
  unfold userQueue
  rw [List.filter_comm]
  apply sortLE_filter_comm itemLE_trans itemLE_total
  intro a ha b hb
  exact itemLE_antisymm_of_nodup_keys hkeys a ((List.filter_sublist items).mem ha)
    b ((List.filter_sublist items).mem hb)

lemma usersOf_filter_subset {items : List SprintItem} (p : SprintItem → Bool) :
    usersOf (items.filter p) ⊆ usersOf items := by
  intro u hu
  unfold usersOf at hu ⊢
  rw [List.mem_dedup] at hu ⊢
  obtain ⟨t, ht, rfl⟩ := List.mem_map.mp hu
  exact List.mem_map.mpr ⟨t, (List.filter_sublist items).mem ht, rfl⟩

lemma userQueue_assignee {items : List SprintItem} {u : String} :
    ∀ t ∈ userQueue items u, t.assignee = u := by
  intro t ht
  have ht' : t ∈ items.filter (fun t => t.assignee == u) :=
    (sortLE_perm itemLE _).subset ht
  have := (List.mem_filter.mp ht').2
  exact beq_iff_eq.mp this

/-- In the whole sequential timeline, two entries of the same assignee
never overlap: the later one starts strictly after the earlier ends. -/
lemma timelinePerUsers_serialized {wd ghol : Finset ℤ} {hbu : String → Finset ℤ}
    {base : ℤ} {items : List SprintItem} :
    ∀ {us : List String} {es : List TEntry}, us.Nodup →
      timelinePerUsers wd ghol hbu base items us = some es →
      es.Pairwise (fun x y => x.assignee = y.assignee → x.finish < y.start) := by
  intro us
  induction us with
  | nil =>
    intro es _ h
    simp only [timelinePerUsers, Option.some.injEq] at h
    subst h
    exact List.Pairwise.nil
  | cons u us ih =>
    intro es hnd h
    simp only [timelinePerUsers, Option.bind_eq_some, Option.map_eq_some'] at h
    obtain ⟨esu, hesu, rest, hrest, hes⟩ := h
    subst hes
    rw [List.pairwise_append]
    refine ⟨?_, ih (List.nodup_cons.mp hnd).2 hrest, ?_⟩
    · exact (scheduleUser_pairwise hesu).imp
        (fun {a b} (h : a.finish < b.start) (_ : a.assignee = b.assignee) => h)
    · intro x hx y hy heq
      have hxu : x.assignee = u := scheduleUser_assignee hesu userQueue_assignee x hx
      obtain ⟨u', hu', esu', hsched', hy'⟩ := timelinePerUsers_mem hrest y hy
      have hyu : y.assignee = u' := scheduleUser_assignee hsched' userQueue_assignee y hy'
      exfalso
      rw [hxu, hyu] at heq
      exact (List.nodup_cons.mp hnd).1 (heq ▸ hu')

/-- **C6**: the working-day advance primitive counts a day only when
its weekday is in the working-day set and it is not a holiday — in
particular a start date falling on an excluded day is never counted
(counting from `start` equals counting from `start + 1`); advancing 0
days returns the start unchanged; and a single 5-day task scheduled
sequentially from a Friday (day 4, weekday 4) with Mon-Fri working
days and no holidays finishes on the following Thursday (day 10,
weekday 3). -/
theorem advance_working_days_calendar_skip :
    (∀ (s : ℤ) (N : ℕ) (wd hol : Finset ℤ) (e : ℤ), 1 ≤ N →
        advance_working_days s N wd hol = some e →
        isWorking wd hol e = true ∧ s ≤ e ∧ countWorking wd hol s e = N ∧
          (isWorking wd hol s = false → countWorking wd hol (s+1) e = N)) ∧
    (∀ (s : ℤ) (wd hol : Finset ℤ), advance_working_days s 0 wd hol = some s) ∧
    (sprintTimeline [⟨"T", "X", 5⟩] 4 ({0,1,2,3,4} : Finset ℤ) ∅ (fun _ => ∅) =
        some ([⟨"T", "X", 4, 10, 5⟩], 10) ∧ (4:ℤ) % 7 = 4 ∧ (10:ℤ) % 7 = 3) := by
  refine ⟨?_, ?_, ?_⟩
  · intro s N wd hol e hN h
    unfold advance_working_days at h
    rw [if_neg (by omega)] at h
    obtain ⟨hwe, hse, hcount⟩ := advanceAux_spec h hN
    refine ⟨hwe, hse, hcount, ?_⟩
    intro hsx
    rw [← countWorking_split_neg hsx hse]
    exact hcount
  · intro s wd hol
    simp [advance_working_days]
  · constructor
    · decide
    · constructor <;> decide

/-- Witness for C6 at a concrete input: advancing one working day from
Saturday (day 5) lands on Monday (day 7), which is a working day, and
the Saturday start is not counted. -/
theorem advance_working_days_calendar_skip_witness :
    isWorking {0,1,2,3,4} ∅ 7 = true ∧ (5:ℤ) ≤ 7 ∧
      countWorking {0,1,2,3,4} ∅ 5 7 = 1 ∧
      (isWorking {0,1,2,3,4} ∅ 5 = false → countWorking {0,1,2,3,4} ∅ (5+1) 7 = 1) :=
  advance_working_days_calendar_skip.1 5 1 {0,1,2,3,4} ∅ 7 (by decide) (by decide)

/-- **C9**: the day-by-day loops `_advance_working_days` and
`_next_working_day` terminate for every start date, day count and
finite holiday set provided the working-day set contains at least one
genuine weekday; with an empty working-day set (and a positive day
count) they never terminate, at any fuel. -/
theorem calendar_loops_terminate_iff_weekday :
    (∀ (wd hol : Finset ℤ), HasWorkResidue wd → ∀ (s : ℤ) (days : ℕ),
        (∃ e, advance_working_days s days wd hol = some e) ∧
        (∃ e, next_working_day s wd hol = some e)) ∧
    (∀ (hol : Finset ℤ) (s : ℤ) (days : ℕ) (fuel : ℕ), 1 ≤ days →
        advanceAux ∅ hol fuel s days = none) ∧
    (∀ (hol : Finset ℤ) (s : ℤ) (fuel : ℕ), nextWorkingAux ∅ hol fuel s = none) :=
  ⟨fun wd hol h s days =>
      ⟨advance_working_days_total h s days, next_working_day_total h s⟩,
    fun hol s days fuel h => advanceAux_empty_none hol fuel s days h,
    fun hol s fuel => nextWorkingAux_empty_none hol fuel s⟩

/-- Witness for C9: with working days `{0}` (Mondays) both loops
terminate from day 0, and with the empty set the advance loop returns
nothing even with fuel 9. -/
theorem calendar_loops_terminate_iff_weekday_witness :
    ((∃ e, advance_working_days 0 2 {0} ∅ = some e) ∧
      (∃ e, next_working_day 0 {0} ∅ = some e)) ∧
      advanceAux ∅ ∅ 9 0 1 = none :=
  ⟨calendar_loops_terminate_iff_weekday.1 {0} ∅ ⟨0, by decide, by decide, by decide⟩ 0 2,
    calendar_loops_terminate_iff_weekday.2.1 ∅ 0 1 9 (by decide)⟩

/-- **C10**: for the same sprint items and calendar parameters, the
what-if removal computation is monotone: removing any single issue
never makes the overall completion date later, so `delta_days ≥ 0`
whenever both dates are computed.  (Issue keys are assumed distinct, as
they are in the tracker.) -/
theorem sprint_completion_removal_monotone
    {items : List SprintItem} {removed : String} {base : ℤ}
    {wd ghol : Finset ℤ} {hbu : String → Finset ℤ} {bef aft delta : ℤ}
    (hkeys : (items.map (·.key)).Nodup)
    (h : sprintCompletionIfRemoved items removed base wd ghol hbu =
      some (bef, aft, delta)) :
    aft ≤ bef ∧ 0 ≤ delta := by
  unfold sprintCompletionIfRemoved at h
  simp only [Option.bind_eq_some, Option.map_eq_some'] at h
  obtain ⟨r1, h1, r2, h2, hout⟩ := h
  unfold sprintTimeline at h1 h2
  simp only [Option.map_eq_some'] at h1 h2
  obtain ⟨es1, htl1, hr1⟩ := h1
  obtain ⟨es2, htl2, hr2⟩ := h2
  have hbef : bef = (es1.map (·.finish)).foldl max base := by
    rw [← hr1] at hout
    exact (Prod.mk.injEq _ _ _ _ |>.mp hout).1.symm
  have haft : aft = (es2.map (·.finish)).foldl max base := by
    rw [← hr1, ← hr2] at hout
    have := (Prod.mk.injEq _ _ _ _ |>.mp hout).2
    exact (Prod.mk.injEq _ _ _ _ |>.mp this).1.symm
  have hdelta : delta = bef - aft := by
    rw [← hr1, ← hr2] at hout
    have h' := (Prod.mk.injEq _ _ _ _ |>.mp hout).2
    have := (Prod.mk.injEq _ _ _ _ |>.mp h').2
    rw [hbef, haft]
    exact this.symm
  suffices hle : aft ≤ bef by
    exact ⟨hle, by omega⟩
  rw [hbef, haft]
  apply foldl_max_le le_foldl_max_base
  intro x hx
  obtain ⟨e', he', rfl⟩ := List.mem_map.mp hx
  obtain ⟨u, hu, esu', hsched', he''⟩ := timelinePerUsers_mem htl2 e' he'
  have hu' : u ∈ usersOf items := usersOf_filter_subset _ hu
  obtain ⟨esu, hsched, hsub⟩ := timelinePerUsers_user htl1 u hu'
  rw [userQueue_filter hkeys _ u] at hsched'
  obtain ⟨e, he, hle⟩ :=
    scheduleUser_dominated (List.filter_sublist _) (le_refl base) hsched hsched' e' he''
  calc e'.finish ≤ e.finish := hle
    _ ≤ (es1.map (·.finish)).foldl max base :=
        le_foldl_max_mem (List.mem_map.mpr ⟨e, hsub e he, rfl⟩)

/-- Witness for C10: two tasks of owner X, removing the later one moves
the sprint completion from day 4 to day 1, a delta of 3 ≥ 0. -/
theorem sprint_completion_removal_monotone_witness :
    (1 : ℤ) ≤ 4 ∧ (0 : ℤ) ≤ 3 :=
  @sprint_completion_removal_monotone [⟨"T-1", "X", 2⟩, ⟨"T-2", "X", 3⟩] "T-2"
    0 {0,1,2,3,4} ∅ (fun _ => ∅) 4 1 3 (by decide) (by decide)

/-! ## Task graph of the DB project (`cpa.py`, `_build_graph_with_assignees`) -/

/-- One DB task as `_build_graph_with_assignees` reads it: id, estimate
in days (`estimate_days or 0.0` — a missing estimate is already 0),
optional assignee, dependency ids. -/
structure CTask where
  id : String
  estimate_days : ℚ
  assignee : Option String
  dependencies : List String
deriving DecidableEq, Repr

def cnodes (ts : List CTask) : List String := ts.map (·.id)

/-- Dictionary lookup by id (ids are unique DB primary keys). -/
def taskOf (ts : List CTask) (u : String) : Option CTask :=
  ts.find? (fun t => t.id == u)

/-- `dur[t.id] = max(0.0, float(t.estimate_days or 0.0))`. -/
def cdur (ts : List CTask) (u : String) : ℚ :=
  match taskOf ts u with
  | some t => max 0 t.estimate_days
  | none => 0

/-- `assignee[t.id] = t.assignee`. -/
def cassignee (ts : List CTask) (u : String) : Option String :=
  match taskOf ts u with
  | some t => t.assignee
  | none => none

/-- `preds[t.id]`: the task's dependencies that are ids of the graph
(`if d in succ`). -/
def cpreds (ts : List CTask) (u : String) : List String :=
  match taskOf ts u with
  | some t => t.dependencies.filter (fun d => decide (d ∈ cnodes ts))
  | none => []

/-- `succ[d]`: for every task `t` and every occurrence of `d` among its
dependencies (with `d` an id of the graph), `t.id` is appended. -/
def csucc (ts : List CTask) (d : String) : List String :=
  if decide (d ∈ cnodes ts) then
    ts.flatMap (fun t => (t.dependencies.filter (fun x => x == d)).map (fun _ => t.id))
  else []

lemma taskOf_eq_some {ts : List CTask} {u : String} {t : CTask}
    (h : taskOf ts u = some t) : t ∈ ts ∧ t.id = u := by
  unfold taskOf at h
  refine ⟨List.mem_of_find?_eq_some h, ?_⟩
  have := List.find?_some h
  exact beq_iff_eq.mp this

lemma taskOf_of_mem {ts : List CTask} {t : CTask}
    (hids : (cnodes ts).Nodup) (ht : t ∈ ts) : taskOf ts t.id = some t := by
  induction ts with
  | nil => cases ht
  | cons t' rest ih =>
    rcases List.mem_cons.mp ht with rfl | ht'
    · exact List.find?_cons_of_pos _ (by simp)
    · have hne : ¬ ((fun (x : CTask) => x.id == t.id) t' = true) := by
        simp only [beq_iff_eq]
        intro h
        apply (List.nodup_cons.mp hids).1
        show t'.id ∈ List.map (fun x => x.id) rest
        rw [h]
        exact List.mem_map.mpr ⟨t, ht', rfl⟩
      unfold taskOf
      exact (@List.find?_cons_of_neg CTask (fun x => x.id == t.id) t' rest hne).trans
        (ih (List.nodup_cons.mp hids).2 ht')

lemma mem_csucc {ts : List CTask} {d v : String} :
    v ∈ csucc ts d ↔ d ∈ cnodes ts ∧ ∃ t ∈ ts, t.id = v ∧ d ∈ t.dependencies := by
  unfold csucc
  by_cases hd : d ∈ cnodes ts
  · rw [if_pos (by simpa using hd)]
    simp only [List.mem_flatMap, List.mem_map, List.mem_filter]
    constructor
    · rintro ⟨t, ht, x, ⟨hx, hxd⟩, hid⟩
      exact ⟨hd, t, ht, hid, (beq_iff_eq.mp hxd) ▸ hx⟩
    · rintro ⟨_, t, ht, hid, hdd⟩
      exact ⟨t, ht, d, ⟨hdd, beq_iff_eq.mpr rfl⟩, hid⟩
  · rw [if_neg (by simpa using hd)]
    simp [hd]

lemma mem_cpreds {ts : List CTask} {v p : String} :
    p ∈ cpreds ts v ↔ ∃ t, taskOf ts v = some t ∧ p ∈ t.dependencies ∧ p ∈ cnodes ts := by
  unfold cpreds
  cases h : taskOf ts v with
  | none => simp
  | some t =>
    simp only [List.mem_filter, decide_eq_true_eq]
    constructor
    · rintro ⟨h1, h2⟩
      exact ⟨t, rfl, h1, h2⟩
    · rintro ⟨t', ht', h1, h2⟩
      cases ht'
      exact ⟨h1, h2⟩

/-- With unique ids, `preds` and `succ` are the two directions of the
same edge relation. -/
lemma cpreds_iff_csucc {ts : List CTask} (hids : (cnodes ts).Nodup)
    {v p : String} (hv : v ∈ cnodes ts) :
    p ∈ cpreds ts v ↔ v ∈ csucc ts p := by
  rw [mem_cpreds, mem_csucc]
  constructor
  · rintro ⟨t, ht, h1, h2⟩
    obtain ⟨hmem, hid⟩ := taskOf_eq_some ht
    exact ⟨h2, t, hmem, hid, h1⟩
  · rintro ⟨h2, t, hmem, hid, h1⟩
    exact ⟨t, hid ▸ taskOf_of_mem hids hmem, h1, h2⟩

lemma cpreds_subset_nodes {ts : List CTask} {v : String} :
    ∀ p ∈ cpreds ts v, p ∈ cnodes ts := by
  intro p hp
  obtain ⟨t, _, _, h⟩ := mem_cpreds.mp hp
  exact h

lemma csucc_subset_nodes {ts : List CTask} {d : String} :
    ∀ v ∈ csucc ts d, v ∈ cnodes ts := by
  intro v hv
  obtain ⟨_, t, ht, hid, _⟩ := mem_csucc.mp hv
  exact List.mem_map.mpr ⟨t, ht, hid⟩

lemma cpreds_nodup {ts : List CTask} (hdeps : ∀ t ∈ ts, t.dependencies.Nodup)
    (v : String) : (cpreds ts v).Nodup := by
  unfold cpreds
  cases h : taskOf ts v with
  | none => exact List.Pairwise.nil
  | some t =>
    apply List.Nodup.filter
    exact hdeps t (taskOf_eq_some h).1

/-! ## Kahn's algorithm (`_topo_sort` in `cpa.py`) -/

/-- `indeg` after the initialization loops: one increment for every
`u` and every occurrence of `v` in `edges[u]`, provided `v` is a node. -/
def initIndeg (nodes : List String) (succ : String → List String) (v : String) : ℤ :=
  if v ∈ nodes then (nodes.map (fun u => ((succ u).count v : ℤ))).sum else 0

/-- Body of the inner `for v in edges.get(u, [])` loop: decrement the
in-degree of node `v` and enqueue it when the degree reaches zero. -/
def kahnVisit (nodes : List String) (st : (String → ℤ) × List String) (v : String) :
    (String → ℤ) × List String :=
  if v ∈ nodes then
    ((fun x => if x = v then st.1 x - 1 else st.1 x),
      if st.1 v - 1 = 0 then st.2 ++ [v] else st.2)
  else st

/-- The `while q` loop of `_topo_sort`; one fuel unit per pop (fuel
`|nodes| + 1` is enough, proved below). -/
def kahnLoop (nodes : List String) (succ : String → List String) :
    ℕ → (String → ℤ) → List String → List String → List String
  | 0, _, _, acc => acc.reverse
  | fuel+1, deg, q, acc =>
    match q with
    | [] => acc.reverse
    | u :: q' =>
      let st := (succ u).foldl (kahnVisit nodes) (deg, q')
      kahnLoop nodes succ fuel st.1 st.2 (u :: acc)

/-- `_topo_sort(nodes, edges)`: Kahn's algorithm, falling back to the
input order when a cycle prevents a complete ordering. -/
def topo_sort (nodes : List String) (succ : String → List String) : List String :=
  let deg0 := initIndeg nodes succ
  let q0 := nodes.filter (fun u => decide (deg0 u = 0))
  let order := kahnLoop nodes succ (nodes.length + 1) deg0 q0 []
  if order.length ≠ nodes.length then nodes else order

/-- Predecessors of `v` among the nodes, derived from the successor
lists. -/
def predsIn (nodes : List String) (succ : String → List String) (v : String) : List String :=
  nodes.filter (fun u => decide (v ∈ succ u))

/-- Closed form of the inner loop over a duplicate-free edge list:
every target node's degree drops by one, and the targets whose degree
becomes zero are appended to the queue in edge order. -/
lemma kahnVisit_foldl (nodes : List String) :
    ∀ (vs : List String), vs.Nodup → ∀ (deg : String → ℤ) (q : List String),
      (∀ x, (vs.foldl (kahnVisit nodes) (deg, q)).1 x =
        if x ∈ vs ∧ x ∈ nodes then deg x - 1 else deg x) ∧
      (vs.foldl (kahnVisit nodes) (deg, q)).2 =
        q ++ vs.filter (fun v => decide (v ∈ nodes) && decide (deg v - 1 = 0)) := by
  intro vs
  induction vs with
  | nil =>
    intro _ deg q
    constructor
    · intro x
      simp
    · simp
  | cons v rest ih =>
    intro hnd deg q
    obtain ⟨hv, hrest⟩ := List.nodup_cons.mp hnd
    simp only [List.foldl_cons]
    by_cases hvn : v ∈ nodes
    · have hstep : kahnVisit nodes (deg, q) v =
          ((fun x => if x = v then deg x - 1 else deg x),
            if deg v - 1 = 0 then q ++ [v] else q) := by
        unfold kahnVisit
        rw [if_pos hvn]
      rw [hstep]
      obtain ⟨ihd, ihq⟩ := ih hrest
        (fun x => if x = v then deg x - 1 else deg x)
        (if deg v - 1 = 0 then q ++ [v] else q)
      constructor
      · intro x
        rw [ihd x]
        by_cases hxv : x = v
        · subst hxv
          simp [hv, hvn]
        · by_cases hxr : x ∈ rest <;> by_cases hxn : x ∈ nodes <;>
            simp [hxv, hxr, hxn]
      · rw [ihq]
        have hfilter : rest.filter
            (fun x => decide (x ∈ nodes) &&
              decide ((if x = v then deg x - 1 else deg x) - 1 = 0)) =
            rest.filter (fun x => decide (x ∈ nodes) && decide (deg x - 1 = 0)) := by
          apply List.filter_congr
          intro x hx
          have hxv : x ≠ v := fun h => hv (h ▸ hx)
          rw [if_neg hxv]
        rw [hfilter]
        by_cases hz : deg v - 1 = 0
        · rw [if_pos hz, List.filter_cons, if_pos (by simp [hvn, hz])]
          simp
        · rw [if_neg hz, List.filter_cons, if_neg (by simp [hz])]
    · have hstep : kahnVisit nodes (deg, q) v = (deg, q) := by
        unfold kahnVisit
        rw [if_neg hvn]
      rw [hstep]
      obtain ⟨ihd, ihq⟩ := ih hrest deg q
      constructor
      · intro x
        rw [ihd x]
        by_cases hxv : x = v
        · subst hxv
          simp [hv, hvn]
        · by_cases hxr : x ∈ rest <;> by_cases hxn : x ∈ nodes <;>
            simp [hxv, hxr, hxn]
      · rw [ihq, List.filter_cons, if_neg (by simp [hvn])]

lemma all_of_length_filter_eq {α : Type} {p : α → Bool} :
    ∀ {l : List α}, (l.filter p).length = l.length → ∀ x ∈ l, p x = true := by
  intro l
  induction l with
  | nil => intro _ x hx; cases hx
  | cons a l ih =>
    intro h x hx
    rw [List.filter_cons] at h
    by_cases hpa : p a
    · rw [if_pos hpa] at h
      simp only [List.length_cons, Nat.add_left_inj, Nat.succ.injEq] at h
      rcases hx with _ | hx'
      · exact hpa
      · exact ih (by omega) x (by assumption)
    · rw [if_neg hpa] at h
      have := List.length_filter_le p l
      simp only [List.length_cons] at h
      omega

lemma filter_mem_cons_length {P : List String} (hP : P.Nodup) {u : String}
    {acc : List String} (hu : u ∉ acc) :
    (P.filter (fun x => decide (x ∈ u :: acc))).length =
      (P.filter (fun x => decide (x ∈ acc))).length + (if u ∈ P then 1 else 0) := by
  induction P with
  | nil => simp
  | cons a P ih =>
    obtain ⟨haP, hPnd⟩ := List.nodup_cons.mp hP
    rw [List.filter_cons, List.filter_cons]
    by_cases hau : a = u
    · subst hau
      rw [if_pos (by simp), if_neg (by simpa using hu),
        if_pos (show a ∈ a :: P by simp)]
      simp only [List.length_cons]
      rw [ih hPnd, if_neg haP]
    · have h1 : (decide (a ∈ u :: acc)) = (decide (a ∈ acc)) := by
        simp [List.mem_cons, hau]
      rw [h1]
      have h2 : (u ∈ a :: P) ↔ (u ∈ P) := by
        simp only [List.mem_cons]
        constructor
        · rintro (h | h)
          · exact absurd h.symm hau
          · exact h
        · exact Or.inr
      simp only [h2]
      by_cases ha : (decide (a ∈ acc)) = true
      · rw [if_pos ha, if_pos ha]
        simp only [List.length_cons]
        rw [ih hPnd]
        omega
      · rw [if_neg ha, if_neg ha]
        exact ih hPnd

/-- The invariant of Kahn's loop. `acc` is the reversed list of popped
nodes (most recent first). -/
structure KInv (nodes : List String) (succ : String → List String)
    (deg : String → ℤ) (q acc : List String) : Prop where
  acc_nodup : acc.Nodup
  q_nodup : q.Nodup
  q_acc_disj : ∀ x ∈ q, x ∉ acc
  q_sub : ∀ x ∈ q, x ∈ nodes
  acc_sub : ∀ x ∈ acc, x ∈ nodes
  deg_eq : ∀ v ∈ nodes, deg v =
    ((predsIn nodes succ v).length : ℤ) -
      (((predsIn nodes succ v).filter (fun u => decide (u ∈ acc))).length : ℤ)
  ready : ∀ v ∈ q, ∀ u ∈ predsIn nodes succ v, u ∈ acc
  acc_pairs : acc.Pairwise (fun a b => a ∉ predsIn nodes succ b)
  acc_cov : ∀ v ∈ acc, ∀ u ∈ predsIn nodes succ v, u ∈ acc
  member_nonpos : ∀ v, v ∈ q ∨ v ∈ acc → deg v ≤ 0
  zero_mem : ∀ v ∈ nodes, deg v = 0 → v ∈ q ∨ v ∈ acc

lemma mem_predsIn {nodes : List String} {succ : String → List String} {v u : String} :
    u ∈ predsIn nodes succ v ↔ u ∈ nodes ∧ v ∈ succ u := by
  unfold predsIn
  simp [List.mem_filter]

lemma predsIn_nodup {nodes : List String} (hn : nodes.Nodup)
    (succ : String → List String) (v : String) : (predsIn nodes succ v).Nodup :=
  hn.filter _

/-- One iteration of Kahn's loop (pop `u`, visit its edges) preserves
the invariant. -/
lemma KInv_step {nodes : List String} {succ : String → List String}
    (hn : nodes.Nodup) (hs : ∀ u, (succ u).Nodup)
    {deg : String → ℤ} {u : String} {q' acc : List String}
    (inv : KInv nodes succ deg (u :: q') acc) :
    KInv nodes succ
      ((succ u).foldl (kahnVisit nodes) (deg, q')).1
      ((succ u).foldl (kahnVisit nodes) (deg, q')).2
      (u :: acc) := by
  obtain ⟨hdeg, hq2⟩ := kahnVisit_foldl nodes (succ u) (hs u) deg q'
  set st := (succ u).foldl (kahnVisit nodes) (deg, q') with hst
  set enq := (succ u).filter
    (fun v => decide (v ∈ nodes) && decide (deg v - 1 = 0)) with henq
  have hun : u ∈ nodes := inv.q_sub u (by simp)
  have huacc : u ∉ acc := inv.q_acc_disj u (by simp)
  have hudeg : deg u ≤ 0 := inv.member_nonpos u (Or.inl (by simp))
  have hq'nd : q'.Nodup := (List.nodup_cons.mp inv.q_nodup).2
  have huq' : u ∉ q' := (List.nodup_cons.mp inv.q_nodup).1
  have henq_mem : ∀ v ∈ enq, v ∈ succ u ∧ v ∈ nodes ∧ deg v = 1 := by
    intro v hv
    rw [henq, List.mem_filter] at hv
    obtain ⟨h1, h2⟩ := hv
    simp only [Bool.and_eq_true, decide_eq_true_eq] at h2
    exact ⟨h1, h2.1, by omega⟩
  have henq_fresh : ∀ v ∈ enq, v ≠ u ∧ v ∉ q' ∧ v ∉ acc := by
    intro v hv
    obtain ⟨_, _, hv1⟩ := henq_mem v hv
    refine ⟨?_, ?_, ?_⟩
    · intro h
      subst h
      omega
    · intro h
      have := inv.member_nonpos v (Or.inl (by simp [h]))
      omega
    · intro h
      have := inv.member_nonpos v (Or.inr h)
      omega
  have hdle : ∀ v, st.1 v ≤ deg v := by
    intro v
    rw [hdeg v]
    by_cases h : v ∈ succ u ∧ v ∈ nodes
    · rw [if_pos h]; omega
    · rw [if_neg h]
  have huP : ∀ v, u ∈ predsIn nodes succ v ↔ v ∈ succ u := by
    intro v
    rw [mem_predsIn]
    exact ⟨fun h => h.2, fun h => ⟨hun, h⟩⟩
  refine ⟨?_, ?_, ?_, ?_, ?_, ?_, ?_, ?_, ?_, ?_, ?_⟩
  · exact List.nodup_cons.mpr ⟨huacc, inv.acc_nodup⟩
  · rw [hq2]
    refine List.Nodup.append hq'nd (List.Nodup.filter _ (hs u)) ?_
    intro x hx hx'
    exact (henq_fresh x hx').2.1 hx
  · rw [hq2]
    intro x hx
    rcases List.mem_append.mp hx with hx' | hx'
    · simp only [List.mem_cons]
      push_neg
      exact ⟨fun h => huq' (h ▸ hx'), inv.q_acc_disj x (by simp [hx'])⟩
    · simp only [List.mem_cons]
      push_neg
      exact ⟨(henq_fresh x hx').1, (henq_fresh x hx').2.2⟩
  · rw [hq2]
    intro x hx
    rcases List.mem_append.mp hx with hx' | hx'
    · exact inv.q_sub x (by simp [hx'])
    · exact (henq_mem x hx').2.1
  · intro x hx
    rcases List.mem_cons.mp hx with rfl | hx'
    · exact hun
    · exact inv.acc_sub x hx'
  · intro v hv
    rw [hdeg v, filter_mem_cons_length (predsIn_nodup hn succ v) huacc]
    have hold := inv.deg_eq v hv
    by_cases hsu : v ∈ succ u
    · rw [if_pos ⟨hsu, hv⟩, if_pos ((huP v).mpr hsu)]
      push_cast
      omega
    · rw [if_neg (by tauto), if_neg (fun h => hsu ((huP v).mp h))]
      push_cast
      omega
  · rw [hq2]
    intro v hv x hxP
    rcases List.mem_append.mp hv with hv' | hv'
    · exact List.mem_cons.mpr (Or.inr (inv.ready v (by simp [hv']) x hxP))
    · obtain ⟨hsu, hvn, hv1⟩ := henq_mem v hv'
      have hold := inv.deg_eq v hvn
      have hlen : ((predsIn nodes succ v).filter
          (fun y => decide (y ∈ u :: acc))).length =
          (predsIn nodes succ v).length := by
        rw [filter_mem_cons_length (predsIn_nodup hn succ v) huacc,
          if_pos ((huP v).mpr hsu)]
        omega
      have := all_of_length_filter_eq hlen x hxP
      simpa using this
  · refine List.pairwise_cons.mpr ⟨?_, inv.acc_pairs⟩
    intro b hb hmem
    exact huacc (inv.acc_cov b hb u hmem)
  · intro v hv x hxP
    rcases List.mem_cons.mp hv with rfl | hv'
    · exact List.mem_cons.mpr (Or.inr (inv.ready v (by simp) x hxP))
    · exact List.mem_cons.mpr (Or.inr (inv.acc_cov v hv' x hxP))
  · rw [hq2]
    intro v hv
    rcases hv with hv' | hv'
    · rcases List.mem_append.mp hv' with h | h
      · exact le_trans (hdle v) (inv.member_nonpos v (Or.inl (by simp [h])))
      · obtain ⟨hsu, hvn, hv1⟩ := henq_mem v h
        rw [hdeg v, if_pos ⟨hsu, hvn⟩]
        omega
    · rcases List.mem_cons.mp hv' with rfl | h
      · exact le_trans (hdle v) hudeg
      · exact le_trans (hdle v) (inv.member_nonpos v (Or.inr h))
  · rw [hq2]
    intro v hv hz
    rw [hdeg v] at hz
    by_cases hc : v ∈ succ u ∧ v ∈ nodes
    · rw [if_pos hc] at hz
      refine Or.inl (List.mem_append.mpr (Or.inr ?_))
      rw [henq, List.mem_filter]
      refine ⟨hc.1, ?_⟩
      simp only [Bool.and_eq_true, decide_eq_true_eq]
      exact ⟨hc.2, by omega⟩
    · rw [if_neg hc] at hz
      rcases inv.zero_mem v hv hz with h | h
      · rcases List.mem_cons.mp h with rfl | h'
        · exact Or.inr (by simp)
        · exact Or.inl (List.mem_append.mpr (Or.inl h'))
      · exact Or.inr (by simp [h])

lemma initIndeg_eq {nodes : List String} {succ : String → List String}
    (hs : ∀ u, (succ u).Nodup) {v : String} (hv : v ∈ nodes) :
    initIndeg nodes succ v = ((predsIn nodes succ v).length : ℤ) := by
  unfold initIndeg predsIn
  rw [if_pos hv]
  clear hv
  induction nodes with
  | nil => simp
  | cons u L ih =>
    rw [List.map_cons, List.sum_cons, List.filter_cons, ih]
    by_cases h : v ∈ succ u
    · rw [if_pos (by simpa using h), List.count_eq_one_of_mem (hs u) h]
      simp only [List.length_cons]
      push_cast
      ring
    · rw [if_neg (by simpa using h), List.count_eq_zero_of_not_mem h]
      simp

/-- The invariant holds on the initial state of `_topo_sort`. -/
lemma KInv_init {nodes : List String} {succ : String → List String}
    (hn : nodes.Nodup) (hs : ∀ u, (succ u).Nodup) :
    KInv nodes succ (initIndeg nodes succ)
      (nodes.filter (fun u => decide (initIndeg nodes succ u = 0))) [] := by
  have hq0 : ∀ v, v ∈ nodes.filter (fun u => decide (initIndeg nodes succ u = 0)) ↔
      v ∈ nodes ∧ initIndeg nodes succ v = 0 := by
    intro v
    rw [List.mem_filter]
    simp
  refine ⟨List.Pairwise.nil, hn.filter _, ?_, ?_, ?_, ?_, ?_, List.Pairwise.nil, ?_, ?_, ?_⟩
  · intro x _ hx
    cases hx
  · intro x hx
    exact ((hq0 x).mp hx).1
  · intro x hx
    cases hx
  · intro v hv
    rw [initIndeg_eq hs hv]
    have : (predsIn nodes succ v).filter (fun u => decide (u ∈ ([] : List String))) = [] := by
      simp
    rw [this]
    simp
  · intro v hv u hu
    exfalso
    obtain ⟨hvn, hz⟩ := (hq0 v).mp hv
    rw [initIndeg_eq hs hvn] at hz
    have : (predsIn nodes succ v).length = 0 := by exact_mod_cast hz
    rw [List.length_eq_zero] at this
    rw [this] at hu
    cases hu
  · intro v hv u hu
    cases hv
  · intro v hv
    rcases hv with hv' | hv'
    · have := ((hq0 v).mp hv').2
      omega
    · cases hv'
  · intro v hv hz
    exact Or.inl ((hq0 v).mpr ⟨hv, hz⟩)

/-- With enough fuel the loop drains the queue while keeping the
invariant; every popped node stays popped. -/
lemma kahnLoop_spec {nodes : List String} {succ : String → List String}
    (hn : nodes.Nodup) (hs : ∀ u, (succ u).Nodup) :
    ∀ (fuel : ℕ) (deg : String → ℤ) (q acc : List String),
      KInv nodes succ deg q acc → nodes.length - acc.length < fuel →
      ∃ deg' acc', kahnLoop nodes succ fuel deg q acc = acc'.reverse ∧
        KInv nodes succ deg' [] acc' ∧ ∀ x ∈ acc, x ∈ acc' := by
  intro fuel
  induction fuel with
  | zero =>
    intro deg q acc inv hlt
    exfalso
    have := (List.subperm_of_subset inv.acc_nodup inv.acc_sub).length_le
    omega
  | succ f ih =>
    intro deg q acc inv hlt
    cases q with
    | nil => exact ⟨deg, acc, rfl, inv, fun x hx => hx⟩
    | cons u q' =>
      have step := KInv_step hn hs inv
      have hacc1 : acc.length + 1 ≤ nodes.length := by
        have hsub : (u :: acc).Subperm nodes :=
          List.subperm_of_subset step.acc_nodup step.acc_sub
        have := hsub.length_le
        simpa using this
      have hfb : nodes.length - (u :: acc).length < f := by
        simp only [List.length_cons]
        omega
      obtain ⟨deg', acc', heq, hinv, hsub⟩ := ih _ _ _ step hfb
      refine ⟨deg', acc', ?_, hinv, fun x hx => hsub x (by simp [hx])⟩
      simp only [kahnLoop]
      exact heq

/-- A finite nonempty set in which every element has a predecessor in
the set contains a cycle. -/
lemma exists_cycle_of_all_have_pred {α : Type} (r : α → α → Prop) (S : List α)
    (hne : S ≠ []) (hstep : ∀ v ∈ S, ∃ u ∈ S, r u v) :
    ∃ v, Relation.TransGen r v v := by
  classical
  obtain ⟨v₀, hv₀⟩ := List.exists_mem_of_ne_nil S hne
  let f : ℕ → {x // x ∈ S} := fun n =>
    Nat.rec ⟨v₀, hv₀⟩ (fun _ prev =>
      ⟨Classical.choose (hstep prev.1 prev.2),
        (Classical.choose_spec (hstep prev.1 prev.2)).1⟩) n
  have hf : ∀ n, r (f (n+1)).1 (f n).1 := by
    intro n
    exact (Classical.choose_spec (hstep (f n).1 (f n).2)).2
  have hchain : ∀ i j, i < j → Relation.TransGen r (f j).1 (f i).1 := by
    intro i j hij
    induction j with
    | zero => omega
    | succ j ihj =>
      rcases Nat.lt_succ_iff_lt_or_eq.mp hij with h | h
      · exact Relation.TransGen.head (hf j) (ihj h)
      · subst h
        exact Relation.TransGen.single (hf _)
  have hmaps : ∀ n ∈ Finset.range (S.length + 1), (f n).1 ∈ S.toFinset := by
    intro n _
    exact List.mem_toFinset.mpr (f n).2
  have hcard : S.toFinset.card < (Finset.range (S.length + 1)).card := by
    rw [Finset.card_range]
    have := S.toFinset_card_le
    omega
  obtain ⟨i, hi, j, hj, hij, heq⟩ :=
    Finset.exists_ne_map_eq_of_card_lt_of_maps_to hcard hmaps
  rcases Nat.lt_or_ge i j with h | h
  · exact ⟨(f i).1, heq ▸ hchain i j h⟩
  · have h' : j < i := by omega
    exact ⟨(f j).1, heq ▸ hchain j i h'⟩

/-- Dependency edge of a successor map, both endpoints nodes. -/
def KEdge (nodes : List String) (succ : String → List String) (a b : String) : Prop :=
  a ∈ nodes ∧ b ∈ nodes ∧ b ∈ succ a

/-- On an acyclic graph Kahn's loop pops every node, in an order where
predecessors come first. -/
lemma kahn_final {nodes : List String} {succ : String → List String}
    (hn : nodes.Nodup) (hs : ∀ u, (succ u).Nodup)
    (hacyc : ∀ x, ¬ Relation.TransGen (KEdge nodes succ) x x) :
    ∃ acc' : List String, kahnLoop nodes succ (nodes.length + 1) (initIndeg nodes succ)
        (nodes.filter (fun u => decide (initIndeg nodes succ u = 0))) [] = acc'.reverse ∧
      acc'.Nodup ∧ (∀ x ∈ acc', x ∈ nodes) ∧ (∀ x ∈ nodes, x ∈ acc') ∧
      acc'.Pairwise (fun a b => a ∉ predsIn nodes succ b) ∧
      (∀ v ∈ acc', ∀ u ∈ predsIn nodes succ v, u ∈ acc') := by
  obtain ⟨deg', acc', heq, hinv, _⟩ :=
    kahnLoop_spec hn hs (nodes.length + 1) _ _ _ (KInv_init hn hs)
      (by simp only [List.length_nil]; omega)
  refine ⟨acc', heq, hinv.acc_nodup, hinv.acc_sub, ?_, hinv.acc_pairs, hinv.acc_cov⟩
  by_contra hmiss
  push_neg at hmiss
  obtain ⟨x₀, hx₀n, hx₀⟩ := hmiss
  set S := nodes.filter (fun x => decide (x ∉ acc')) with hS
  have hSne : S ≠ [] := by
    intro h
    have hx : x₀ ∈ S := by
      rw [hS, List.mem_filter]
      exact ⟨hx₀n, by simpa using hx₀⟩
    rw [h] at hx
    cases hx
  have hstep : ∀ v ∈ S, ∃ u ∈ S, KEdge nodes succ u v := by
    intro v hv
    rw [hS, List.mem_filter] at hv
    obtain ⟨hvn, hvacc⟩ := hv
    have hvacc' : v ∉ acc' := by simpa using hvacc
    have hdnz : deg' v ≠ 0 := by
      intro h
      rcases hinv.zero_mem v hvn h with h' | h'
      · cases h'
      · exact hvacc' h'
    have hdeq := hinv.deg_eq v hvn
    have hle := List.length_filter_le (fun u => decide (u ∈ acc')) (predsIn nodes succ v)
    have hlt : ((predsIn nodes succ v).filter (fun u => decide (u ∈ acc'))).length
        < (predsIn nodes succ v).length := by
      rcases lt_or_eq_of_le hle with h | h
      · exact h
      · exfalso
        apply hdnz
        omega
    obtain ⟨u, huP, hunotacc⟩ : ∃ u ∈ predsIn nodes succ v, u ∉ acc' := by
      by_contra hall
      push_neg at hall
      have hself : (predsIn nodes succ v).filter (fun u => decide (u ∈ acc')) =
          predsIn nodes succ v := by
        apply List.filter_eq_self.mpr
        intro a ha
        simpa using hall a ha
      rw [hself] at hlt
      omega
    have huP' := mem_predsIn.mp huP
    refine ⟨u, ?_, ⟨huP'.1, hvn, huP'.2⟩⟩
    rw [hS, List.mem_filter]
    exact ⟨huP'.1, by simpa using hunotacc⟩
  obtain ⟨v, hcyc⟩ := exists_cycle_of_all_have_pred _ S hSne hstep
  exact hacyc v hcyc

/-- On an acyclic graph with duplicate-free ids and edge lists,
`_topo_sort` returns a permutation of the nodes in which every
predecessor of a node appears before it. -/
lemma topo_sort_spec_acyclic {nodes : List String} {succ : String → List String}
    (hn : nodes.Nodup) (hs : ∀ u, (succ u).Nodup)
    (hacyc : ∀ x, ¬ Relation.TransGen (KEdge nodes succ) x x) :
    (topo_sort nodes succ).Nodup ∧
    (∀ x, x ∈ topo_sort nodes succ ↔ x ∈ nodes) ∧
    (∀ l₁ v l₂, topo_sort nodes succ = l₁ ++ v :: l₂ →
      ∀ u ∈ predsIn nodes succ v, u ∈ l₁) := by
  obtain ⟨acc', heq, hnd, hsub, hcompl, hpairs, hcov⟩ := kahn_final hn hs hacyc
  have hlen : acc'.length = nodes.length :=
    le_antisymm ((List.subperm_of_subset hnd hsub).length_le)
      ((List.subperm_of_subset hn hcompl).length_le)
  have horder : topo_sort nodes succ = acc'.reverse := by
    simp only [topo_sort]
    rw [heq, if_neg (by simp [hlen])]
  have hmem : ∀ x, x ∈ topo_sort nodes succ ↔ x ∈ nodes := by
    intro x
    rw [horder, List.mem_reverse]
    exact ⟨fun h => hsub x h, fun h => hcompl x h⟩
  refine ⟨by rw [horder]; exact List.nodup_reverse.mpr hnd, hmem, ?_⟩
  have hp : (acc'.reverse).Pairwise (fun a b => b ∉ predsIn nodes succ a) := by
    rw [List.pairwise_reverse]
    exact hpairs
  intro l₁ v l₂ hsplit u huP
  have huP' := mem_predsIn.mp huP
  have hu_in : u ∈ l₁ ++ v :: l₂ := by
    rw [← hsplit, hmem]
    exact huP'.1
  have hv_in : v ∈ nodes := by
    rw [← hmem, hsplit]
    simp
  rcases List.mem_append.mp hu_in with h | h
  · exact h
  · rcases List.mem_cons.mp h with rfl | h'
    · exfalso
      exact hacyc u (Relation.TransGen.single ⟨huP'.1, hv_in, huP'.2⟩)
    · exfalso
      rw [horder] at hsplit
      rw [hsplit] at hp
      have := (List.pairwise_append.mp hp).2.1
      exact (List.pairwise_cons.mp this).1 u h' huP

/-! ## Plain PERT forward pass (`cpa.py`, step 1 of `_run_pert_rcpsp_calc`) -/

/-- Python's `max` over a nonempty list (the `[]` case is guarded in
the source by `if preds[u]`). -/
def qmax : List ℚ → ℚ
  | [] => 0
  | x :: xs => xs.foldl max x

lemma qfoldl_max_base : ∀ (xs : List ℚ) (b : ℚ), b ≤ xs.foldl max b := by
  intro xs
  induction xs with
  | nil => intro b; exact le_refl b
  | cons x xs ih => intro b; exact le_trans (le_max_left b x) (ih (max b x))

lemma qfoldl_max_mem : ∀ {xs : List ℚ} {b x : ℚ}, x ∈ xs → x ≤ xs.foldl max b := by
  intro xs
  induction xs with
  | nil => intro b x hx; cases hx
  | cons y ys ih =>
    intro b x hx
    rcases List.mem_cons.mp hx with rfl | hx'
    · exact le_trans (le_max_right b x) (qfoldl_max_base ys (max b x))
    · exact ih hx'

lemma le_qmax {l : List ℚ} {x : ℚ} (hx : x ∈ l) : x ≤ qmax l := by
  cases l with
  | nil => cases hx
  | cons y ys =>
    show x ≤ ys.foldl max y
    rcases List.mem_cons.mp hx with rfl | hx'
    · exact qfoldl_max_base ys x
    · exact qfoldl_max_mem hx'

/-- Forward pass in topological order:
`ES0[u] = max(EF0[p] for p in preds[u])` when `preds[u]` is nonempty,
`EF0[u] = ES0[u] + max(0.0, dur[u])`. -/
def pertForward (preds : String → List String) (dur : String → ℚ) :
    List String → (String → ℚ) → (String → ℚ) → (String → ℚ) × (String → ℚ)
  | [], ES, EF => (ES, EF)
  | u :: rest, ES, EF =>
    let es_u := if (preds u).isEmpty then ES u else qmax ((preds u).map EF)
    pertForward preds dur rest
      (fun v => if v = u then es_u else ES v)
      (fun v => if v = u then es_u + max 0 (dur u) else EF v)

lemma pertForward_stable (preds : String → List String) (dur : String → ℚ) :
    ∀ (l : List String) (ES EF : String → ℚ) (v : String), v ∉ l →
      (pertForward preds dur l ES EF).1 v = ES v ∧
      (pertForward preds dur l ES EF).2 v = EF v := by
  intro l
  induction l with
  | nil => intro ES EF v _; exact ⟨rfl, rfl⟩
  | cons u rest ih =>
    intro ES EF v hv
    have hvu : v ≠ u := fun h => hv (by simp [h])
    have hvr : v ∉ rest := fun h => hv (by simp [h])
    simp only [pertForward]
    obtain ⟨h1, h2⟩ := ih _ _ v hvr
    rw [h1, h2, if_neg hvu, if_neg hvu]
    exact ⟨rfl, rfl⟩

/-- In a processing order where no predecessor of a node appears at or
after the node itself, the forward pass satisfies
`EF[p] ≤ ES[v]` for every edge `p → v` with `v` in the order. -/
lemma pertForward_edge (preds : String → List String) (dur : String → ℚ) :
    ∀ (l : List String) (ES EF : String → ℚ), l.Nodup →
      (∀ l₁ v l₂, l = l₁ ++ v :: l₂ → ∀ p ∈ preds v, p ∉ v :: l₂) →
      ∀ v ∈ l, ∀ p ∈ preds v,
        (pertForward preds dur l ES EF).2 p ≤ (pertForward preds dur l ES EF).1 v := by
  intro l
  induction l with
  | nil => intro ES EF _ _ v hv; cases hv
  | cons u rest ih =>
    intro ES EF hnd htopo v hv p hp
    obtain ⟨hur, hrestnd⟩ := List.nodup_cons.mp hnd
    rcases List.mem_cons.mp hv with rfl | hv'
    · -- v is processed first
      have hnp : p ∉ v :: rest := htopo [] v rest rfl p hp
      have hpv : p ≠ v := fun h => hnp (by simp [h])
      have hpr : p ∉ rest := fun h => hnp (by simp [h])
      simp only [pertForward]
      obtain ⟨hs1, hs2⟩ := pertForward_stable preds dur rest _ _ p hpr
      obtain ⟨ht1, _⟩ := pertForward_stable preds dur rest _ _ v hur
      rw [hs2, ht1, if_neg hpv, if_pos rfl]
      have hne : ¬ (preds v).isEmpty := by
        rw [List.isEmpty_iff]
        intro h
        rw [h] at hp
        cases hp
      rw [if_neg hne]
      exact le_qmax (List.mem_map.mpr ⟨p, hp, rfl⟩)
    · -- v is processed later: the suffix run settles it
      simp only [pertForward]
      refine ih _ _ hrestnd ?_ v hv' p hp
      intro l₁ w l₂ hsplit q hq
      exact fun hmem =>
        htopo (u :: l₁) w l₂ (by simp [hsplit]) q hq (by simp [hmem])

/-! ## RCPSP forward simulation (`cpa.py`, step 2 of
`_run_pert_rcpsp_calc`) -/

/-- State of the event simulation.  `log` records the scheduled tasks
in scheduling order (the source keeps the same set in `scheduled`). -/
structure RState where
  ES : String → ℚ
  EF : String → ℚ
  nextFree : Option String → ℚ
  depsFin : String → ℚ
  indeg : String → ℤ
  heap : List (ℚ × String)
  log : List String

/-- `try_schedule(u, current_time)`:
`start = max(current_time, next_free.get(user, 0.0), deps_finish.get(u, 0.0))`,
`EF[u] = start + max(0.0, dur[u])`, the owner is busy until then, and
`(EF[u], u)` is pushed on the event heap. -/
def rTrySchedule (ts : List CTask) (s : RState) (u : String) (currentTime : ℚ) : RState :=
  let user := cassignee ts u
  let start_u := max currentTime (max (s.nextFree user) (s.depsFin u))
  let ef := start_u + max 0 (cdur ts u)
  { ES := fun v => if v = u then start_u else s.ES v
    EF := fun v => if v = u then ef else s.EF v
    nextFree := fun w => if w = user then ef else s.nextFree w
    depsFin := s.depsFin
    indeg := s.indeg
    heap := (ef, u) :: s.heap
    log := s.log ++ [u] }

/-- Lexicographic order on heap entries, as Python compares the tuples
`(finish_time, node)`. -/
def pairLt (a b : ℚ × String) : Bool :=
  decide (a.1 < b.1) || (decide (a.1 = b.1) && decide (a.2 < b.2))

def heapMin (x : ℚ × String) (l : List (ℚ × String)) : ℚ × String :=
  l.foldl (fun m y => if pairLt y m then y else m) x

/-- `heapq.heappop`: remove and return the smallest tuple. -/
def popMin : List (ℚ × String) → Option ((ℚ × String) × List (ℚ × String))
  | [] => none
  | x :: xs =>
    let m := heapMin x xs
    some (m, (x :: xs).erase m)

/-- Body of `for v in succ.get(done, [])`: record the dependency
finish, decrement the in-degree, and schedule the node if it became
ready (`current_time` is the finish time just popped). -/
def rVisit (ts : List CTask) (ft : ℚ) (st : RState) (v : String) : RState :=
  let st' : RState := { st with
    depsFin := fun x => if x = v then max (st.depsFin v) ft else st.depsFin x,
    indeg := fun x => if x = v then st.indeg v - 1 else st.indeg x }
  if st.indeg v - 1 = 0 then rTrySchedule ts st' v ft else st'

/-- The `while heap` event loop. -/
def rcpspLoop (ts : List CTask) : ℕ → RState → RState
  | 0, s => s
  | fuel+1, s =>
    match popMin s.heap with
    | none => s
    | some ((ft, done), rest) =>
      rcpspLoop ts fuel ((csucc ts done).foldl (rVisit ts ft) { s with heap := rest })

/-- In-degree from `preds` (whose entries are all node ids). -/
def rIndeg0 (ts : List CTask) (v : String) : ℤ :=
  if v ∈ cnodes ts then ((cpreds ts v).length : ℤ) else 0

/-- The initial ready list, sorted by the deterministic key
`(_issue_key_number(x), x)`. -/
def rReady (ts : List CTask) : List String :=
  sortLE keyTupleLE ((cnodes ts).filter (fun k => decide (rIndeg0 ts k = 0)))

/-- The whole RCPSP forward pass: schedule all in-degree-0 tasks at
time 0, then run the event loop. -/
def rcpspRun (ts : List CTask) : RState :=
  let s0 : RState :=
    { ES := fun _ => 0, EF := fun _ => 0, nextFree := fun _ => 0,
      depsFin := fun _ => 0, indeg := rIndeg0 ts, heap := [], log := [] }
  let s1 := (rReady ts).foldl (fun s u => rTrySchedule ts s u 0) s0
  rcpspLoop ts ((cnodes ts).length + 1) s1

/-- `makespan = max((EF[u] for u in nodes), default=0.0)`. -/
def rcpspMakespan (ts : List CTask) : ℚ :=
  qmax ((cnodes ts).map (rcpspRun ts).EF)

/-- `makespan0` of the plain PERT pass. -/
def pertES0 (ts : List CTask) : String → ℚ :=
  (pertForward (cpreds ts) (cdur ts) (topo_sort (cnodes ts) (csucc ts))
    (fun _ => 0) (fun u => max 0 (cdur ts u))).1

def pertEF0 (ts : List CTask) : String → ℚ :=
  (pertForward (cpreds ts) (cdur ts) (topo_sort (cnodes ts) (csucc ts))
    (fun _ => 0) (fun u => max 0 (cdur ts u))).2

def pertMakespan0 (ts : List CTask) : ℚ :=
  qmax ((cnodes ts).map (pertEF0 ts))

def heapKeys (s : RState) : List String := s.heap.map Prod.snd

/-- A task is popped when it was scheduled and its completion event has
left the heap. -/
def poppedB (s : RState) (p : String) : Bool :=
  decide (p ∈ s.log) && !(decide (p ∈ heapKeys s))

/-- Fields of the RCPSP invariant that `try_schedule` preserves
directly (they mention neither `indeg` nor `depsFin`). -/
structure RCore (ts : List CTask) (s : RState) : Prop where
  log_nodup : s.log.Nodup
  log_sub : ∀ x ∈ s.log, x ∈ cnodes ts
  heap_log : ∀ pr ∈ s.heap, pr.2 ∈ s.log ∧ pr.1 = s.EF pr.2
  hkeys_nodup : (heapKeys s).Nodup
  sched_popped : ∀ v ∈ s.log, ∀ p ∈ cpreds ts v, poppedB s p = true
  edge_ok : ∀ v ∈ s.log, ∀ p ∈ cpreds ts v, s.EF p ≤ s.ES v
  owner_chain : s.log.Pairwise
      (fun a b => cassignee ts a = cassignee ts b → s.EF a ≤ s.ES b)
  nextFree_ge : ∀ a ∈ s.log, s.EF a ≤ s.nextFree (cassignee ts a)
  es_ef : ∀ a ∈ s.log, s.ES a ≤ s.EF a
  unsched_zero : ∀ v, v ∉ s.log → s.ES v = 0 ∧ s.EF v = 0

/-- Invariant of the RCPSP simulation between loop iterations. -/
structure RInv (ts : List CTask) (s : RState) extends RCore ts s : Prop where
  indeg_eq : ∀ v ∈ cnodes ts, s.indeg v =
      ((cpreds ts v).length : ℤ) - (((cpreds ts v).filter (poppedB s)).length : ℤ)
  depsFin_ge : ∀ (v p : String), p ∈ cpreds ts v → poppedB s p = true →
      s.EF p ≤ s.depsFin v
  zero_mem : ∀ v ∈ cnodes ts, s.indeg v = 0 → v ∈ s.log

/-- Invariant of the RCPSP simulation in the middle of processing the
successors of the just-popped task `done`; `vs` are the successor
entries still to visit. -/
structure RMid (ts : List CTask) (done : String) (ft : ℚ) (vs : List String)
    (s : RState) extends RCore ts s : Prop where
  done_log : done ∈ s.log
  done_not_heap : done ∉ heapKeys s
  ft_eq : ft = s.EF done
  vs_nodup : vs.Nodup
  vs_pred : ∀ v ∈ vs, done ∈ cpreds ts v
  vs_nodes : ∀ v ∈ vs, v ∈ cnodes ts
  vs_unlogged : ∀ v ∈ vs, v ∉ s.log
  indeg_mid : ∀ v ∈ cnodes ts, s.indeg v =
      ((cpreds ts v).length : ℤ) - (((cpreds ts v).filter (poppedB s)).length : ℤ)
      + (if v ∈ vs then 1 else 0)
  depsFin_ge : ∀ (v p : String), p ∈ cpreds ts v → poppedB s p = true →
      (p = done → v ∉ vs) → s.EF p ≤ s.depsFin v
  zero_mem : ∀ v ∈ cnodes ts, s.indeg v = 0 → v ∈ s.log

/-- Invariant of the initial scheduling of the in-degree-0 tasks;
`rem` is the part of the sorted ready list still to process. -/
structure RInit (ts : List CTask) (rem : List String) (s : RState)
    extends RCore ts s : Prop where
  indeg_eq : ∀ v ∈ cnodes ts, s.indeg v =
      ((cpreds ts v).length : ℤ) - (((cpreds ts v).filter (poppedB s)).length : ℤ)
  depsFin_ge : ∀ (v p : String), p ∈ cpreds ts v → poppedB s p = true →
      s.EF p ≤ s.depsFin v
  rem_nodes : ∀ v ∈ rem, v ∈ cnodes ts
  rem_zero : ∀ v ∈ rem, s.indeg v = 0
  rem_unlogged : ∀ v ∈ rem, v ∉ s.log
  rem_nodup : rem.Nodup
  zero_mem : ∀ v ∈ cnodes ts, s.indeg v = 0 → v ∈ s.log ∨ v ∈ rem

lemma heapMin_mem : ∀ (xs : List (ℚ × String)) (x : ℚ × String),
    heapMin x xs ∈ x :: xs := by
  intro xs
  induction xs with
  | nil => intro x; simp [heapMin]
  | cons y ys ih =>
    intro x
    have hmem := ih (if pairLt y x then y else x)
    unfold heapMin at hmem ⊢
    rw [List.foldl_cons]
    rcases List.mem_cons.mp hmem with h' | h'
    · rw [h']
      by_cases h : pairLt y x
      · rw [if_pos h]; simp
      · rw [if_neg h]; simp
    · simp [h']

lemma popMin_spec {l : List (ℚ × String)} {m : ℚ × String}
    {rest : List (ℚ × String)} (h : popMin l = some (m, rest)) :
    m ∈ l ∧ rest = l.erase m := by
  cases l with
  | nil => cases h
  | cons x xs =>
    simp only [popMin, Option.some.injEq, Prod.mk.injEq] at h
    obtain ⟨h1, h2⟩ := h
    subst h1
    exact ⟨heapMin_mem xs x, h2.symm⟩

/-- Counting change of a filter when the predicate flips at exactly one
element. -/
lemma length_filter_flip {l : List String} (hl : l.Nodup) {p q : String → Bool}
    {d : String} (hagree : ∀ x ∈ l, x ≠ d → p x = q x)
    (hdp : p d = false) (hdq : q d = true) :
    ((l.filter q).length : ℤ) = ((l.filter p).length : ℤ) + (if d ∈ l then 1 else 0) := by
  induction l with
  | nil => simp
  | cons a L ih =>
    obtain ⟨haL, hLnd⟩ := List.nodup_cons.mp hl
    rw [List.filter_cons, List.filter_cons]
    by_cases had : a = d
    · subst had
      rw [if_pos hdq, if_neg (by simp [hdp]), if_pos (by simp)]
      have hres : ∀ x ∈ L, p x = q x := by
        intro x hx
        exact hagree x (by simp [hx]) (fun h => haL (h ▸ hx))
      have : L.filter q = L.filter p := by
        apply List.filter_congr
        intro x hx
        exact (hres x hx).symm
      rw [this]
      simp
    · have hpa : p a = q a := hagree a (by simp) had
      have hmm : (d ∈ a :: L) ↔ (d ∈ L) := by
        simp only [List.mem_cons]
        constructor
        · rintro (h | h)
          · exact absurd h.symm had
          · exact h
        · exact Or.inr
      simp only [hmm]
      by_cases hq : q a = true
      · rw [if_pos hq, if_pos (by rw [hpa]; exact hq)]
        simp only [List.length_cons]
        push_cast
        rw [ih hLnd (fun x hx hxd => hagree x (by simp [hx]) hxd)]
        ring
      · rw [if_neg hq, if_neg (by rw [hpa]; exact hq)]
        exact ih hLnd (fun x hx hxd => hagree x (by simp [hx]) hxd)

/-- `start = max(current_time, next_free.get(user, 0.0), deps_finish.get(u, 0.0))`. -/
def rStart (ts : List CTask) (s : RState) (u : String) (c : ℚ) : ℚ :=
  max c (max (s.nextFree (cassignee ts u)) (s.depsFin u))

def rEF (ts : List CTask) (s : RState) (u : String) (c : ℚ) : ℚ :=
  rStart ts s u c + max 0 (cdur ts u)

lemma rTS_log (ts : List CTask) (s : RState) (u : String) (c : ℚ) :
    (rTrySchedule ts s u c).log = s.log ++ [u] := rfl

lemma rTS_indeg (ts : List CTask) (s : RState) (u : String) (c : ℚ) :
    (rTrySchedule ts s u c).indeg = s.indeg := rfl

lemma rTS_depsFin (ts : List CTask) (s : RState) (u : String) (c : ℚ) :
    (rTrySchedule ts s u c).depsFin = s.depsFin := rfl

lemma rTS_heap (ts : List CTask) (s : RState) (u : String) (c : ℚ) :
    (rTrySchedule ts s u c).heap = (rEF ts s u c, u) :: s.heap := rfl

lemma heapKeys_rTS (ts : List CTask) (s : RState) (u : String) (c : ℚ) :
    heapKeys (rTrySchedule ts s u c) = u :: heapKeys s := rfl

lemma rTS_ES_ne {ts : List CTask} {s : RState} {u x : String} {c : ℚ}
    (hx : x ≠ u) : (rTrySchedule ts s u c).ES x = s.ES x := by
  simp [rTrySchedule, hx]

lemma rTS_ES_self (ts : List CTask) (s : RState) (u : String) (c : ℚ) :
    (rTrySchedule ts s u c).ES u = rStart ts s u c := by
  simp [rTrySchedule, rStart]

lemma rTS_EF_ne {ts : List CTask} {s : RState} {u x : String} {c : ℚ}
    (hx : x ≠ u) : (rTrySchedule ts s u c).EF x = s.EF x := by
  simp [rTrySchedule, hx]

lemma rTS_EF_self (ts : List CTask) (s : RState) (u : String) (c : ℚ) :
    (rTrySchedule ts s u c).EF u = rEF ts s u c := by
  simp [rTrySchedule, rEF, rStart]

lemma rTS_nextFree_ne {ts : List CTask} {s : RState} {u : String}
    {w : Option String} {c : ℚ} (hw : w ≠ cassignee ts u) :
    (rTrySchedule ts s u c).nextFree w = s.nextFree w := by
  simp [rTrySchedule, hw]

lemma rTS_nextFree_user (ts : List CTask) (s : RState) (u : String) (c : ℚ) :
    (rTrySchedule ts s u c).nextFree (cassignee ts u) = rEF ts s u c := by
  simp [rTrySchedule, rEF, rStart]

lemma rStart_le_rEF (ts : List CTask) (s : RState) (u : String) (c : ℚ) :
    rStart ts s u c ≤ rEF ts s u c :=
  le_add_of_nonneg_right (le_max_left 0 _)

lemma nextFree_le_rStart (ts : List CTask) (s : RState) (u : String) (c : ℚ) :
    s.nextFree (cassignee ts u) ≤ rStart ts s u c :=
  le_trans (le_max_left _ _) (le_max_right _ _)

lemma depsFin_le_rStart (ts : List CTask) (s : RState) (u : String) (c : ℚ) :
    s.depsFin u ≤ rStart ts s u c :=
  le_trans (le_max_right _ _) (le_max_right _ _)

lemma popped_mem_log {s : RState} {p : String} (h : poppedB s p = true) :
    p ∈ s.log := by
  unfold poppedB at h
  simp only [Bool.and_eq_true, decide_eq_true_eq] at h
  exact h.1

lemma popped_not_heap {s : RState} {p : String} (h : poppedB s p = true) :
    p ∉ heapKeys s := by
  unfold poppedB at h
  simp only [Bool.and_eq_true, Bool.not_eq_eq_eq_not, Bool.not_true,
    decide_eq_true_eq, decide_eq_false_iff_not] at h
  exact h.2

lemma poppedB_rTS {ts : List CTask} {s : RState} {u : String} {c : ℚ}
    (hul : u ∉ s.log) : poppedB (rTrySchedule ts s u c) = poppedB s := by
  funext x
  unfold poppedB
  rw [heapKeys_rTS, rTS_log]
  by_cases hx : x = u
  · subst hx
    simp [hul]
  · simp [List.mem_append, List.mem_cons, hx]

lemma heapKeys_sub_log {ts : List CTask} {s : RState} (hc : RCore ts s) :
    ∀ x ∈ heapKeys s, x ∈ s.log := by
  intro x hx
  obtain ⟨pr, hpr, hx2⟩ := List.mem_map.mp hx
  rw [← hx2]
  exact (hc.heap_log pr hpr).1

/-- `try_schedule` preserves the core invariant when applied to a fresh
node all of whose predecessors have finished by the chosen start. -/
lemma rTrySchedule_core {ts : List CTask} {s : RState} {u : String} {c : ℚ}
    (hc : RCore ts s) (hu : u ∈ cnodes ts) (hul : u ∉ s.log)
    (hpp : ∀ p ∈ cpreds ts u, poppedB s p = true)
    (hpre : ∀ p ∈ cpreds ts u, s.EF p ≤ rStart ts s u c) :
    RCore ts (rTrySchedule ts s u c) := by
  have hunh : u ∉ heapKeys s := fun h => hul (heapKeys_sub_log hc u h)
  have hmemlog : ∀ x, x ∈ s.log ++ [u] ↔ x ∈ s.log ∨ x = u := by
    intro x; simp [List.mem_append]
  refine ⟨?_, ?_, ?_, ?_, ?_, ?_, ?_, ?_, ?_, ?_⟩
  · rw [rTS_log]
    exact hc.log_nodup.append (List.nodup_singleton u)
      (fun a ha hb => hul (by rwa [List.mem_singleton.mp hb] at ha))
  · intro x hx
    rw [rTS_log, hmemlog] at hx
    rcases hx with hx | rfl
    · exact hc.log_sub x hx
    · exact hu
  · intro pr hpr
    rw [rTS_heap] at hpr
    rcases List.mem_cons.mp hpr with rfl | hpr'
    · refine ⟨by rw [rTS_log, hmemlog]; exact Or.inr rfl, ?_⟩
      rw [rTS_EF_self]
    · obtain ⟨h1, h2⟩ := hc.heap_log pr hpr'
      have hne : pr.2 ≠ u := fun h => hul (h ▸ h1)
      refine ⟨by rw [rTS_log, hmemlog]; exact Or.inl h1, ?_⟩
      rw [rTS_EF_ne hne]; exact h2
  · rw [heapKeys_rTS]
    exact List.nodup_cons.mpr ⟨hunh, hc.hkeys_nodup⟩
  · intro v hv p hp
    rw [poppedB_rTS hul]
    rw [rTS_log, hmemlog] at hv
    rcases hv with hv | rfl
    · exact hc.sched_popped v hv p hp
    · exact hpp p hp
  · intro v hv p hp
    rw [rTS_log, hmemlog] at hv
    rcases hv with hv | hveq
    · have hplog : p ∈ s.log := popped_mem_log (hc.sched_popped v hv p hp)
      have hpne : p ≠ u := fun h => hul (h ▸ hplog)
      have hvne : v ≠ u := fun h => hul (h ▸ hv)
      rw [rTS_EF_ne hpne, rTS_ES_ne hvne]
      exact hc.edge_ok v hv p hp
    · subst v
      have hplog : p ∈ s.log := popped_mem_log (hpp p hp)
      have hpne : p ≠ u := fun h => hul (h ▸ hplog)
      rw [rTS_EF_ne hpne, rTS_ES_self]
      exact hpre p hp
  · rw [rTS_log]
    rw [List.pairwise_append]
    refine ⟨?_, List.pairwise_singleton _ _, ?_⟩
    · refine hc.owner_chain.imp_of_mem ?_
      intro a b ha hb hab hassn
      have hane : a ≠ u := fun h => hul (h ▸ ha)
      have hbne : b ≠ u := fun h => hul (h ▸ hb)
      rw [rTS_EF_ne hane, rTS_ES_ne hbne]
      exact hab hassn
    · intro a ha b hb hassn
      rw [List.mem_singleton] at hb
      subst b
      have hane : a ≠ u := fun h => hul (h ▸ ha)
      rw [rTS_EF_ne hane, rTS_ES_self]
      calc s.EF a ≤ s.nextFree (cassignee ts a) := hc.nextFree_ge a ha
        _ = s.nextFree (cassignee ts u) := by rw [hassn]
        _ ≤ rStart ts s u c := nextFree_le_rStart ts s u c
  · intro a ha
    rw [rTS_log, hmemlog] at ha
    rcases ha with ha | haeq
    case inr => subst a; rw [rTS_EF_self, rTS_nextFree_user]
    · have hane : a ≠ u := fun h => hul (h ▸ ha)
      rw [rTS_EF_ne hane]
      by_cases hw : cassignee ts a = cassignee ts u
      · rw [hw, rTS_nextFree_user]
        calc s.EF a ≤ s.nextFree (cassignee ts a) := hc.nextFree_ge a ha
          _ = s.nextFree (cassignee ts u) := by rw [hw]
          _ ≤ rStart ts s u c := nextFree_le_rStart ts s u c
          _ ≤ rEF ts s u c := rStart_le_rEF ts s u c
      · rw [rTS_nextFree_ne hw]
        exact hc.nextFree_ge a ha
  · intro a ha
    rw [rTS_log, hmemlog] at ha
    rcases ha with ha | haeq
    · have hane : a ≠ u := fun h => hul (h ▸ ha)
      rw [rTS_EF_ne hane, rTS_ES_ne hane]
      exact hc.es_ef a ha
    · subst a
      rw [rTS_EF_self, rTS_ES_self]
      exact rStart_le_rEF ts s u c
  · intro v hv
    rw [rTS_log, hmemlog] at hv
    push_neg at hv
    obtain ⟨hv1, hv2⟩ := hv
    rw [rTS_ES_ne hv2, rTS_EF_ne hv2]
    exact hc.unsched_zero v hv1

/-- The first half of the loop body: `deps_finish[v] = max(..., ft)`
and `indeg[v] -= 1`. -/
def rDecr (ft : ℚ) (s : RState) (v : String) : RState :=
  { s with
    depsFin := fun x => if x = v then max (s.depsFin v) ft else s.depsFin x,
    indeg := fun x => if x = v then s.indeg v - 1 else s.indeg x }

lemma rVisit_eq (ts : List CTask) (ft : ℚ) (s : RState) (v : String) :
    rVisit ts ft s v =
      if s.indeg v - 1 = 0 then rTrySchedule ts (rDecr ft s v) v ft
      else rDecr ft s v := rfl

lemma rDecr_core {ts : List CTask} {s : RState} (ft : ℚ) (v : String)
    (hc : RCore ts s) : RCore ts (rDecr ft s v) :=
  ⟨hc.log_nodup, hc.log_sub, hc.heap_log, hc.hkeys_nodup, hc.sched_popped,
    hc.edge_ok, hc.owner_chain, hc.nextFree_ge, hc.es_ef, hc.unsched_zero⟩

/-- `len(filter) = len` over ℤ gives that every element passes. -/
lemma all_of_filter_len_int {l : List String} {p : String → Bool}
    (h : (l.length : ℤ) - ((l.filter p).length : ℤ) = 0) :
    ∀ x ∈ l, p x = true := by
  apply all_of_length_filter_eq
  omega

/-- Number of pending events plus number of unscheduled tasks. -/
def rMeasure (ts : List CTask) (s : RState) : ℕ :=
  s.heap.length + ((cnodes ts).filter (fun x => decide (x ∉ s.log))).length

/-- Unlogged-node count drops by one when a fresh node is appended to
the log. -/
lemma unlogged_append {ts : List CTask} (hids : (cnodes ts).Nodup)
    {L : List String} {v : String} (hvn : v ∈ cnodes ts) (hvu : v ∉ L) :
    (((cnodes ts).filter (fun x => decide (x ∉ L))).length : ℤ) =
      (((cnodes ts).filter (fun x => decide (x ∉ L ++ [v]))).length : ℤ) + 1 := by
  have := length_filter_flip hids
    (p := fun x => decide (x ∉ L ++ [v])) (q := fun x => decide (x ∉ L)) (d := v)
    (by
      intro x _ hxv
      simp only [decide_eq_decide, List.mem_append, List.mem_singleton]
      constructor
      · intro h hx; exact h (Or.inl hx)
      · intro h hx; rcases hx with hx | hx
        · exact h hx
        · exact hxv hx)
    (by simp) (by simp [hvu])
  rw [this, if_pos hvn]

/-- One successor visit preserves the mid-loop invariant and the
measure. -/
lemma rVisit_step {ts : List CTask} {done v : String} {ft : ℚ}
    {vs : List String} {s : RState} (hids : (cnodes ts).Nodup)
    (h : RMid ts done ft (v :: vs) s) :
    RMid ts done ft vs (rVisit ts ft s v) ∧
      rMeasure ts (rVisit ts ft s v) = rMeasure ts s := by
  have hvn : v ∈ cnodes ts := h.vs_nodes v (by simp)
  have hvp : done ∈ cpreds ts v := h.vs_pred v (by simp)
  have hvu : v ∉ s.log := h.vs_unlogged v (by simp)
  obtain ⟨hvvs, hvsnd⟩ := List.nodup_cons.mp h.vs_nodup
  have hdlog : done ∈ s.log := h.done_log
  have hdnev : done ≠ v := fun hh => hvu (hh ▸ hdlog)
  have hpb : poppedB (rDecr ft s v) = poppedB s := rfl
  have hdlogeq : (rDecr ft s v).log = s.log := rfl
  have hdidv : (rDecr ft s v).indeg v = s.indeg v - 1 := by simp [rDecr]
  have hdidw : ∀ w, w ≠ v → (rDecr ft s v).indeg w = s.indeg w := by
    intro w hw; simp [rDecr, hw]
  have hddfv : (rDecr ft s v).depsFin v = max (s.depsFin v) ft := by simp [rDecr]
  have hddfw : ∀ w, w ≠ v → (rDecr ft s v).depsFin w = s.depsFin w := by
    intro w hw; simp [rDecr, hw]
  -- indeg bookkeeping after the decrement
  have hA : ∀ w ∈ cnodes ts, (rDecr ft s v).indeg w =
      ((cpreds ts w).length : ℤ) -
        (((cpreds ts w).filter (poppedB (rDecr ft s v))).length : ℤ) +
      (if w ∈ vs then 1 else 0) := by
    intro w hw
    rw [hpb]
    by_cases hwv : w = v
    · subst hwv
      rw [hdidv, h.indeg_mid w hw, if_pos (by simp), if_neg hvvs]
      ring
    · rw [hdidw w hwv, h.indeg_mid w hw]
      have : (w ∈ v :: vs) ↔ (w ∈ vs) := by
        simp only [List.mem_cons]
        exact or_iff_right hwv
      rw [if_congr this rfl rfl]
  -- deps_finish bookkeeping after the decrement
  have hB : ∀ (w p : String), p ∈ cpreds ts w →
      poppedB (rDecr ft s v) p = true → (p = done → w ∉ vs) →
      (rDecr ft s v).EF p ≤ (rDecr ft s v).depsFin w := by
    intro w p hp hpop hexc
    rw [hpb] at hpop
    show s.EF p ≤ (rDecr ft s v).depsFin w
    by_cases hwv : w = v
    · subst hwv
      rw [hddfv]
      by_cases hpd : p = done
      · subst hpd
        rw [← h.ft_eq]
        exact le_max_right _ _
      · exact le_trans (h.depsFin_ge w p hp hpop (fun hc => absurd hc hpd))
          (le_max_left _ _)
    · rw [hddfw w hwv]
      refine h.depsFin_ge w p hp hpop ?_
      intro hpd hwvs
      rcases List.mem_cons.mp hwvs with hc | hc
      · exact hwv hc
      · exact hexc hpd hc
  rw [rVisit_eq]
  by_cases hg : s.indeg v - 1 = 0
  · rw [if_pos hg]
    -- the node became ready and is scheduled at time `ft`
    have hall : ∀ p ∈ cpreds ts v, poppedB s p = true := by
      have h0 : (rDecr ft s v).indeg v = 0 := by rw [hdidv]; exact hg
      rw [hA v hvn, if_neg hvvs, hpb] at h0
      exact all_of_filter_len_int (by omega)
    have hpre : ∀ p ∈ cpreds ts v,
        (rDecr ft s v).EF p ≤ rStart ts (rDecr ft s v) v ft := by
      intro p hp
      refine le_trans (hB v p hp (by rw [hpb]; exact hall p hp) ?_) ?_
      · intro _ hc; exact hvvs hc
      · rw [hddfv, ← hddfv]
        exact depsFin_le_rStart ts (rDecr ft s v) v ft
    have hcore : RCore ts (rTrySchedule ts (rDecr ft s v) v ft) :=
      rTrySchedule_core (rDecr_core ft v h.toRCore) hvn hvu hall hpre
    have hvu' : v ∉ (rDecr ft s v).log := hvu
    have hpbr : poppedB (rTrySchedule ts (rDecr ft s v) v ft) = poppedB s := by
      rw [poppedB_rTS hvu', hpb]
    constructor
    · refine ⟨hcore, ?_, ?_, ?_, hvsnd, ?_, ?_, ?_, ?_, ?_, ?_⟩
      · rw [rTS_log, hdlogeq]
        exact List.mem_append.mpr (Or.inl hdlog)
      · rw [heapKeys_rTS]
        intro hc
        rcases List.mem_cons.mp hc with hc | hc
        · exact hdnev hc
        · exact h.done_not_heap hc
      · rw [rTS_EF_ne hdnev]
        exact h.ft_eq
      · exact fun w hw => h.vs_pred w (by simp [hw])
      · exact fun w hw => h.vs_nodes w (by simp [hw])
      · intro w hw
        rw [rTS_log, hdlogeq]
        intro hc
        rcases List.mem_append.mp hc with hc | hc
        · exact h.vs_unlogged w (by simp [hw]) hc
        · exact hvvs ((List.mem_singleton.mp hc) ▸ hw)
      · intro w hw
        rw [rTS_indeg, hpbr, hA w hw, hpb]
      · intro w p hp hpop hexc
        rw [hpbr, ← hpb] at hpop
        have hplog : p ∈ s.log := popped_mem_log (by rw [← hpb]; rwa [hpb] at hpop)
        have hpne : p ≠ v := fun hh => hvu (hh ▸ hplog)
        rw [rTS_EF_ne hpne, rTS_depsFin]
        exact hB w p hp hpop hexc
      · intro w hw h0
        rw [rTS_indeg] at h0
        rw [rTS_log, hdlogeq]
        by_cases hwv : w = v
        · exact List.mem_append.mpr (Or.inr (by simp [hwv]))
        · rw [hdidw w hwv] at h0
          exact List.mem_append.mpr (Or.inl (h.zero_mem w hw h0))
    · show rMeasure ts (rTrySchedule ts (rDecr ft s v) v ft) = rMeasure ts s
      unfold rMeasure
      rw [rTS_heap, rTS_log, hdlogeq]
      have hz := unlogged_append hids (L := s.log) hvn hvu
      have hlen : (rDecr ft s v).heap.length = s.heap.length := rfl
      simp only [List.length_cons, hlen]
      omega
  · rw [if_neg hg]
    constructor
    · refine ⟨rDecr_core ft v h.toRCore, h.done_log, h.done_not_heap, h.ft_eq,
        hvsnd, fun w hw => h.vs_pred w (by simp [hw]),
        fun w hw => h.vs_nodes w (by simp [hw]),
        fun w hw => h.vs_unlogged w (by simp [hw]), hA, hB, ?_⟩
      intro w hw h0
      by_cases hwv : w = v
      · subst hwv
        rw [hdidv] at h0
        exact absurd h0 hg
      · rw [hdidw w hwv] at h0
        exact h.zero_mem w hw h0
    · rfl

lemma rVisit_fold {ts : List CTask} {done : String} {ft : ℚ}
    (hids : (cnodes ts).Nodup) :
    ∀ (vs : List String) (s : RState), RMid ts done ft vs s →
      RMid ts done ft [] (vs.foldl (rVisit ts ft) s) ∧
        rMeasure ts (vs.foldl (rVisit ts ft) s) = rMeasure ts s := by
  intro vs
  induction vs with
  | nil => exact fun s h => ⟨h, rfl⟩
  | cons v vs ih =>
    intro s h
    rw [List.foldl_cons]
    obtain ⟨h1, h2⟩ := rVisit_step hids h
    obtain ⟨h3, h4⟩ := ih _ h1
    exact ⟨h3, h4.trans h2⟩

lemma RMid_to_RInv {ts : List CTask} {done : String} {ft : ℚ} {s : RState}
    (h : RMid ts done ft [] s) : RInv ts s :=
  ⟨h.toRCore,
   fun v hv => by simpa using h.indeg_mid v hv,
   fun v p hp hpop => h.depsFin_ge v p hp hpop (fun _ => by simp),
   h.zero_mem⟩

lemma map_filter_beq_sublist {deps : List String} (hnd : deps.Nodup)
    (d a : String) :
    ((deps.filter (fun x => x == d)).map (fun _ => a)).Sublist [a] := by
  have hND := hnd.filter (fun x => x == d)
  have hconst : ∀ x ∈ deps.filter (fun x => x == d), x = d :=
    fun x hx => beq_iff_eq.mp ((List.mem_filter.mp hx).2)
  cases hf : deps.filter (fun x => x == d) with
  | nil => simp
  | cons x xs =>
    cases xs with
    | nil => simp
    | cons y ys =>
      exfalso
      rw [hf] at hND hconst
      have hx := hconst x (by simp)
      have hy := hconst y (by simp)
      exact (List.nodup_cons.mp hND).1 (by rw [hx, ← hy]; simp)

lemma csucc_nodup {ts : List CTask} (hids : (cnodes ts).Nodup)
    (hdeps : ∀ t ∈ ts, t.dependencies.Nodup) (d : String) :
    (csucc ts d).Nodup := by
  have key : ∀ (l : List CTask), (∀ t ∈ l, t.dependencies.Nodup) →
      (l.flatMap (fun t => (t.dependencies.filter (fun x => x == d)).map
        (fun _ => t.id))).Sublist (l.map (fun t => t.id)) := by
    intro l
    induction l with
    | nil => intro _; simp
    | cons t rest ih =>
      intro hdl
      rw [List.flatMap_cons, List.map_cons]
      exact (map_filter_beq_sublist (hdl t (by simp)) d t.id).append
        (ih (fun t' ht' => hdl t' (by simp [ht'])))
  unfold csucc
  by_cases hd : d ∈ cnodes ts
  · rw [if_pos (by simpa using hd)]
    exact (key ts hdeps).nodup hids
  · rw [if_neg (by simpa using hd)]
    exact List.Pairwise.nil

lemma cnode_of_cpreds {ts : List CTask} {w p : String}
    (h : p ∈ cpreds ts w) : w ∈ cnodes ts := by
  obtain ⟨t, htask, _, _⟩ := mem_cpreds.mp h
  obtain ⟨ht, hid⟩ := taskOf_eq_some htask
  exact hid ▸ List.mem_map.mpr ⟨t, ht, rfl⟩

lemma perm_cons_erase_beq {α : Type} [BEq α] [LawfulBEq α] {l : List α} {a : α}
    (h : a ∈ l) : l.Perm (a :: l.erase a) := by
  induction l with
  | nil => cases h
  | cons x xs ih =>
    rw [List.erase_cons]
    by_cases hx : x == a
    · have hxa : x = a := eq_of_beq hx
      subst hxa
      rw [if_pos (by simp)]
    · rw [if_neg (by simpa using hx)]
      have ha : a ∈ xs := by
        rcases List.mem_cons.mp h with h' | h'
        · exact absurd h'.symm (by simpa using hx)
        · exact h'
      exact ((ih ha).cons x).trans (List.Perm.swap a x _)

/-- Popping the minimal event turns the loop invariant into the
mid-loop invariant for the popped task's successor list. -/
lemma RInv_pop {ts : List CTask} {s : RState} {ft : ℚ} {done : String}
    {rest : List (ℚ × String)} (hids : (cnodes ts).Nodup)
    (hdeps : ∀ t ∈ ts, t.dependencies.Nodup) (hinv : RInv ts s)
    (hpop : popMin s.heap = some ((ft, done), rest)) :
    RMid ts done ft (csucc ts done) { s with heap := rest } ∧
      rMeasure ts s = rMeasure ts { s with heap := rest } + 1 := by
  obtain ⟨hmem, hrest⟩ := popMin_spec hpop
  have hperm : s.heap.Perm ((ft, done) :: rest) := by
    rw [hrest]; exact perm_cons_erase_beq hmem
  have hpermk : (heapKeys s).Perm (done :: heapKeys { s with heap := rest }) :=
    hperm.map Prod.snd
  have hkc : (done :: heapKeys { s with heap := rest }).Nodup :=
    (hpermk.nodup_iff).mp hinv.hkeys_nodup
  obtain ⟨hdnr, hknd⟩ := List.nodup_cons.mp hkc
  obtain ⟨hdlog, hfteq⟩ := hinv.heap_log (ft, done) hmem
  have hdink : done ∈ heapKeys s := List.mem_map.mpr ⟨(ft, done), hmem, rfl⟩
  have hmemk : ∀ x, x ∈ heapKeys s ↔
      x = done ∨ x ∈ heapKeys { s with heap := rest } := by
    intro x
    rw [hpermk.mem_iff, List.mem_cons]
  have hpold : poppedB s done = false := by
    unfold poppedB
    simp [hdink]
  have hpnew : poppedB { s with heap := rest } done = true := by
    unfold poppedB
    simp [show done ∈ ({ s with heap := rest } : RState).log from hdlog, hdnr]
  have hagree : ∀ x, x ≠ done →
      poppedB { s with heap := rest } x = poppedB s x := by
    intro x hx
    have hiff : (x ∈ heapKeys { s with heap := rest }) ↔ (x ∈ heapKeys s) := by
      rw [hmemk x]
      exact (or_iff_right hx).symm
    unfold poppedB
    rw [decide_eq_decide.mpr hiff]
  have hmono : ∀ x, poppedB s x = true →
      poppedB { s with heap := rest } x = true := by
    intro x hx
    by_cases hxd : x = done
    · subst hxd; exact hpnew
    · rw [hagree x hxd]; exact hx
  have hindeg : ∀ w ∈ cnodes ts, ({ s with heap := rest } : RState).indeg w =
      ((cpreds ts w).length : ℤ) -
        (((cpreds ts w).filter (poppedB { s with heap := rest })).length : ℤ) +
      (if w ∈ csucc ts done then 1 else 0) := by
    intro w hw
    have hflip := length_filter_flip (cpreds_nodup hdeps w)
      (p := poppedB s) (q := poppedB { s with heap := rest }) (d := done)
      (fun x _ hxd => (hagree x hxd).symm) hpold hpnew
    have hie : ({ s with heap := rest } : RState).indeg w = s.indeg w := rfl
    have hiff : (done ∈ cpreds ts w) ↔ (w ∈ csucc ts done) :=
      cpreds_iff_csucc hids hw
    rw [hie, hinv.indeg_eq w hw]
    by_cases hd : w ∈ csucc ts done
    · rw [if_pos hd]
      rw [if_congr hiff rfl rfl, if_pos hd] at hflip
      omega
    · rw [if_neg hd]
      rw [if_congr hiff rfl rfl, if_neg hd] at hflip
      omega
  have hvsu : ∀ w ∈ csucc ts done, w ∉ s.log := by
    intro w hw hwl
    have hdp : done ∈ cpreds ts w :=
      (cpreds_iff_csucc hids (csucc_subset_nodes w hw)).mpr hw
    have hcontra := hinv.sched_popped w hwl done hdp
    rw [hpold] at hcontra
    exact Bool.false_ne_true hcontra
  refine ⟨⟨⟨hinv.log_nodup, hinv.log_sub, ?_, hknd, ?_, hinv.edge_ok,
      hinv.owner_chain, hinv.nextFree_ge, hinv.es_ef, hinv.unsched_zero⟩,
      hdlog, hdnr, hfteq, csucc_nodup hids hdeps done,
      (fun w hw => (cpreds_iff_csucc hids (csucc_subset_nodes w hw)).mpr hw),
      csucc_subset_nodes, hvsu, hindeg, ?_, hinv.zero_mem⟩, ?_⟩
  · intro pr hpr
    refine hinv.heap_log pr ?_
    rw [hrest] at hpr
    exact List.mem_of_mem_erase hpr
  · exact fun v hv p hp => hmono p (hinv.sched_popped v hv p hp)
  · intro w p hp hpop hexc
    by_cases hpd : p = done
    · subst hpd
      exact absurd ((cpreds_iff_csucc hids (cnode_of_cpreds hp)).mp hp)
        (hexc rfl)
    · rw [hagree p hpd] at hpop
      exact hinv.depsFin_ge w p hp hpop
  · have hlen : s.heap.length = rest.length + 1 := by
      have := hperm.length_eq
      simpa using this
    show s.heap.length + ((cnodes ts).filter (fun x => decide (x ∉ s.log))).length =
      rest.length + ((cnodes ts).filter (fun x => decide (x ∉ s.log))).length + 1
    omega

lemma popMin_none {l : List (ℚ × String)} (h : popMin l = none) : l = [] := by
  cases l with
  | nil => rfl
  | cons x xs => simp [popMin] at h

/-- The event loop preserves the invariant and drains the heap when
given fuel above the measure. -/
lemma rcpspLoop_spec {ts : List CTask} (hids : (cnodes ts).Nodup)
    (hdeps : ∀ t ∈ ts, t.dependencies.Nodup) :
    ∀ (fuel : ℕ) (s : RState), RInv ts s → rMeasure ts s < fuel →
      RInv ts (rcpspLoop ts fuel s) ∧ (rcpspLoop ts fuel s).heap = [] := by
  intro fuel
  induction fuel with
  | zero => intro s _ hm; exact absurd hm (by omega)
  | succ fuel ih =>
    intro s hinv hm
    cases hpop : popMin s.heap with
    | none =>
      have hempty : s.heap = [] := popMin_none hpop
      simp only [rcpspLoop, hpop]
      exact ⟨hinv, hempty⟩
    | some x =>
      obtain ⟨⟨ft, done⟩, rest⟩ := x
      obtain ⟨hmid, hmeq⟩ := RInv_pop hids hdeps hinv hpop
      obtain ⟨hmid2, hm2⟩ := rVisit_fold hids _ _ hmid
      have hinv2 := RMid_to_RInv hmid2
      have hlt : rMeasure ts ((csucc ts done).foldl (rVisit ts ft)
          { s with heap := rest }) < fuel := by
        rw [hm2]; omega
      simp only [rcpspLoop, hpop]
      exact ih _ hinv2 hlt

def rs0 (ts : List CTask) : RState :=
  { ES := fun _ => 0, EF := fun _ => 0, nextFree := fun _ => 0,
    depsFin := fun _ => 0, indeg := rIndeg0 ts, heap := [], log := [] }

lemma rInit_start {ts : List CTask} (hids : (cnodes ts).Nodup) :
    RInit ts (rReady ts) (rs0 ts) := by
  have hmemready : ∀ x, x ∈ rReady ts ↔
      x ∈ (cnodes ts).filter (fun k => decide (rIndeg0 ts k = 0)) := by
    intro x
    exact (sortLE_perm keyTupleLE _).mem_iff
  have hpb : ∀ x, poppedB (rs0 ts) x = false := by
    intro x
    unfold poppedB rs0
    simp [heapKeys]
  refine ⟨⟨List.nodup_nil, ?_, ?_, List.nodup_nil, ?_, ?_,
      List.Pairwise.nil, ?_, ?_, fun v _ => ⟨rfl, rfl⟩⟩, ?_, ?_, ?_, ?_, ?_, ?_, ?_⟩
  · exact fun x hx => absurd hx (List.not_mem_nil x)
  · exact fun pr hpr => absurd hpr (List.not_mem_nil pr)
  · exact fun v hv => absurd hv (List.not_mem_nil v)
  · exact fun v hv => absurd hv (List.not_mem_nil v)
  · exact fun a ha => absurd ha (List.not_mem_nil a)
  · exact fun a ha => absurd ha (List.not_mem_nil a)
  · intro v hv
    have : (cpreds ts v).filter (poppedB (rs0 ts)) = [] := by
      apply List.filter_eq_nil_iff.mpr
      intro x _
      rw [hpb x]
      exact Bool.false_ne_true
    rw [this]
    show rIndeg0 ts v = _
    rw [rIndeg0, if_pos hv]
    simp
  · intro v p _ hpop
    rw [hpb p] at hpop
    exact absurd hpop Bool.false_ne_true
  · intro v hv
    rw [hmemready v] at hv
    exact (List.mem_filter.mp hv).1
  · intro v hv
    rw [hmemready v] at hv
    have := (List.mem_filter.mp hv).2
    simpa using this
  · exact fun v _ hc => absurd hc (List.not_mem_nil v)
  · exact (sortLE_perm keyTupleLE _).nodup_iff.mpr (hids.filter _)
  · intro v hv h0
    refine Or.inr ?_
    rw [hmemready v]
    refine List.mem_filter.mpr ⟨hv, ?_⟩
    simpa using h0

lemma rInit_step {ts : List CTask} {u : String} {rem : List String} {s : RState}
    (h : RInit ts (u :: rem) s) : RInit ts rem (rTrySchedule ts s u 0) := by
  have hu : u ∈ cnodes ts := h.rem_nodes u (by simp)
  have hu0 : s.indeg u = 0 := h.rem_zero u (by simp)
  have hul : u ∉ s.log := h.rem_unlogged u (by simp)
  obtain ⟨hur, hrnd⟩ := List.nodup_cons.mp h.rem_nodup
  have hall : ∀ p ∈ cpreds ts u, poppedB s p = true := by
    have hi := h.indeg_eq u hu
    rw [hu0] at hi
    exact all_of_filter_len_int (by omega)
  have hpre : ∀ p ∈ cpreds ts u, s.EF p ≤ rStart ts s u 0 :=
    fun p hp => le_trans (h.depsFin_ge u p hp (hall p hp))
      (depsFin_le_rStart ts s u 0)
  refine ⟨rTrySchedule_core h.toRCore hu hul hall hpre, ?_, ?_, ?_, ?_, ?_,
    hrnd, ?_⟩
  · intro v hv
    rw [rTS_indeg, poppedB_rTS hul]
    exact h.indeg_eq v hv
  · intro v p hp hpop
    rw [poppedB_rTS hul] at hpop
    have hpne : p ≠ u := fun hh => hul (hh ▸ popped_mem_log hpop)
    rw [rTS_EF_ne hpne, rTS_depsFin]
    exact h.depsFin_ge v p hp hpop
  · exact fun v hv => h.rem_nodes v (by simp [hv])
  · intro v hv
    rw [rTS_indeg]
    exact h.rem_zero v (by simp [hv])
  · intro v hv
    rw [rTS_log]
    intro hc
    rcases List.mem_append.mp hc with hc | hc
    · exact h.rem_unlogged v (by simp [hv]) hc
    · exact hur ((List.mem_singleton.mp hc) ▸ hv)
  · intro v hv h0
    rw [rTS_indeg] at h0
    rw [rTS_log]
    rcases h.zero_mem v hv h0 with hl | hr
    · exact Or.inl (List.mem_append.mpr (Or.inl hl))
    · rcases List.mem_cons.mp hr with hc | hc
      · exact Or.inl (List.mem_append.mpr (Or.inr (by simp [hc])))
      · exact Or.inr hc

lemma rInit_fold {ts : List CTask} :
    ∀ (rem : List String) (s : RState), RInit ts rem s →
      RInit ts [] (rem.foldl (fun s u => rTrySchedule ts s u 0) s) := by
  intro rem
  induction rem with
  | nil => exact fun s h => h
  | cons u rem ih =>
    intro s h
    rw [List.foldl_cons]
    exact ih _ (rInit_step h)

lemma RInit_to_RInv {ts : List CTask} {s : RState} (h : RInit ts [] s) :
    RInv ts s :=
  ⟨h.toRCore, h.indeg_eq, h.depsFin_ge, fun v hv h0 => by
    rcases h.zero_mem v hv h0 with hl | hr
    · exact hl
    · exact absurd hr (List.not_mem_nil v)⟩

lemma filter_split_length {α : Type} (p : α → Bool) :
    ∀ l : List α, (l.filter p).length + (l.filter (fun x => !(p x))).length
      = l.length := by
  intro l
  induction l with
  | nil => rfl
  | cons a l ih =>
    rw [List.filter_cons, List.filter_cons]
    by_cases hp : p a
    · rw [if_pos hp, if_neg (by simp [hp])]
      simp only [List.length_cons]
      omega
    · rw [if_neg hp, if_pos (by simp [hp])]
      simp only [List.length_cons]
      omega

lemma rMeasure_le {ts : List CTask} {s : RState} (hids : (cnodes ts).Nodup)
    (hinv : RInv ts s) : rMeasure ts s ≤ (cnodes ts).length := by
  have hheap : s.heap.length = (heapKeys s).length := (List.length_map _ _).symm
  have h1 : (heapKeys s).length ≤ s.log.length :=
    (List.subperm_of_subset hinv.hkeys_nodup (heapKeys_sub_log hinv.toRCore)).length_le
  have h2 : s.log.length ≤
      ((cnodes ts).filter (fun x => decide (x ∈ s.log))).length := by
    refine (List.subperm_of_subset hinv.log_nodup ?_).length_le
    intro x hx
    exact List.mem_filter.mpr ⟨hinv.log_sub x hx, by simpa using hx⟩
  have h3 : ((cnodes ts).filter (fun x => decide (x ∉ s.log))) =
      ((cnodes ts).filter (fun x => !(decide (x ∈ s.log)))) := by
    apply List.filter_congr
    intro x _
    simp
  have h4 := filter_split_length (fun x => decide (x ∈ s.log)) (cnodes ts)
  unfold rMeasure
  rw [h3]
  omega

/-- The whole RCPSP run satisfies the invariant with an empty heap. -/
lemma rcpspRun_spec {ts : List CTask} (hids : (cnodes ts).Nodup)
    (hdeps : ∀ t ∈ ts, t.dependencies.Nodup) :
    RInv ts (rcpspRun ts) ∧ (rcpspRun ts).heap = [] := by
  have h1 := rInit_fold (rReady ts) (rs0 ts) (rInit_start hids)
  have hinv1 := RInit_to_RInv h1
  have hmeas := rMeasure_le hids hinv1
  show RInv ts (rcpspLoop ts ((cnodes ts).length + 1)
      ((rReady ts).foldl (fun s u => rTrySchedule ts s u 0) (rs0 ts))) ∧
    (rcpspLoop ts ((cnodes ts).length + 1)
      ((rReady ts).foldl (fun s u => rTrySchedule ts s u 0) (rs0 ts))).heap = []
  exact rcpspLoop_spec hids hdeps ((cnodes ts).length + 1) _ hinv1 (by omega)

lemma exists_false_of_filter_ne {l : List String} {p : String → Bool}
    (h : (l.filter p).length ≠ l.length) : ∃ x ∈ l, p x = false := by
  by_contra hc
  push_neg at hc
  apply h
  have hall : ∀ x ∈ l, p x = true := by
    intro x hx
    cases hpx : p x with
    | false => exact absurd hpx (hc x hx)
    | true => rfl
  rw [List.filter_eq_self.mpr hall]

/-- On an acyclic graph the RCPSP run schedules every node. -/
lemma rcpsp_complete {ts : List CTask} (hids : (cnodes ts).Nodup)
    (hdeps : ∀ t ∈ ts, t.dependencies.Nodup)
    (hacyc : ∀ x, ¬ Relation.TransGen (fun a b => b ∈ csucc ts a) x x) :
    ∀ v ∈ cnodes ts, v ∈ (rcpspRun ts).log := by
  obtain ⟨hinv, hempty⟩ := rcpspRun_spec hids hdeps
  by_contra hc
  push_neg at hc
  obtain ⟨v0, hv0n, hv0l⟩ := hc
  have hU : v0 ∈ (cnodes ts).filter
      (fun x => decide (x ∉ (rcpspRun ts).log)) :=
    List.mem_filter.mpr ⟨hv0n, by simpa using hv0l⟩
  have hne : (cnodes ts).filter (fun x => decide (x ∉ (rcpspRun ts).log)) ≠ [] :=
    fun hh => absurd (hh ▸ hU) (List.not_mem_nil v0)
  have hstep : ∀ w ∈ (cnodes ts).filter (fun x => decide (x ∉ (rcpspRun ts).log)),
      ∃ p ∈ (cnodes ts).filter (fun x => decide (x ∉ (rcpspRun ts).log)),
        w ∈ csucc ts p := by
    intro w hw
    obtain ⟨hwn, hwl⟩ := List.mem_filter.mp hw
    have hwl' : w ∉ (rcpspRun ts).log := by simpa using hwl
    have hne0 : (rcpspRun ts).indeg w ≠ 0 :=
      fun h0 => hwl' (hinv.zero_mem w hwn h0)
    have hid := hinv.indeg_eq w hwn
    have hfl : ((cpreds ts w).filter (poppedB (rcpspRun ts))).length ≠
        (cpreds ts w).length := by omega
    obtain ⟨p, hp, hpf⟩ := exists_false_of_filter_ne hfl
    have hplog : p ∉ (rcpspRun ts).log := by
      intro hpl
      have htrue : poppedB (rcpspRun ts) p = true := by
        unfold poppedB
        simp [heapKeys, hempty, hpl]
      rw [htrue] at hpf
      simp at hpf
    have hpn : p ∈ cnodes ts := cpreds_subset_nodes p hp
    exact ⟨p, List.mem_filter.mpr ⟨hpn, by simpa using hplog⟩,
      (cpreds_iff_csucc hids hwn).mp hp⟩
  obtain ⟨z, hz⟩ := exists_cycle_of_all_have_pred
    (fun a b => b ∈ csucc ts a) _ hne hstep
  exact hacyc z hz

/-- A ranking certifies acyclicity of the dependency graph. -/
lemma acyclic_of_rank (ts : List CTask) (rank : String → ℕ)
    (h : ∀ a ∈ cnodes ts, ∀ b ∈ csucc ts a, rank a < rank b) :
    ∀ x, ¬ Relation.TransGen (fun a b => b ∈ csucc ts a) x x := by
  have hedge : ∀ a b, b ∈ csucc ts a → rank a < rank b := by
    intro a b hb
    exact h a (mem_csucc.mp hb).1 b hb
  have mono : ∀ {a b}, Relation.TransGen (fun a b => b ∈ csucc ts a) a b →
      rank a < rank b := by
    intro a b hab
    induction hab with
    | single h1 => exact hedge _ _ h1
    | tail _ h2 ih => exact lt_trans ih (hedge _ _ h2)
  exact fun x hx => absurd (mono hx) (lt_irrefl _)

/-- C1: on an acyclic input (unique ids, duplicate-free dependency
lists), both the plain PERT forward pass and the resource-constrained
RCPSP simulation respect every dependency edge: the dependency's earliest
finish is at most the dependent's earliest start. -/
theorem topological_validity (ts : List CTask)
    (hids : (cnodes ts).Nodup) (hdeps : ∀ t ∈ ts, t.dependencies.Nodup)
    (hacyc : ∀ x, ¬ Relation.TransGen (fun a b => b ∈ csucc ts a) x x) :
    (∀ v ∈ cnodes ts, ∀ p ∈ cpreds ts v, pertEF0 ts p ≤ pertES0 ts v) ∧
    (∀ v ∈ cnodes ts, ∀ p ∈ cpreds ts v,
      (rcpspRun ts).EF p ≤ (rcpspRun ts).ES v) := by
  constructor
  · have hacycK : ∀ x, ¬ Relation.TransGen (KEdge (cnodes ts) (csucc ts)) x x :=
      fun x hx => hacyc x (Relation.TransGen.mono (fun a b h => h.2.2) hx)
    obtain ⟨hnd, hmem, hsplit⟩ := topo_sort_spec_acyclic hids
      (fun u => csucc_nodup hids hdeps u) hacycK
    intro v hv p hp
    refine pertForward_edge (cpreds ts) (cdur ts) _ _ _ hnd ?_ v
      ((hmem v).mpr hv) p hp
    intro l₁ w l₂ heq q hq hcon
    have hwn : w ∈ cnodes ts := cnode_of_cpreds hq
    have hqpred : q ∈ predsIn (cnodes ts) (csucc ts) w :=
      mem_predsIn.mpr ⟨cpreds_subset_nodes q hq,
        (cpreds_iff_csucc hids hwn).mp hq⟩
    have hq1 : q ∈ l₁ := hsplit l₁ w l₂ heq q hqpred
    have hnd' := hnd
    rw [heq] at hnd'
    obtain ⟨-, -, hdisj⟩ := List.nodup_append.mp hnd'
    exact hdisj hq1 hcon
  · intro v hv p hp
    obtain ⟨hinv, -⟩ := rcpspRun_spec hids hdeps
    exact hinv.edge_ok v (rcpsp_complete hids hdeps hacyc v hv) p hp

/-- A concrete acyclic two-task graph: `B` depends on `A`. -/
def CgC1 : List CTask :=
  [⟨"A", 3, some "X", []⟩, ⟨"B", 3, some "X", ["A"]⟩]

theorem topological_validity_witness :
    (cnodes CgC1).Nodup ∧
    (∀ v ∈ cnodes CgC1, ∀ p ∈ cpreds CgC1 v, pertEF0 CgC1 p ≤ pertES0 CgC1 v) ∧
    (∀ v ∈ cnodes CgC1, ∀ p ∈ cpreds CgC1 v,
      (rcpspRun CgC1).EF p ≤ (rcpspRun CgC1).ES v) :=
  ⟨by decide,
   (topological_validity CgC1 (by decide) (by decide)
     (acyclic_of_rank CgC1 (fun s => if s = "A" then 0 else 1) (by decide))).1,
   (topological_validity CgC1 (by decide) (by decide)
     (acyclic_of_rank CgC1 (fun s => if s = "A" then 0 else 1) (by decide))).2⟩

/-- Scenario B input: two independent three-day tasks of the same
owner. -/
def CgC4 : List CTask :=
  [⟨"A", 3, some "X", []⟩, ⟨"B", 3, some "X", []⟩]

/-- C4: on two independent 3-day tasks of owner `X`, the RCPSP
simulation serializes them (makespan 6) while the plain PERT numbers on
the same input report a span of 3. -/
theorem scenario_b_serialization :
    rcpspMakespan CgC4 = 6 ∧ pertMakespan0 CgC4 = 3 := by
  constructor
  · have h1 : keyTupleLE "A" "B" = true := by
      unfold keyTupleLE
      rw [show issueKeyNumber "A" = 0 from by decide,
        show issueKeyNumber "B" = 0 from by decide]
      simp
      decide
    have hready : rReady CgC4 = ["A", "B"] := by
      have hfilter : (cnodes CgC4).filter (fun k => decide (rIndeg0 CgC4 k = 0))
          = ["A", "B"] := by decide
      unfold rReady
      rw [hfilter]
      simp [sortLE, insertLE, h1]
    have hcA : csucc CgC4 "A" = [] := by decide
    have hcB : csucc CgC4 "B" = [] := by decide
    have hnodes : cnodes CgC4 = ["A", "B"] := by decide
    have hdA : cdur CgC4 "A" = 3 := by
      simp [cdur, taskOf, CgC4, List.find?]
    have hdB : cdur CgC4 "B" = 3 := by
      simp [cdur, taskOf, CgC4, List.find?]
    have haA : cassignee CgC4 "A" = some "X" := by decide
    have haB : cassignee CgC4 "B" = some "X" := by decide
    rw [rcpspMakespan, hnodes, rcpspRun]
    rw [hready, hnodes]
    simp only [List.foldl_cons, List.foldl_nil, List.length_cons,
      List.length_nil]
    simp [rcpspLoop, rTrySchedule, popMin, heapMin, pairLt, rVisit, hcA, hcB,
      hdA, hdB, haA, haB, qmax, heapKeys]
    norm_num
  · have htopo : topo_sort (cnodes CgC4) (csucc CgC4) = ["A", "B"] := by decide
    have hpA : cpreds CgC4 "A" = [] := by decide
    have hpB : cpreds CgC4 "B" = [] := by decide
    have hnodes : cnodes CgC4 = ["A", "B"] := by decide
    have hdA : cdur CgC4 "A" = 3 := by
      simp [cdur, taskOf, CgC4, List.find?]
    have hdB : cdur CgC4 "B" = 3 := by
      simp [cdur, taskOf, CgC4, List.find?]
    rw [pertMakespan0, hnodes]
    rw [List.map_cons, List.map_cons, List.map_nil]
    rw [pertEF0, htopo]
    simp [pertForward, hpA, hpB, hdA, hdB, qmax]

/-- Two independent three-day tasks with no assignee. -/
def CgC7 : List CTask :=
  [⟨"A", 3, none, []⟩, ⟨"B", 3, none, []⟩]

/-! ## Task duration derivation (`_get_task_duration` in `jira.py`) -/

/-- Raw fields relevant to `_get_task_duration`.  `storyPoints`:
`none` when the story-points field is missing, `some none` when present
but not parseable as a float, `some (some q)` when it parses to `q`.
`aggEstimate`/`ttEstimate`: the numeric second counts when present and
numeric. -/
structure JiraFields where
  storyPoints : Option (Option ℚ)
  aggEstimate : Option ℚ
  ttEstimate : Option ℚ
deriving Repr

/-- `_get_task_duration`: story points verbatim when parseable,
otherwise positive second estimates divided by `60*60*8`, otherwise
`1.0`. -/
def get_task_duration (f : JiraFields) : ℚ :=
  match f.storyPoints with
  | some (some q) => q
  | _ =>
    match f.aggEstimate with
    | some s =>
      if 0 < s then s / (60 * 60 * 8)
      else
        match f.ttEstimate with
        | some o => if 0 < o then o / (60 * 60 * 8) else 1
        | none => 1
    | none =>
      match f.ttEstimate with
      | some o => if 0 < o then o / (60 * 60 * 8) else 1
      | none => 1

/-- C8 (corrected): the derivation priority is as specified (story
points verbatim, then aggregate estimate seconds over an 8-hour day,
then the time-tracking estimate, then the default 1.0), and the result
is zero only for a story-point value of exactly zero — but the result
is non-negative only when the story-point field itself is non-negative:
a parseable negative story-point value is returned verbatim, unclamped. -/
theorem get_task_duration_spec (f : JiraFields) :
    (∀ q, f.storyPoints = some (some q) → get_task_duration f = q) ∧
    ((∀ q, f.storyPoints ≠ some (some q)) →
      ∀ s, f.aggEstimate = some s → 0 < s →
        get_task_duration f = s / (60 * 60 * 8)) ∧
    ((∀ q, f.storyPoints ≠ some (some q)) →
      (∀ s, f.aggEstimate = some s → s ≤ 0) →
      ∀ o, f.ttEstimate = some o → 0 < o →
        get_task_duration f = o / (60 * 60 * 8)) ∧
    ((∀ q, f.storyPoints ≠ some (some q)) →
      (∀ s, f.aggEstimate = some s → s ≤ 0) →
      (∀ o, f.ttEstimate = some o → o ≤ 0) →
      get_task_duration f = 1) ∧
    ((∀ q, f.storyPoints = some (some q) → 0 ≤ q) → 0 ≤ get_task_duration f) ∧
    (get_task_duration f = 0 ↔ f.storyPoints = some (some 0)) := by
  obtain ⟨sp, agg, tt⟩ := f
  have hval : ∀ x : ℚ, 0 < x → 0 < x / (60 * 60 * 8) := by
    intro x hx
    positivity
  rcases sp with _ | sp
  next =>
    rcases agg with _ | s
    next =>
      rcases tt with _ | o
      next =>
        refine ⟨by simp, ?_, ?_, ?_, ?_, ?_⟩
        · intro h s hs
          exact Option.noConfusion hs
        · intro h h2 o ho
          exact Option.noConfusion ho
        · intro h h2 h3
          rfl
        · intro h
          norm_num [get_task_duration]
        · norm_num [get_task_duration]
          simp
      next =>
        by_cases ho : 0 < o
        · refine ⟨by simp, fun h s hs => Option.noConfusion hs, ?_, ?_, ?_, ?_⟩
          · intro _ _ o' ho' _
            simp only [Option.some.injEq] at ho'
            subst ho'
            simp [get_task_duration, ho]
          · intro _ _ hle
            exact absurd ho (not_lt.mpr (hle o rfl))
          · intro _
            simp only [get_task_duration, ho, if_pos]
            exact le_of_lt (hval o ho)
          · constructor
            · intro h0
              simp only [get_task_duration, if_pos ho] at h0
              exact absurd h0 (ne_of_gt (hval o ho))
            · intro h; cases h
        · refine ⟨by simp, fun h s hs => Option.noConfusion hs, ?_, ?_, ?_, ?_⟩
          · intro _ _ o' ho' ho''
            simp only [Option.some.injEq] at ho'
            subst ho'
            exact absurd ho'' ho
          · intro _ _ _
            simp [get_task_duration, ho]
          · intro _
            simp [get_task_duration, ho]
          · constructor
            · intro h0
              simp only [get_task_duration, if_neg ho] at h0
              exact absurd h0 one_ne_zero
            · intro h; cases h
    next =>
      by_cases hs : 0 < s
      · refine ⟨by simp, ?_, ?_, ?_, ?_, ?_⟩
        · intro _ s' hs' _
          simp only [Option.some.injEq] at hs'
          subst hs'
          simp [get_task_duration, hs]
        · intro _ hle
          exact absurd hs (not_lt.mpr (hle s rfl))
        · intro _ hle
          exact absurd hs (not_lt.mpr (hle s rfl))
        · intro _
          simp only [get_task_duration, hs, if_pos]
          exact le_of_lt (hval s hs)
        · constructor
          · intro h0
            simp only [get_task_duration, if_pos hs] at h0
            exact absurd h0 (ne_of_gt (hval s hs))
          · intro h; cases h
      · rcases tt with _ | o
        next =>
          refine ⟨by simp, ?_, fun h h2 o ho => Option.noConfusion ho, ?_, ?_, ?_⟩
          · intro _ s' hs' hs''
            simp only [Option.some.injEq] at hs'
            subst hs'
            exact absurd hs'' hs
          · intro _ _ _
            simp [get_task_duration, hs]
          · intro _
            simp [get_task_duration, hs]
          · constructor
            · intro h0
              simp only [get_task_duration, if_neg hs] at h0
              exact absurd h0 one_ne_zero
            · intro h; cases h
        next =>
          by_cases ho : 0 < o
          · refine ⟨by simp, ?_, ?_, ?_, ?_, ?_⟩
            · intro _ s' hs' hs''
              simp only [Option.some.injEq] at hs'
              subst hs'
              exact absurd hs'' hs
            · intro _ _ o' ho' _
              simp only [Option.some.injEq] at ho'
              subst ho'
              simp [get_task_duration, hs, ho]
            · intro _ _ hle
              exact absurd ho (not_lt.mpr (hle o rfl))
            · intro _
              simp only [get_task_duration, if_neg hs, if_pos ho]
              exact le_of_lt (hval o ho)
            · constructor
              · intro h0
                simp only [get_task_duration, if_neg hs, if_pos ho] at h0
                exact absurd h0 (ne_of_gt (hval o ho))
              · intro h; cases h
          · refine ⟨by simp, ?_, ?_, ?_, ?_, ?_⟩
            · intro _ s' hs' hs''
              simp only [Option.some.injEq] at hs'
              subst hs'
              exact absurd hs'' hs
            · intro _ _ o' ho' ho''
              simp only [Option.some.injEq] at ho'
              subst ho'
              exact absurd ho'' ho
            · intro _ _ _
              simp [get_task_duration, hs, ho]
            · intro _
              simp [get_task_duration, hs, ho]
            · constructor
              · intro h0
                simp only [get_task_duration, if_neg hs, if_neg ho] at h0
                exact absurd h0 one_ne_zero
              · intro h; cases h
  next =>
    rcases sp with _ | q
    next =>
      rcases agg with _ | s
      next =>
        rcases tt with _ | o
        next =>
          refine ⟨by simp, ?_, ?_, ?_, ?_, ?_⟩
          · intro h s hs
            exact Option.noConfusion hs
          · intro h h2 o ho
            exact Option.noConfusion ho
          · intro h h2 h3
            rfl
          · intro h
            norm_num [get_task_duration]
          · norm_num [get_task_duration]
            simp
        next =>
          by_cases ho : 0 < o
          · refine ⟨by simp, fun h s hs => Option.noConfusion hs, ?_, ?_, ?_, ?_⟩
            · intro _ _ o' ho' _
              simp only [Option.some.injEq] at ho'
              subst ho'
              simp [get_task_duration, ho]
            · intro _ _ hle
              exact absurd ho (not_lt.mpr (hle o rfl))
            · intro _
              simp only [get_task_duration, ho, if_pos]
              exact le_of_lt (hval o ho)
            · constructor
              · intro h0
                simp only [get_task_duration, if_pos ho] at h0
                exact absurd h0 (ne_of_gt (hval o ho))
              · intro h; cases h
          · refine ⟨by simp, fun h s hs => Option.noConfusion hs, ?_, ?_, ?_, ?_⟩
            · intro _ _ o' ho' ho''
              simp only [Option.some.injEq] at ho'
              subst ho'
              exact absurd ho'' ho
            · intro _ _ _
              simp [get_task_duration, ho]
            · intro _
              simp [get_task_duration, ho]
            · constructor
              · intro h0
                simp only [get_task_duration, if_neg ho] at h0
                exact absurd h0 one_ne_zero
              · intro h; cases h
      next =>
        by_cases hs : 0 < s
        · refine ⟨by simp, ?_, ?_, ?_, ?_, ?_⟩
          · intro _ s' hs' _
            simp only [Option.some.injEq] at hs'
            subst hs'
            simp [get_task_duration, hs]
          · intro _ hle
            exact absurd hs (not_lt.mpr (hle s rfl))
          · intro _ hle
            exact absurd hs (not_lt.mpr (hle s rfl))
          · intro _
            simp only [get_task_duration, hs, if_pos]
            exact le_of_lt (hval s hs)
          · constructor
            · intro h0
              simp only [get_task_duration, if_pos hs] at h0
              exact absurd h0 (ne_of_gt (hval s hs))
            · intro h; cases h
        · rcases tt with _ | o
          next =>
            refine ⟨by simp, ?_, fun h h2 o ho => Option.noConfusion ho, ?_, ?_, ?_⟩
            · intro _ s' hs' hs''
              simp only [Option.some.injEq] at hs'
              subst hs'
              exact absurd hs'' hs
            · intro _ _ _
              simp [get_task_duration, hs]
            · intro _
              simp [get_task_duration, hs]
            · constructor
              · intro h0
                simp only [get_task_duration, if_neg hs] at h0
                exact absurd h0 one_ne_zero
              · intro h; cases h
          next =>
            by_cases ho : 0 < o
            · refine ⟨by simp, ?_, ?_, ?_, ?_, ?_⟩
              · intro _ s' hs' hs''
                simp only [Option.some.injEq] at hs'
                subst hs'
                exact absurd hs'' hs
              · intro _ _ o' ho' _
                simp only [Option.some.injEq] at ho'
                subst ho'
                simp [get_task_duration, hs, ho]
              · intro _ _ hle
                exact absurd ho (not_lt.mpr (hle o rfl))
              · intro _
                simp only [get_task_duration, if_neg hs, if_pos ho]
                exact le_of_lt (hval o ho)
              · constructor
                · intro h0
                  simp only [get_task_duration, if_neg hs, if_pos ho] at h0
                  exact absurd h0 (ne_of_gt (hval o ho))
                · intro h; cases h
            · refine ⟨by simp, ?_, ?_, ?_, ?_, ?_⟩
              · intro _ s' hs' hs''
                simp only [Option.some.injEq] at hs'
                subst hs'
                exact absurd hs'' hs
              · intro _ _ o' ho' ho''
                simp only [Option.some.injEq] at ho'
                subst ho'
                exact absurd ho'' ho
              · intro _ _ _
                simp [get_task_duration, hs, ho]
              · intro _
                simp [get_task_duration, hs, ho]
              · constructor
                · intro h0
                  simp only [get_task_duration, if_neg hs, if_neg ho] at h0
                  exact absurd h0 one_ne_zero
                · intro h; cases h
    next =>
      refine ⟨?_, ?_, ?_, ?_, ?_, ?_⟩
      · intro q' hq'
        simp only [Option.some.injEq] at hq'
        subst hq'
        rfl
      · intro hne
        exact absurd rfl (hne q)
      · intro hne
        exact absurd rfl (hne q)
      · intro hne
        exact absurd rfl (hne q)
      · intro hpos
        exact (by rfl : get_task_duration ⟨some (some q), agg, tt⟩ = q) ▸
          hpos q rfl
      · constructor
        · intro h0
          have hq : get_task_duration ⟨some (some q), agg, tt⟩ = q := rfl
          rw [hq] at h0
          rw [h0]
        · intro hq
          simp only [Option.some.injEq] at hq
          rw [show get_task_duration ⟨some (some q), agg, tt⟩ = q from rfl, hq]

/-- Counterexample to the spec's "never negative": a parseable negative
story-point value is returned as the duration without clamping. -/
theorem get_task_duration_cex :
    get_task_duration ⟨some (some (-1)), none, none⟩ = -1 ∧
    get_task_duration ⟨some (some (-1)), none, none⟩ < 0 := by
  have h : get_task_duration ⟨some (some (-1)), none, none⟩ = -1 := rfl
  exact ⟨h, by rw [h]; norm_num⟩

theorem get_task_duration_spec_witness :
    get_task_duration ⟨none, some 28800, none⟩ = 28800 / (60 * 60 * 8) :=
  (get_task_duration_spec ⟨none, some 28800, none⟩).2.1
    (fun q h => Option.noConfusion h) 28800 rfl (by norm_num)

/-! ## Date-based dependency scheduler
(`schedule_current_sprint_with_dependencies` in `sprint_dependency.py`) -/

/-- One node of `current_sprint_dependency_graph`. -/
structure DNode where
  key : String
  assignee : String
  duration_days : ℕ
  dependencies : List String
deriving Repr

def dnodes (ns : List DNode) : List String := ns.map (·.key)

def dnodeOf (ns : List DNode) (k : String) : Option DNode :=
  ns.find? (fun n => n.key == k)

def dassignee (ns : List DNode) (k : String) : String :=
  match dnodeOf ns k with
  | some n => n.assignee
  | none => "Unassigned"

def ddur (ns : List DNode) (k : String) : ℕ :=
  match dnodeOf ns k with
  | some n => n.duration_days
  | none => 0

def ddeps (ns : List DNode) (k : String) : List String :=
  match dnodeOf ns k with
  | some n => n.dependencies
  | none => []

/-- `indeg` after the initialization loop (`if u in indeg` guard). -/
def dIndeg0 (ns : List DNode) (v : String) : ℤ :=
  if v ∈ dnodes ns then
    (((ddeps ns v).filter (fun u => decide (u ∈ dnodes ns))).length : ℤ)
  else 0

/-- `succ[u]`, built in node order by the same loop. -/
def dsucc (ns : List DNode) (u : String) : List String :=
  if decide (u ∈ dnodes ns) then
    ns.flatMap (fun n => (n.dependencies.filter (fun x => x == u)).map
      (fun _ => n.key))
  else []

/-- State of the date-based event simulation. -/
structure DState where
  nextFree : String → Option ℤ
  startD : String → Option ℤ
  endD : String → Option ℤ
  indeg : String → ℤ
  heap : List (ℤ × String)
  log : List String

/-- `try_schedule(k, current_date)` of `sprint_dependency.py`:
`sdt = max(current_date, next_free.get(user, base_start))`, the end is
`_advance_working_days(sdt, duration, working_days, user holidays ∪
global holidays)`, and the owner is busy again from `edt + 1 day`. -/
def dTrySchedule (ns : List DNode) (wd ghols : Finset ℤ)
    (uhols : String → Finset ℤ) (base : ℤ) (s : DState) (k : String)
    (cur : ℤ) : Option DState :=
  let user := dassignee ns k
  let avail := (s.nextFree user).getD base
  let sdt := max cur avail
  match advance_working_days sdt (ddur ns k) wd (uhols user ∪ ghols) with
  | some edt => some { s with
      startD := fun x => if x = k then some sdt else s.startD x,
      endD := fun x => if x = k then some edt else s.endD x,
      nextFree := fun u => if u = user then some (edt + 1) else s.nextFree u,
      heap := (edt, k) :: s.heap,
      log := s.log ++ [k] }
  | none => none

/-- Body of `for v in succ.get(done_key, [])`. -/
def dVisit (ns : List DNode) (wd ghols : Finset ℤ) (uhols : String → Finset ℤ)
    (base : ℤ) (cur : ℤ) (os : Option DState) (v : String) : Option DState :=
  os.bind (fun s =>
    let s' : DState := { s with
      indeg := fun x => if x = v then s.indeg v - 1 else s.indeg x }
    if s.indeg v - 1 = 0 then dTrySchedule ns wd ghols uhols base s' v cur
    else some s')

def pairLtD (a b : ℤ × String) : Bool :=
  decide (a.1 < b.1) || (decide (a.1 = b.1) && decide (a.2 < b.2))

def heapMinD (x : ℤ × String) (l : List (ℤ × String)) : ℤ × String :=
  l.foldl (fun m y => if pairLtD y m then y else m) x

def popMinD : List (ℤ × String) → Option ((ℤ × String) × List (ℤ × String))
  | [] => none
  | x :: xs =>
    let m := heapMinD x xs
    some (m, (x :: xs).erase m)

/-- The `while heap` event loop. -/
def dLoop (ns : List DNode) (wd ghols : Finset ℤ) (uhols : String → Finset ℤ)
    (base : ℤ) : ℕ → Option DState → Option DState
  | 0, os => os
  | fuel+1, os =>
    match os with
    | none => none
    | some s =>
      match popMinD s.heap with
      | none => some s
      | some ((edt, dk), rest) =>
        dLoop ns wd ghols uhols base fuel
          ((dsucc ns dk).foldl (dVisit ns wd ghols uhols base edt)
            (some { s with heap := rest }))

def dReady (ns : List DNode) : List String :=
  sortLE keyTupleLE ((dnodes ns).filter (fun k => decide (dIndeg0 ns k = 0)))

/-- The whole date-based run: schedule the initially ready issues at
`base_start`, then run the event loop. -/
def dRun (ns : List DNode) (wd ghols : Finset ℤ) (uhols : String → Finset ℤ)
    (base : ℤ) : Option DState :=
  let s0 : DState :=
    { nextFree := fun _ => none, startD := fun _ => none, endD := fun _ => none,
      indeg := dIndeg0 ns, heap := [], log := [] }
  let os1 := (dReady ns).foldl
    (fun os k => os.bind (fun s => dTrySchedule ns wd ghols uhols base s k base))
    (some s0)
  dLoop ns wd ghols uhols base ((dnodes ns).length + 1) os1

/-- Owner-serialization invariant of the date-based simulation. -/
structure DInv (ns : List DNode) (s : DState) : Prop where
  log_nodup : s.log.Nodup
  sched_def : ∀ k ∈ s.log, ∃ sd ed, s.startD k = some sd ∧ s.endD k = some ed ∧
    sd ≤ ed
  owner_chain : s.log.Pairwise (fun a b => dassignee ns a = dassignee ns b →
    ∀ ea sb, s.endD a = some ea → s.startD b = some sb → ea < sb)
  nextFree_ge : ∀ a ∈ s.log, ∀ ea, s.endD a = some ea →
    ∃ nf, s.nextFree (dassignee ns a) = some nf ∧ ea + 1 ≤ nf
  unsched : ∀ k, k ∉ s.log → s.startD k = none ∧ s.endD k = none
  indeg_le : ∀ k ∈ s.log, s.indeg k ≤ 0

lemma dTrySchedule_shape {ns : List DNode} {wd ghols : Finset ℤ}
    {uhols : String → Finset ℤ} {base : ℤ} {s : DState} {k : String}
    {cur : ℤ} {s₂ : DState}
    (h : dTrySchedule ns wd ghols uhols base s k cur = some s₂) :
    s₂.indeg = s.indeg ∧ s₂.log = s.log ++ [k] := by
  simp only [dTrySchedule] at h
  cases hadv : advance_working_days
      (max cur ((s.nextFree (dassignee ns k)).getD base)) (ddur ns k) wd
      (uhols (dassignee ns k) ∪ ghols) with
  | none => rw [hadv] at h; cases h
  | some edt =>
    rw [hadv] at h
    injection h with h
    subst h
    exact ⟨rfl, rfl⟩

lemma dTrySchedule_inv {ns : List DNode} {wd ghols : Finset ℤ}
    {uhols : String → Finset ℤ} {base : ℤ} {s : DState} {k : String}
    {cur : ℤ} {s₂ : DState} (hc : DInv ns s) (hkl : k ∉ s.log)
    (hik : s.indeg k ≤ 0)
    (h : dTrySchedule ns wd ghols uhols base s k cur = some s₂) :
    DInv ns s₂ := by
  simp only [dTrySchedule] at h
  cases hadv : advance_working_days
      (max cur ((s.nextFree (dassignee ns k)).getD base)) (ddur ns k) wd
      (uhols (dassignee ns k) ∪ ghols) with
  | none => rw [hadv] at h; cases h
  | some edt =>
    rw [hadv] at h
    injection h with h
    subst h
    have hse : max cur ((s.nextFree (dassignee ns k)).getD base) ≤ edt :=
      advance_working_days_le hadv
    have hmem : ∀ x, x ∈ s.log ++ [k] ↔ x ∈ s.log ∨ k = x := by
      intro x
      rw [List.mem_append, List.mem_singleton]
      exact or_congr Iff.rfl eq_comm
    refine ⟨?_, ?_, ?_, ?_, ?_, ?_⟩
    · exact hc.log_nodup.append (List.nodup_singleton k)
        (fun a ha hb => hkl (by rwa [List.mem_singleton.mp hb] at ha))
    · intro x hx
      rw [hmem] at hx
      rcases hx with hx | hx
      · have hne : x ≠ k := fun hh => hkl (hh ▸ hx)
        obtain ⟨sd, ed, h1, h2, h3⟩ := hc.sched_def x hx
        exact ⟨sd, ed, by simpa [hne] using h1, by simpa [hne] using h2, h3⟩
      · subst hx
        exact ⟨_, edt, by simp, by simp, hse⟩
    · rw [List.pairwise_append]
      refine ⟨?_, List.pairwise_singleton _ _, ?_⟩
      · refine hc.owner_chain.imp_of_mem ?_
        intro a b ha hb hab hassn ea sb h1 h2
        dsimp only at h1 h2
        have hane : a ≠ k := fun hh => hkl (hh ▸ ha)
        have hbne : b ≠ k := fun hh => hkl (hh ▸ hb)
        rw [if_neg hane] at h1
        rw [if_neg hbne] at h2
        exact hab hassn ea sb h1 h2
      · intro a ha b hb hassn ea sb h1 h2
        rw [List.mem_singleton] at hb
        subst b
        dsimp only at h1 h2
        have hane : a ≠ k := fun hh => hkl (hh ▸ ha)
        rw [if_neg hane] at h1
        rw [if_pos rfl] at h2
        injection h2 with h2
        obtain ⟨nf, hnf, hlenf⟩ := hc.nextFree_ge a ha ea h1
        rw [hassn] at hnf
        have : (s.nextFree (dassignee ns k)).getD base = nf := by
          rw [hnf]; rfl
        subst h2
        calc ea < ea + 1 := by omega
          _ ≤ nf := hlenf
          _ ≤ max cur ((s.nextFree (dassignee ns k)).getD base) := by
              rw [this]; exact le_max_right _ _
    · intro a ha ea h1
      dsimp only at h1 ⊢
      rw [hmem] at ha
      rcases ha with ha | ha
      · have hane : a ≠ k := fun hh => hkl (hh ▸ ha)
        rw [if_neg hane] at h1
        obtain ⟨nf, hnf, hlenf⟩ := hc.nextFree_ge a ha ea h1
        by_cases hu : dassignee ns a = dassignee ns k
        · refine ⟨edt + 1, by rw [hu, if_pos rfl], ?_⟩
          have hgd : (s.nextFree (dassignee ns k)).getD base = nf := by
            rw [← hu, hnf]; rfl
          have : nf ≤ edt := le_trans (by rw [← hgd]; exact le_max_right _ _) hse
          omega
        · exact ⟨nf, by rw [if_neg hu]; exact hnf, hlenf⟩
      · subst ha
        rw [if_pos rfl] at h1
        injection h1 with h1
        subst h1
        exact ⟨edt + 1, by rw [if_pos rfl], le_refl _⟩
    · intro x hx
      dsimp only
      rw [hmem] at hx
      push_neg at hx
      obtain ⟨hx1, hx2⟩ := hx
      have hne : x ≠ k := fun hh => hx2 hh.symm
      constructor
      · rw [if_neg hne]; exact (hc.unsched x hx1).1
      · rw [if_neg hne]; exact (hc.unsched x hx1).2
    · intro x hx
      rw [hmem] at hx
      rcases hx with hx | hx
      · exact hc.indeg_le x hx
      · subst hx; exact hik

lemma dVisit_inv {ns : List DNode} {wd ghols : Finset ℤ}
    {uhols : String → Finset ℤ} {base cur : ℤ} {s : DState} {v : String}
    {s₂ : DState} (hc : DInv ns s)
    (h : dVisit ns wd ghols uhols base cur (some s) v = some s₂) :
    DInv ns s₂ := by
  simp only [dVisit, Option.bind_eq_some] at h
  obtain ⟨s', hs', h⟩ := h
  injection hs' with hs'
  subst hs'
  have hc' : DInv ns { s with
      indeg := fun x => if x = v then s.indeg v - 1 else s.indeg x } := by
    refine ⟨hc.log_nodup, hc.sched_def, hc.owner_chain, hc.nextFree_ge,
      hc.unsched, ?_⟩
    intro x hx
    dsimp only
    by_cases hxv : x = v
    · subst hxv
      rw [if_pos rfl]
      have := hc.indeg_le x hx
      omega
    · rw [if_neg hxv]
      exact hc.indeg_le x hx
  by_cases hg : s.indeg v - 1 = 0
  · rw [if_pos hg] at h
    have hvl : v ∉ s.log := by
      intro hvl
      have := hc.indeg_le v hvl
      omega
    refine dTrySchedule_inv hc' hvl ?_ h
    dsimp only
    rw [if_pos rfl]
    omega
  · rw [if_neg hg] at h
    injection h with h
    subst h
    exact hc'

lemma dVisit_fold_none {ns : List DNode} {wd ghols : Finset ℤ}
    {uhols : String → Finset ℤ} {base cur : ℤ} :
    ∀ (vs : List String),
      vs.foldl (dVisit ns wd ghols uhols base cur) none = none := by
  intro vs
  induction vs with
  | nil => rfl
  | cons v vs ih => rw [List.foldl_cons]; exact ih

lemma dVisit_fold_inv {ns : List DNode} {wd ghols : Finset ℤ}
    {uhols : String → Finset ℤ} {base cur : ℤ} :
    ∀ (vs : List String) (s : DState), DInv ns s →
      ∀ s₂, vs.foldl (dVisit ns wd ghols uhols base cur) (some s) = some s₂ →
        DInv ns s₂ := by
  intro vs
  induction vs with
  | nil =>
    intro s hc s₂ h
    injection h with h
    subst h
    exact hc
  | cons v vs ih =>
    intro s hc s₂ h
    rw [List.foldl_cons] at h
    cases hstep : dVisit ns wd ghols uhols base cur (some s) v with
    | none =>
      rw [hstep, dVisit_fold_none vs] at h
      cases h
    | some s₁ =>
      rw [hstep] at h
      exact ih s₁ (dVisit_inv hc hstep) s₂ h

lemma dLoop_inv {ns : List DNode} {wd ghols : Finset ℤ}
    {uhols : String → Finset ℤ} {base : ℤ} :
    ∀ (fuel : ℕ) (os : Option DState), (∀ s, os = some s → DInv ns s) →
      ∀ s₂, dLoop ns wd ghols uhols base fuel os = some s₂ → DInv ns s₂ := by
  intro fuel
  induction fuel with
  | zero =>
    intro os hos s₂ h
    exact hos s₂ h
  | succ fuel ih =>
    intro os hos s₂ h
    cases os with
    | none => cases h
    | some s =>
      have hc := hos s rfl
      simp only [dLoop] at h
      cases hpop : popMinD s.heap with
      | none =>
        rw [hpop] at h
        injection h with h
        subst h
        exact hc
      | some x =>
        obtain ⟨⟨edt, dk⟩, rest⟩ := x
        rw [hpop] at h
        refine ih _ ?_ s₂ h
        intro s₁ h₁
        have hcrest : DInv ns { s with heap := rest } :=
          ⟨hc.log_nodup, hc.sched_def, hc.owner_chain, hc.nextFree_ge,
            hc.unsched, hc.indeg_le⟩
        exact dVisit_fold_inv _ _ hcrest s₁ h₁

lemma dInit_fold_none {ns : List DNode} {wd ghols : Finset ℤ}
    {uhols : String → Finset ℤ} {base : ℤ} :
    ∀ (rem : List String),
      rem.foldl (fun os k => os.bind
        (fun s => dTrySchedule ns wd ghols uhols base s k base)) none = none := by
  intro rem
  induction rem with
  | nil => rfl
  | cons k rem ih => rw [List.foldl_cons]; exact ih

lemma dInit_fold_inv {ns : List DNode} {wd ghols : Finset ℤ}
    {uhols : String → Finset ℤ} {base : ℤ} :
    ∀ (rem : List String) (s : DState), DInv ns s → rem.Nodup →
      (∀ v ∈ rem, v ∉ s.log) → (∀ v ∈ rem, s.indeg v ≤ 0) →
      ∀ s₂, rem.foldl (fun os k => os.bind
          (fun s => dTrySchedule ns wd ghols uhols base s k base))
        (some s) = some s₂ → DInv ns s₂ := by
  intro rem
  induction rem with
  | nil =>
    intro s hc _ _ _ s₂ h
    injection h with h
    subst h
    exact hc
  | cons k rem ih =>
    intro s hc hnd hul hiz s₂ h
    obtain ⟨hkr, hrnd⟩ := List.nodup_cons.mp hnd
    rw [List.foldl_cons] at h
    cases hstep : dTrySchedule ns wd ghols uhols base s k base with
    | none =>
      rw [show (some s).bind (fun s => dTrySchedule ns wd ghols uhols base s k base)
          = none from by rw [Option.some_bind, hstep], dInit_fold_none rem] at h
      cases h
    | some s₁ =>
      rw [show (some s).bind (fun s => dTrySchedule ns wd ghols uhols base s k base)
          = some s₁ from by rw [Option.some_bind, hstep]] at h
      obtain ⟨hieq, hleq⟩ := dTrySchedule_shape hstep
      refine ih s₁ (dTrySchedule_inv hc (hul k (by simp)) (hiz k (by simp)) hstep)
        hrnd ?_ ?_ s₂ h
      · intro v hv
        rw [hleq]
        intro hcon
        rcases List.mem_append.mp hcon with hcon | hcon
        · exact hul v (by simp [hv]) hcon
        · exact hkr ((List.mem_singleton.mp hcon) ▸ hv)
      · intro v hv
        rw [hieq]
        exact hiz v (by simp [hv])

/-- The scheduled state of a date-based run satisfies the invariant. -/
lemma dRun_inv {ns : List DNode} {wd ghols : Finset ℤ}
    {uhols : String → Finset ℤ} {base : ℤ} (hkeys : (dnodes ns).Nodup)
    {s₂ : DState} (h : dRun ns wd ghols uhols base = some s₂) :
    DInv ns s₂ := by
  have hready : ∀ x, x ∈ dReady ns ↔
      x ∈ (dnodes ns).filter (fun k => decide (dIndeg0 ns k = 0)) :=
    fun x => (sortLE_perm keyTupleLE _).mem_iff
  refine dLoop_inv _ _ ?_ s₂ h
  intro s₁ h₁
  refine dInit_fold_inv (dReady ns) _ ?_ ?_ ?_ ?_ s₁ h₁
  · exact ⟨List.nodup_nil, fun k hk => absurd hk (List.not_mem_nil k),
      List.Pairwise.nil, fun a ha => absurd ha (List.not_mem_nil a),
      fun k _ => ⟨rfl, rfl⟩, fun k hk => absurd hk (List.not_mem_nil k)⟩
  · exact (sortLE_perm keyTupleLE _).nodup_iff.mpr (hkeys.filter _)
  · exact fun v _ hc => absurd hc (List.not_mem_nil v)
  · intro v hv
    rw [hready] at hv
    have := (List.mem_filter.mp hv).2
    simp only [decide_eq_true_eq] at this
    show dIndeg0 ns v ≤ 0
    omega

/-- C2: single-capacity enforcement.  In the RCPSP simulation two tasks
of the same owner never overlap (the later one starts at or after the
earlier one's finish); in the date-based dependency scheduler two
issues of the same assignee are strictly serialized (the later one
starts after the earlier one's end date); and in the per-assignee
sprint timeline two entries of the same assignee are strictly
serialized as well. -/
theorem single_capacity_no_overlap :
    (∀ (ts : List CTask), (cnodes ts).Nodup →
      (∀ t ∈ ts, t.dependencies.Nodup) →
      ((rcpspRun ts).log).Pairwise (fun a b =>
        cassignee ts a = cassignee ts b →
        (rcpspRun ts).EF a ≤ (rcpspRun ts).ES b)) ∧
    (∀ (ns : List DNode) (wd ghols : Finset ℤ) (uhols : String → Finset ℤ)
      (base : ℤ) (s₂ : DState), (dnodes ns).Nodup →
      dRun ns wd ghols uhols base = some s₂ →
      s₂.log.Pairwise (fun a b => dassignee ns a = dassignee ns b →
        ∀ ea sb, s₂.endD a = some ea → s₂.startD b = some sb → ea < sb)) ∧
    (∀ (items : List SprintItem) (base : ℤ) (wd ghol : Finset ℤ)
      (hbu : String → Finset ℤ) (es : List TEntry) (overall : ℤ),
      sprintTimeline items base wd ghol hbu = some (es, overall) →
      es.Pairwise (fun x y => x.assignee = y.assignee → x.finish < y.start)) := by
  refine ⟨?_, ?_, ?_⟩
  · intro ts hids hdeps
    exact (rcpspRun_spec hids hdeps).1.owner_chain
  · intro ns wd ghols uhols base s₂ hkeys h
    exact (dRun_inv hkeys h).owner_chain
  · intro items base wd ghol hbu es overall h
    simp only [sprintTimeline, Option.map_eq_some'] at h
    obtain ⟨es', h1, h2⟩ := h
    rw [Prod.mk.injEq] at h2
    obtain ⟨h2a, -⟩ := h2
    subst h2a
    exact timelinePerUsers_serialized (List.nodup_dedup _) h1

/-- Two independent issues of the same assignee for the date scheduler. -/
def DnC2 : List DNode :=
  [⟨"T-1", "X", 2, []⟩, ⟨"T-2", "X", 3, []⟩]

theorem single_capacity_no_overlap_witness :
    ((cnodes CgC4).Nodup ∧
      ((rcpspRun CgC4).log).Pairwise (fun a b =>
        cassignee CgC4 a = cassignee CgC4 b →
        (rcpspRun CgC4).EF a ≤ (rcpspRun CgC4).ES b)) ∧
    ((dnodes DnC2).Nodup ∧
      (dRun DnC2 {0, 1, 2, 3, 4, 5, 6} ∅ (fun _ => ∅) 0).elim True
        (fun s₂ => s₂.log.Pairwise (fun a b =>
          dassignee DnC2 a = dassignee DnC2 b →
          ∀ ea sb, s₂.endD a = some ea → s₂.startD b = some sb → ea < sb))) ∧
    (sprintTimeline [⟨"T", "X", 5⟩] 4 {0, 1, 2, 3, 4} ∅ (fun _ => ∅) =
        some ([⟨"T", "X", 4, 10, 5⟩], 10) ∧
      ([(⟨"T", "X", 4, 10, 5⟩ : TEntry)]).Pairwise
        (fun x y => x.assignee = y.assignee → x.finish < y.start)) := by
  refine ⟨⟨by decide, single_capacity_no_overlap.1 CgC4 (by decide) (by decide)⟩,
    ⟨by decide, ?_⟩, ⟨by decide, ?_⟩⟩
  · cases hrun : dRun DnC2 {0, 1, 2, 3, 4, 5, 6} ∅ (fun _ => ∅) 0 with
    | none => exact trivial
    | some s₂ =>
      exact single_capacity_no_overlap.2.1 DnC2 {0, 1, 2, 3, 4, 5, 6} ∅
        (fun _ => ∅) 0 s₂ (by decide) hrun
  · exact single_capacity_no_overlap.2.2 [⟨"T", "X", 5⟩] 4 {0, 1, 2, 3, 4} ∅
      (fun _ => ∅) [⟨"T", "X", 4, 10, 5⟩] 10 (by decide)

/-! ## ETA range estimator (`sprint_eta.py`) -/

/-- `nodes[u].get("assignee") or "UNASSIGNED"`. -/
def eassignee (ns : List DNode) (k : String) : String :=
  match dnodeOf ns k with
  | some n => if n.assignee = "" then "UNASSIGNED" else n.assignee
  | none => "UNASSIGNED"

/-- `int(max(1, nodes[k].get("duration_days") or 1))`. -/
def edur (ns : List DNode) (k : String) : ℕ :=
  max 1 (ddur ns k)

/-- Dependency edge of the sprint graph: `u` depends on `v` and both
are sprint issues (`if v in nodes`). -/
def eEdge (ns : List DNode) (u v : String) : Prop :=
  u ∈ dnodes ns ∧ v ∈ dnodes ns ∧ v ∈ ddeps ns u

/-- State of the 3-color depth-first search of `_detect_cycles`:
`0` unvisited, `1` visiting (on the stack), `2` done. -/
structure EState where
  color : String → ℕ
  stack : List String
  cycles : List (List String)

/-- `dfs(u)` of `_detect_cycles`, with explicit recursion depth. -/
def dfsE (ns : List DNode) : ℕ → EState → String → EState
  | 0, st, _ => st
  | fuel+1, st, u =>
    if st.color u = 1 then
      if u ∈ st.stack then
        { st with cycles :=
            st.cycles ++ [st.stack.drop (st.stack.indexOf u) ++ [u]] }
      else st
    else if st.color u = 2 then st
    else
      let st1 : EState := { st with
        color := fun x => if x = u then 1 else st.color x,
        stack := st.stack ++ [u] }
      let st2 := ((ddeps ns u).filter
        (fun v => decide (v ∈ dnodes ns))).foldl (dfsE ns fuel) st1
      { st2 with
        color := fun x => if x = u then 2 else st2.color x,
        stack := st2.stack.dropLast }

/-- `_detect_cycles`: run the DFS from every still-unvisited node. -/
def detectCycles (ns : List DNode) : List (List String) :=
  ((dnodes ns).foldl
    (fun st k => if st.color k = 0 then dfsE ns (ns.length + 1) st k else st)
    { color := fun _ => 0, stack := [], cycles := [] }).cycles

/-- `_topo_order` (Kahn with a FIFO deque, no fallback). -/
def eTopoOrder (ns : List DNode) : List String :=
  kahnLoop (dnodes ns) (dsucc ns) ((dnodes ns).length + 1) (dIndeg0 ns)
    ((dnodes ns).filter (fun u => decide (dIndeg0 ns u = 0))) []

/-- The optimistic pass: earliest start limited by the latest
dependency finish and the assignee's availability. -/
def optAux (ns : List DNode) : List String → (String → ℕ) → (String → ℕ) →
    (String → ℕ)
  | [], EF, _ => EF
  | u :: rest, EF, avail =>
    let deps := ddeps ns u
    let depsFinish := if deps = [] then 0 else (deps.map EF).foldl max 0
    let user := eassignee ns u
    let start_u := max depsFinish (avail user)
    let ef := start_u + edur ns u
    optAux ns rest (fun x => if x = u then ef else EF x)
      (fun w => if w = user then ef else avail w)

def optimisticEF (ns : List DNode) (issue : String) : ℕ :=
  optAux ns (eTopoOrder ns) (fun _ => 0) (fun _ => 0) issue

/-- `_compute_ancestors_of_target`: transitive closure over the raw
dependency lists, collected from the target. -/
def ancAux (ns : List DNode) : ℕ → List String → List String → List String
  | 0, anc, _ => anc
  | _+1, anc, [] => anc
  | fuel+1, anc, u :: rest =>
    let fresh := (ddeps ns u).filter (fun p => decide (p ∉ anc))
    ancAux ns fuel (anc ++ fresh.dedup) (fresh.dedup ++ rest)

def eAncestors (ns : List DNode) (target : String) : List String :=
  ancAux ns (ns.length + (ns.map (fun n => n.dependencies.length)).sum + 1)
    [] [target]

/-- State of the pessimistic greedy loop. -/
structure PState where
  indeg : String → ℤ
  depsFinReq : String → ℕ
  ready : List String
  avail2 : String → ℕ
  ES2 : String → ℕ
  EF2 : String → ℕ
  schedOrder : List String

/-- `start_time_for(k)`. -/
def pStart (ns : List DNode) (st : PState) (k : String) : ℕ :=
  max (st.avail2 (eassignee ns k)) (st.depsFinReq k)

/-- One iteration of the pessimistic `while ready:` loop: among the
ready issues with the earliest start, prefer non-ancestors of the
target, pick the first longest one, schedule it, and release its
successors. -/
def pLoop (ns : List DNode) (anc : List String) : ℕ → PState → PState
  | 0, st => st
  | fuel+1, st =>
    match st.ready with
    | [] => st
    | k0 :: _ =>
      let minStart := (st.ready.map (pStart ns st)).foldl min (pStart ns st k0)
      let earliest := st.ready.filter
        (fun k => decide (pStart ns st k = minStart))
      let nonAnc := earliest.filter (fun k => decide (k ∉ anc))
      let pool := if nonAnc = [] then earliest else nonAnc
      let chosen := match pool with
        | [] => k0
        | c :: cs => cs.foldl
            (fun best k => if edur ns k > edur ns best then k else best) c
      let stt := pStart ns st chosen
      let ft := stt + edur ns chosen
      let user := eassignee ns chosen
      let st1 : PState := { st with
        ES2 := fun x => if x = chosen then stt else st.ES2 x,
        EF2 := fun x => if x = chosen then ft else st.EF2 x,
        avail2 := fun w => if w = user then ft else st.avail2 w,
        ready := st.ready.erase chosen,
        schedOrder := st.schedOrder ++ [chosen] }
      let st2 := (dsucc ns chosen).foldl (fun s v =>
        let nid := s.indeg v - 1
        { s with
          indeg := fun x => if x = v then nid else s.indeg x,
          depsFinReq := fun x => if x = v then max (s.depsFinReq v) ft
            else s.depsFinReq x,
          ready := if nid = 0 then s.ready ++ [v] else s.ready }) st1
      pLoop ns anc fuel st2

def pessRun (ns : List DNode) (anc : List String) : PState :=
  pLoop ns anc
    (ns.length + (ns.map (fun n => n.dependencies.length)).sum + 1)
    { indeg := dIndeg0 ns, depsFinReq := fun _ => 0,
      ready := (dnodes ns).filter (fun k => decide (dIndeg0 ns k = 0)),
      avail2 := fun _ => 0, ES2 := fun _ => 0, EF2 := fun _ => 0,
      schedOrder := [] }

def pessimisticEF (ns : List DNode) (issue : String) : ℕ :=
  (pessRun ns (eAncestors ns issue)).EF2 issue

/-- The estimator's result, restricted to the fields the spec talks
about.  The error results carry no `optimistic_days`. -/
inductive EtaResult where
  | notFound (issue : String)
  | cycleError (issue : String) (cycles : List (List String))
  | ok (issue : String) (optimistic_days : ℕ) (pessimistic_days : ℕ)
deriving Repr, DecidableEq

/-- `compute_eta_range_for_issue_current_sprint` (no capacity scaling:
a scaled graph is just another node list). -/
def computeEta (ns : List DNode) (issue : String) : EtaResult :=
  if issue ∉ dnodes ns then .notFound issue
  else
    let cycles := detectCycles ns
    if cycles ≠ [] then .cycleError issue cycles
    else
      let opt := optimisticEF ns issue
      let pess := pessimisticEF ns issue
      .ok issue opt (if pess ≥ opt then pess else opt)

def whiteCount (ns : List DNode) (st : EState) : ℕ :=
  ((dnodes ns).filter (fun x => decide (st.color x = 0))).length

lemma filter_length_mono {α : Type} {p q : α → Bool} :
    ∀ {l : List α}, (∀ x ∈ l, q x = true → p x = true) →
      (l.filter q).length ≤ (l.filter p).length := by
  intro l
  induction l with
  | nil => intro _; simp
  | cons a l ih =>
    intro h
    rw [List.filter_cons, List.filter_cons]
    by_cases hq : q a = true
    · rw [if_pos hq, if_pos (h a (by simp) hq)]
      simp only [List.length_cons]
      exact Nat.succ_le_succ (ih (fun x hx => h x (by simp [hx])))
    · rw [if_neg hq]
      refine le_trans (ih (fun x hx => h x (by simp [hx]))) ?_
      by_cases hp : p a = true
      · rw [if_pos hp]; simp
      · rw [if_neg hp]

lemma filter_length_lt {α : Type} {p q : α → Bool} :
    ∀ {l : List α} {u : α}, u ∈ l → p u = true → q u = false →
      (∀ x ∈ l, q x = true → p x = true) →
      (l.filter q).length < (l.filter p).length := by
  intro l
  induction l with
  | nil => intro u hu; cases hu
  | cons a l ih =>
    intro u hu hpu hqu hmono
    rw [List.filter_cons, List.filter_cons]
    rcases List.mem_cons.mp hu with rfl | hu'
    · rw [if_pos hpu, if_neg (by simp [hqu])]
      simp only [List.length_cons]
      exact Nat.lt_succ_of_le (filter_length_mono (fun x hx => hmono x (by simp [hx])))
    · have hlt := ih hu' hpu hqu (fun x hx => hmono x (by simp [hx]))
      by_cases hq : q a = true
      · rw [if_pos hq, if_pos (hmono a (by simp) hq)]
        simp only [List.length_cons]
        omega
      · rw [if_neg hq]
        by_cases hp : p a = true
        · rw [if_pos hp]
          simp only [List.length_cons]
          omega
        · rw [if_neg hp]
          exact hlt

lemma reflTransGen_of_chain {α : Type} {r : α → α → Prop} :
    ∀ (l : List α) (x : α), List.Chain' r (x :: l) →
      Relation.ReflTransGen r x ((x :: l).getLast (by simp)) := by
  intro l
  induction l with
  | nil => intro x _; exact Relation.ReflTransGen.refl
  | cons y l ih =>
    intro x h
    rw [List.chain'_cons] at h
    have h2 := ih y h.2
    rw [List.getLast_cons (by simp : y :: l ≠ [])]
    exact Relation.ReflTransGen.head h.1 h2

lemma no_cycle_of_pairwise {α : Type} [DecidableEq α] {r : α → α → Prop}
    {bl : List α} (hnd : bl.Nodup)
    (hpw : bl.Pairwise (fun a b => ¬ r a b)) (hself : ∀ x ∈ bl, ¬ r x x)
    (hdom : ∀ a b, r a b → a ∈ bl ∧ b ∈ bl) :
    ∀ x, ¬ Relation.TransGen r x x := by
  have hrank : ∀ a b, r a b → bl.indexOf b < bl.indexOf a := by
    intro a b hr
    obtain ⟨ha, hb⟩ := hdom a b hr
    have hal : bl.indexOf a < bl.length := List.indexOf_lt_length.mpr ha
    have hbl : bl.indexOf b < bl.length := List.indexOf_lt_length.mpr hb
    rcases lt_trichotomy (bl.indexOf a) (bl.indexOf b) with h | h | h
    · exfalso
      have hpair := List.pairwise_iff_getElem.mp hpw (bl.indexOf a)
        (bl.indexOf b) hal hbl h
      rw [List.getElem_indexOf hal, List.getElem_indexOf hbl] at hpair
      exact hpair hr
    · exfalso
      have hab : a = b := by
        have h1 := List.getElem_indexOf hal
        have h2 := List.getElem_indexOf hbl
        rw [← h1, ← h2]
        simp only [h]
      exact hself a ha (hab ▸ hr)
    · exact h
  intro x hx
  have mono : ∀ {a b : α}, Relation.TransGen r a b →
      bl.indexOf b < bl.indexOf a := by
    intro a b h
    induction h with
    | single h1 => exact hrank _ _ h1
    | tail _ h2 ih => exact lt_trans (hrank _ _ h2) ih
  exact absurd (mono hx) (lt_irrefl _)

/-- Invariant of the 3-color DFS. -/
structure EInv (ns : List DNode) (st : EState) : Prop where
  stack_sub : ∀ x ∈ st.stack, x ∈ dnodes ns
  stack_nodup : st.stack.Nodup
  grey_iff : ∀ x, st.color x = 1 ↔ x ∈ st.stack
  color_le : ∀ x, st.color x ≤ 2
  color_nodes : ∀ x, x ∉ dnodes ns → st.color x = 0
  stack_chain : st.stack.Chain' (eEdge ns)
  cycles_sound : st.cycles ≠ [] → ∃ x, Relation.TransGen (eEdge ns) x x
  blacks : st.cycles = [] → ∃ bl : List String,
    (∀ x, st.color x = 2 ↔ x ∈ bl) ∧ bl.Nodup ∧
    bl.Pairwise (fun a b => ¬ eEdge ns a b) ∧ (∀ x ∈ bl, ¬ eEdge ns x x) ∧
    (∀ u ∈ bl, ∀ v, eEdge ns u v → st.color v = 2)

/-- What one DFS call guarantees besides the invariant. -/
structure DfsPost (ns : List DNode) (st st' : EState) : Prop where
  inv : EInv ns st'
  stack_eq : st'.stack = st.stack
  frame : ∀ x, st.color x ≠ 0 → st'.color x = st.color x
  cycles_ext : ∃ ex, st'.cycles = st.cycles ++ ex
  white_le : whiteCount ns st' ≤ whiteCount ns st

lemma DfsPost.comp {ns : List DNode} {a b c : EState}
    (h1 : DfsPost ns a b) (h2 : DfsPost ns b c) : DfsPost ns a c := by
  refine ⟨h2.inv, h2.stack_eq.trans h1.stack_eq, ?_, ?_, le_trans h2.white_le h1.white_le⟩
  · intro x hx
    rw [h2.frame x (by rw [h1.frame x hx]; exact hx), h1.frame x hx]
  · obtain ⟨e1, he1⟩ := h1.cycles_ext
    obtain ⟨e2, he2⟩ := h2.cycles_ext
    exact ⟨e1 ++ e2, by rw [he2, he1, List.append_assoc]⟩

lemma dfsE_fold_spec {ns : List DNode} (fuel : ℕ)
    (ih : ∀ (st : EState) (u : String), EInv ns st → whiteCount ns st < fuel →
      u ∈ dnodes ns → (∀ pre x, st.stack = pre ++ [x] → eEdge ns x u) →
      DfsPost ns st (dfsE ns fuel st u) ∧
        ((dfsE ns fuel st u).color u = 2 ∨ (dfsE ns fuel st u).cycles ≠ []))
    (u : String) (S : List String) :
    ∀ (vs : List String) (st : EState), EInv ns st →
      whiteCount ns st < fuel → st.stack = S ++ [u] →
      (∀ v ∈ vs, eEdge ns u v) →
      DfsPost ns st (vs.foldl (dfsE ns fuel) st) ∧
      ∀ v ∈ vs, ((vs.foldl (dfsE ns fuel) st).color v = 2 ∨
        (vs.foldl (dfsE ns fuel) st).cycles ≠ []) := by
  intro vs
  induction vs with
  | nil =>
    intro st hinv hw _ _
    refine ⟨⟨hinv, rfl, fun _ _ => rfl, ⟨[], by simp⟩, le_refl _⟩, ?_⟩
    intro v hv
    cases hv
  | cons v vs ihl =>
    intro st hinv hw hstack hedges
    rw [List.foldl_cons]
    have hedge_v : ∀ pre x, st.stack = pre ++ [x] → eEdge ns x v := by
      intro pre x hpx
      have heq : pre ++ [x] = S ++ [u] := by rw [← hpx, hstack]
      have hxu : x = u := by
        have hla := congrArg List.getLast? heq
        rw [List.getLast?_concat, List.getLast?_concat] at hla
        exact Option.some.inj hla
      rw [hxu]
      exact hedges v (by simp)
    have hvn : v ∈ dnodes ns := (hedges v (by simp)).2.1
    obtain ⟨hpost1, hpu⟩ := ih st v hinv hw hvn hedge_v
    have hw1 : whiteCount ns (dfsE ns fuel st v) < fuel :=
      lt_of_le_of_lt hpost1.white_le hw
    have hstack1 : (dfsE ns fuel st v).stack = S ++ [u] := by
      rw [hpost1.stack_eq, hstack]
    obtain ⟨hpost2, hrest⟩ := ihl (dfsE ns fuel st v) hpost1.inv hw1 hstack1
      (fun w hwm => hedges w (by simp [hwm]))
    refine ⟨hpost1.comp hpost2, ?_⟩
    intro w hwv
    rcases List.mem_cons.mp hwv with rfl | hw'
    · rcases hpu with hc | hc
      · exact Or.inl (by rw [hpost2.frame w (by rw [hc]; omega), hc])
      · obtain ⟨ex, hex⟩ := hpost2.cycles_ext
        refine Or.inr ?_
        rw [hex]
        intro hcon
        rw [List.append_eq_nil] at hcon
        exact hc hcon.1
    · exact hrest w hw'

def dfsStep1 (st : EState) (u : String) : EState :=
  { st with
    color := fun x => if x = u then 1 else st.color x,
    stack := st.stack ++ [u] }

def dfsDeps (ns : List DNode) (u : String) : List String :=
  (ddeps ns u).filter (fun v => decide (v ∈ dnodes ns))

def dfsWrap (st2 : EState) (u : String) : EState :=
  { st2 with
    color := fun x => if x = u then 2 else st2.color x,
    stack := st2.stack.dropLast }

lemma dfsE_white_eq {ns : List DNode} {fuel : ℕ} {st : EState} {u : String}
    (h1 : st.color u ≠ 1) (h2 : st.color u ≠ 2) :
    dfsE ns (fuel+1) st u =
      dfsWrap ((dfsDeps ns u).foldl (dfsE ns fuel) (dfsStep1 st u)) u := by
  simp only [dfsE, dfsStep1, dfsDeps, dfsWrap]
  rw [if_neg h1, if_neg h2]

lemma dfsE_spec {ns : List DNode} :
    ∀ (fuel : ℕ) (st : EState) (u : String), EInv ns st →
      whiteCount ns st < fuel → u ∈ dnodes ns →
      (∀ pre x, st.stack = pre ++ [x] → eEdge ns x u) →
      DfsPost ns st (dfsE ns fuel st u) ∧
        ((dfsE ns fuel st u).color u = 2 ∨ (dfsE ns fuel st u).cycles ≠ []) := by
  intro fuel
  induction fuel with
  | zero =>
    intro st u _ hw
    exact absurd hw (by omega)
  | succ fuel ih =>
    intro st u hinv hw hun hedge
    by_cases h1 : st.color u = 1
    · have hus : u ∈ st.stack := (hinv.grey_iff u).mp h1
      have hrw : dfsE ns (fuel+1) st u = { st with cycles :=
          st.cycles ++ [st.stack.drop (st.stack.indexOf u) ++ [u]] } := by
        simp only [dfsE]
        rw [if_pos h1, if_pos (by simpa using hus)]
      rw [hrw]
      have hcyc : ∃ x, Relation.TransGen (eEdge ns) x x := by
        have hidx : st.stack.indexOf u < st.stack.length :=
          List.indexOf_lt_length.mpr hus
        have hdrop : st.stack.drop (st.stack.indexOf u) =
            u :: st.stack.drop (st.stack.indexOf u + 1) := by
          rw [List.drop_eq_getElem_cons hidx, List.getElem_indexOf hidx]
        have hsplit : st.stack = st.stack.take (st.stack.indexOf u) ++
            st.stack.drop (st.stack.indexOf u) := (List.take_append_drop _ _).symm
        have hchain : (st.stack.drop (st.stack.indexOf u)).Chain' (eEdge ns) := by
          have hch := hinv.stack_chain
          rw [hsplit] at hch
          exact (List.chain'_append.mp hch).2.1
        rw [hdrop] at hchain
        have hne : st.stack ≠ [] := by
          intro hcon
          rw [hcon] at hus
          cases hus
        have hlastE : eEdge ns (st.stack.getLast hne) u :=
          hedge st.stack.dropLast (st.stack.getLast hne)
            (List.dropLast_append_getLast hne).symm
        have hdne : u :: st.stack.drop (st.stack.indexOf u + 1) ≠ [] := by simp
        have hld : st.stack.getLast hne =
            (u :: st.stack.drop (st.stack.indexOf u + 1)).getLast hdne := by
          have heq2 : st.stack = st.stack.take (st.stack.indexOf u) ++
              (u :: st.stack.drop (st.stack.indexOf u + 1)) := by
            rw [← hdrop]
            exact hsplit
          have e1 : st.stack.getLast? = some (st.stack.getLast hne) :=
            List.getLast?_eq_getLast st.stack hne
          have e2 : (u :: st.stack.drop (st.stack.indexOf u + 1)).getLast? =
              some ((u :: st.stack.drop (st.stack.indexOf u + 1)).getLast hdne) :=
            List.getLast?_eq_getLast _ hdne
          have e3 : st.stack.getLast? =
              (u :: st.stack.drop (st.stack.indexOf u + 1)).getLast? := by
            conv_lhs => rw [heq2]
            exact List.getLast?_append_of_ne_nil _ hdne
          rw [e1, e2] at e3
          exact Option.some.inj e3
        have hrt := reflTransGen_of_chain _ u hchain
        refine ⟨u, Relation.TransGen.trans_right ?_ (Relation.TransGen.single hlastE)⟩
        rw [hld]
        exact hrt
      refine ⟨⟨?_, rfl, fun _ _ => rfl, ⟨_, rfl⟩, le_refl _⟩, Or.inr (by simp)⟩
      exact ⟨hinv.stack_sub, hinv.stack_nodup, hinv.grey_iff, hinv.color_le,
        hinv.color_nodes, hinv.stack_chain, fun _ => hcyc,
        fun hcon => absurd hcon (by simp)⟩
    · by_cases h2 : st.color u = 2
      · have hrw : dfsE ns (fuel+1) st u = st := by
          simp only [dfsE]
          rw [if_neg h1, if_pos h2]
        rw [hrw]
        exact ⟨⟨hinv, rfl, fun _ _ => rfl, ⟨[], by simp⟩, le_refl _⟩, Or.inl h2⟩
      · have h0 : st.color u = 0 := by
          have := hinv.color_le u
          omega
        have hunstack : u ∉ st.stack := fun hc => h1 ((hinv.grey_iff u).mpr hc)
        rw [dfsE_white_eq h1 h2]
        have hinv1 : EInv ns (dfsStep1 st u) := by
          refine ⟨?_, ?_, ?_, ?_, ?_, ?_, hinv.cycles_sound, ?_⟩
          · intro x hx
            rcases List.mem_append.mp hx with hx | hx
            · exact hinv.stack_sub x hx
            · exact (List.mem_singleton.mp hx) ▸ hun
          · exact hinv.stack_nodup.append (List.nodup_singleton u)
              (fun a ha hb => hunstack (by rwa [List.mem_singleton.mp hb] at ha))
          · intro x
            show (if x = u then 1 else st.color x) = 1 ↔ x ∈ st.stack ++ [u]
            by_cases hxu : x = u
            · subst hxu
              simp
            · rw [if_neg hxu]
              rw [List.mem_append, List.mem_singleton]
              rw [hinv.grey_iff x]
              constructor
              · exact Or.inl
              · intro hc
                rcases hc with hc | hc
                · exact hc
                · exact absurd hc hxu
          · intro x
            show (if x = u then 1 else st.color x) ≤ 2
            by_cases hxu : x = u
            · rw [if_pos hxu]; omega
            · rw [if_neg hxu]; exact hinv.color_le x
          · intro x hx
            have hxu : x ≠ u := fun hc => hx (hc ▸ hun)
            show (if x = u then 1 else st.color x) = 0
            rw [if_neg hxu]
            exact hinv.color_nodes x hx
          · show (st.stack ++ [u]).Chain' (eEdge ns)
            rw [List.chain'_append]
            refine ⟨hinv.stack_chain, List.chain'_singleton u, ?_⟩
            intro x hx y hy
            rw [List.head?_cons, Option.mem_some_iff] at hy
            subst hy
            have hne2 : st.stack ≠ [] := by
              intro hcon
              rw [hcon] at hx
              simp at hx
            have hxl : x = st.stack.getLast hne2 := by
              rw [List.getLast?_eq_getLast st.stack hne2,
                Option.mem_some_iff] at hx
              exact hx.symm
            rw [hxl]
            exact hedge st.stack.dropLast _
              (List.dropLast_append_getLast hne2).symm
          · intro hnil
            obtain ⟨bl, hiff, hnd, hpw, hself, hcl⟩ := hinv.blacks hnil
            refine ⟨bl, ?_, hnd, hpw, hself, ?_⟩
            · intro x
              show (if x = u then 1 else st.color x) = 2 ↔ x ∈ bl
              by_cases hxu : x = u
              · rw [if_pos hxu]
                constructor
                · intro hc
                  omega
                · intro hc
                  have hcx := (hiff x).mpr hc
                  rw [hxu, h0] at hcx
                  omega
              · rw [if_neg hxu]
                exact hiff x
            · intro b hb v hv
              have h2v := hcl b hb v hv
              have hvu : v ≠ u := fun hc => by
                rw [hc, h0] at h2v
                omega
              show (if v = u then 1 else st.color v) = 2
              rw [if_neg hvu]
              exact h2v
        have hw1lt : whiteCount ns (dfsStep1 st u) < whiteCount ns st := by
          refine filter_length_lt hun (by simp [h0]) ?_ ?_
          · show decide ((dfsStep1 st u).color u = 0) = false
            simp [dfsStep1]
          · intro x _ hq
            simp only [decide_eq_true_eq] at hq ⊢
            by_cases hxu : x = u
            · exfalso
              rw [hxu] at hq
              simp [dfsStep1] at hq
            · simpa [dfsStep1, hxu] using hq
        obtain ⟨hpostF, hdeps2⟩ := dfsE_fold_spec fuel ih u st.stack
          (dfsDeps ns u) (dfsStep1 st u) hinv1 (by omega) rfl
          (fun v hv => by
            rw [dfsDeps, List.mem_filter] at hv
            exact ⟨hun, by simpa using hv.2, hv.1⟩)
        have hstack2 : ((dfsDeps ns u).foldl (dfsE ns fuel) (dfsStep1 st u)).stack
            = st.stack ++ [u] := hpostF.stack_eq
        have hcolu2 : ((dfsDeps ns u).foldl (dfsE ns fuel) (dfsStep1 st u)).color u
            = 1 := by
          rw [hpostF.frame u (by simp [dfsStep1])]
          simp [dfsStep1]
        obtain ⟨ex2, hcyc2⟩ := hpostF.cycles_ext
        have hcyc2' : ((dfsDeps ns u).foldl (dfsE ns fuel) (dfsStep1 st u)).cycles
            = st.cycles ++ ex2 := hcyc2
        have hinv2 := hpostF.inv
        refine ⟨⟨?_, ?_, ?_, ?_, ?_⟩, Or.inl (by
          show (if u = u then 2 else _) = 2
          rw [if_pos rfl])⟩
        · -- invariant of the wrapped state
          refine ⟨?_, ?_, ?_, ?_, ?_, ?_, ?_, ?_⟩
          · intro x hx
            rw [show (dfsWrap _ u).stack = st.stack from by
              rw [dfsWrap, hstack2]; exact List.dropLast_concat] at hx
            exact hinv.stack_sub x hx
          · rw [show (dfsWrap _ u).stack = st.stack from by
              rw [dfsWrap, hstack2]; exact List.dropLast_concat]
            exact hinv.stack_nodup
          · intro x
            rw [show (dfsWrap _ u).stack = st.stack from by
              rw [dfsWrap, hstack2]; exact List.dropLast_concat]
            show (if x = u then 2 else _) = 1 ↔ x ∈ st.stack
            by_cases hxu : x = u
            · subst hxu
              rw [if_pos rfl]
              constructor
              · omega
              · intro hc
                exact absurd hc hunstack
            · rw [if_neg hxu]
              rw [hinv2.grey_iff x, hstack2, List.mem_append, List.mem_singleton]
              constructor
              · intro hc
                rcases hc with hc | hc
                · exact hc
                · exact absurd hc hxu
              · exact Or.inl
          · intro x
            show (if x = u then 2 else _) ≤ 2
            by_cases hxu : x = u
            · rw [if_pos hxu]
            · rw [if_neg hxu]
              exact hinv2.color_le x
          · intro x hx
            have hxu : x ≠ u := fun hc => hx (hc ▸ hun)
            show (if x = u then 2 else _) = 0
            rw [if_neg hxu]
            exact hinv2.color_nodes x hx
          · rw [show (dfsWrap _ u).stack = st.stack from by
              rw [dfsWrap, hstack2]; exact List.dropLast_concat]
            exact hinv.stack_chain
          · show ((dfsDeps ns u).foldl (dfsE ns fuel) (dfsStep1 st u)).cycles ≠ [] → _
            exact hinv2.cycles_sound
          · intro hnil
            have hnil2 : ((dfsDeps ns u).foldl (dfsE ns fuel)
                (dfsStep1 st u)).cycles = [] := hnil
            obtain ⟨bl, hiff, hnd, hpw, hself, hcl⟩ := hinv2.blacks hnil2
            have hub : u ∉ bl := fun hc => by
              have := (hiff u).mpr hc
              rw [hcolu2] at this
              omega
            refine ⟨bl ++ [u], ?_, ?_, ?_, ?_, ?_⟩
            · intro x
              show (if x = u then 2 else _) = 2 ↔ x ∈ bl ++ [u]
              rw [List.mem_append, List.mem_singleton]
              by_cases hxu : x = u
              · subst hxu
                rw [if_pos rfl]
                simp
              · rw [if_neg hxu, hiff x]
                constructor
                · exact Or.inl
                · intro hc
                  rcases hc with hc | hc
                  · exact hc
                  · exact absurd hc hxu
            · exact hnd.append (List.nodup_singleton u)
                (fun a ha hb => hub (by rwa [List.mem_singleton.mp hb] at ha))
            · rw [List.pairwise_append]
              refine ⟨hpw, List.pairwise_singleton _ _, ?_⟩
              intro a ha b hb
              rw [List.mem_singleton] at hb
              subst hb
              intro hc
              have := hcl a ha b hc
              rw [hcolu2] at this
              omega
            · intro x hx
              rcases List.mem_append.mp hx with hx | hx
              · exact hself x hx
              · rw [List.mem_singleton] at hx
                subst hx
                intro hc
                have hmem : x ∈ dfsDeps ns x := by
                  rw [dfsDeps, List.mem_filter]
                  exact ⟨hc.2.2, by simpa using hc.2.1⟩
                rcases hdeps2 x hmem with hcc | hcc
                · rw [hcolu2] at hcc
                  omega
                · exact hcc hnil2
            · intro b hb v hv
              rcases List.mem_append.mp hb with hb | hb
              · have h2v := hcl b hb v hv
                have hvu : v ≠ u := fun hc => by
                  rw [hc, hcolu2] at h2v
                  omega
                show (if v = u then 2 else _) = 2
                rw [if_neg hvu]
                exact h2v
              · rw [List.mem_singleton] at hb
                subst hb
                have hmem : v ∈ dfsDeps ns b := by
                  rw [dfsDeps, List.mem_filter]
                  exact ⟨hv.2.2, by simpa using hv.2.1⟩
                rcases hdeps2 v hmem with hcc | hcc
                · have hvu : v ≠ b := fun hc => by
                    rw [hc, hcolu2] at hcc
                    omega
                  show (if v = b then 2 else _) = 2
                  rw [if_neg hvu]
                  exact hcc
                · exact absurd hnil2 (by simpa using hcc)
        · rw [dfsWrap, hstack2]
          exact List.dropLast_concat
        · intro x hx
          have hxu : x ≠ u := fun hc => hx (by rw [hc]; exact h0)
          show (if x = u then 2 else _) = st.color x
          rw [if_neg hxu]
          rw [hpostF.frame x (by simp [dfsStep1, hxu]; exact hx)]
          simp [dfsStep1, hxu]
        · exact ⟨ex2, hcyc2'⟩
        · have heqw : whiteCount ns (dfsWrap ((dfsDeps ns u).foldl (dfsE ns fuel)
              (dfsStep1 st u)) u) = whiteCount ns ((dfsDeps ns u).foldl
              (dfsE ns fuel) (dfsStep1 st u)) := by
            unfold whiteCount
            congr 1
            apply List.filter_congr
            intro x _
            by_cases hxu : x = u
            · simp [hxu, hcolu2, dfsWrap]
            · show decide ((if x = u then 2 else _) = 0) = _
              simp [hxu]
          rw [heqw]
          exact le_trans hpostF.white_le (le_of_lt hw1lt)

lemma rootFold_spec {ns : List DNode} :
    ∀ (vs : List String) (st : EState), EInv ns st → st.stack = [] →
      (∀ v ∈ vs, v ∈ dnodes ns) →
      EInv ns (vs.foldl (fun st k =>
        if st.color k = 0 then dfsE ns (ns.length + 1) st k else st) st) ∧
      (vs.foldl (fun st k =>
        if st.color k = 0 then dfsE ns (ns.length + 1) st k else st) st).stack = [] ∧
      (∃ ex, (vs.foldl (fun st k =>
        if st.color k = 0 then dfsE ns (ns.length + 1) st k else st) st).cycles
        = st.cycles ++ ex) ∧
      (∀ x, st.color x ≠ 0 → (vs.foldl (fun st k =>
        if st.color k = 0 then dfsE ns (ns.length + 1) st k else st) st).color x
        = st.color x) ∧
      (∀ v ∈ vs, (vs.foldl (fun st k =>
        if st.color k = 0 then dfsE ns (ns.length + 1) st k else st) st).color v = 2 ∨
        (vs.foldl (fun st k =>
          if st.color k = 0 then dfsE ns (ns.length + 1) st k else st) st).cycles ≠ []) := by
  intro vs
  induction vs with
  | nil =>
    intro st hinv hstk _
    exact ⟨hinv, hstk, ⟨[], by simp⟩, fun _ _ => rfl, fun v hv => absurd hv (List.not_mem_nil v)⟩
  | cons v vs ihl =>
    intro st hinv hstk hmem
    rw [List.foldl_cons]
    have hwb : whiteCount ns st < ns.length + 1 := by
      have h1 : whiteCount ns st ≤ (dnodes ns).length :=
        List.length_filter_le _ _
      have h2 : (dnodes ns).length = ns.length := List.length_map _ _
      omega
    by_cases hv0 : st.color v = 0
    · rw [if_pos hv0]
      obtain ⟨hpost, hpu⟩ := dfsE_spec (ns.length + 1) st v hinv hwb
        (hmem v (by simp))
        (by
          intro pre x hpx
          rw [hstk] at hpx
          exact absurd hpx.symm (by simp))
      obtain ⟨hinv', hstk', ⟨ex', hex'⟩, hframe', hrest'⟩ :=
        ihl (dfsE ns (ns.length + 1) st v) hpost.inv
          (hpost.stack_eq.trans hstk) (fun w hw => hmem w (by simp [hw]))
      obtain ⟨ex0, hex0⟩ := hpost.cycles_ext
      refine ⟨hinv', hstk', ⟨ex0 ++ ex', by rw [hex', hex0, List.append_assoc]⟩,
        ?_, ?_⟩
      · intro x hx
        rw [hframe' x (by rw [hpost.frame x hx]; exact hx), hpost.frame x hx]
      · intro w hw
        rcases List.mem_cons.mp hw with rfl | hw'
        · rcases hpu with hc | hc
          · exact Or.inl (by rw [hframe' w (by rw [hc]; omega), hc])
          · refine Or.inr ?_
            rw [hex']
            intro hcon
            rw [List.append_eq_nil] at hcon
            exact hc hcon.1
        · exact hrest' w hw'
    · rw [if_neg hv0]
      have hv2 : st.color v = 2 := by
        have hle := hinv.color_le v
        have hg := hinv.grey_iff v
        rw [hstk] at hg
        have : ¬ st.color v = 1 := by
          intro hc
          exact absurd (hg.mp hc) (List.not_mem_nil v)
        omega
      obtain ⟨hinv', hstk', hex', hframe', hrest'⟩ :=
        ihl st hinv hstk (fun w hw => hmem w (by simp [hw]))
      refine ⟨hinv', hstk', hex', hframe', ?_⟩
      intro w hw
      rcases List.mem_cons.mp hw with rfl | hw'
      · exact Or.inl (by rw [hframe' w (by omega)]; exact hv2)
      · exact hrest' w hw'

/-- The DFS of `_detect_cycles` is sound and complete: it reports a
cycle exactly when the dependency graph has one. -/
lemma detectCycles_sound_complete (ns : List DNode) :
    (detectCycles ns ≠ [] → ∃ x, Relation.TransGen (eEdge ns) x x) ∧
    (detectCycles ns = [] → ∀ x, ¬ Relation.TransGen (eEdge ns) x x) := by
  have hinv0 : EInv ns { color := fun _ => 0, stack := [], cycles := [] } := by
    refine ⟨?_, List.nodup_nil, ?_, ?_, ?_, List.chain'_nil, ?_, ?_⟩
    · intro x hx; cases hx
    · intro x; constructor
      · intro h; cases h
      · intro h; cases h
    · intro x; exact Nat.zero_le 2
    · intro x _; rfl
    · intro h; exact absurd rfl h
    · intro _
      refine ⟨[], ?_, List.nodup_nil, List.Pairwise.nil, ?_, ?_⟩
      · intro x; constructor
        · intro h; cases h
        · intro h; cases h
      · intro x hx; cases hx
      · intro u hu; cases hu
  obtain ⟨hinvF, hstkF, hexF, hframeF, hallF⟩ :=
    rootFold_spec (dnodes ns) _ hinv0 rfl (fun v hv => hv)
  constructor
  · intro hne
    exact hinvF.cycles_sound hne
  · intro hnil
    have hall2 : ∀ v ∈ dnodes ns, ((dnodes ns).foldl (fun st k =>
        if st.color k = 0 then dfsE ns (ns.length + 1) st k else st)
        { color := fun _ => 0, stack := [], cycles := [] }).color v = 2 := by
      intro v hv
      rcases hallF v hv with hc | hc
      · exact hc
      · exact absurd hnil hc
    obtain ⟨bl, hiff, hnd, hpw, hself, -⟩ := hinvF.blacks hnil
    refine no_cycle_of_pairwise hnd hpw hself ?_
    intro a b hr
    exact ⟨(hiff a).mp (hall2 a hr.1), (hiff b).mp (hall2 b hr.2.1)⟩

/-- A ranking along raw dependency edges certifies acyclicity. -/
lemma eacyclic_of_rank (ns : List DNode) (rank : String → ℕ)
    (h : ∀ a ∈ dnodes ns, ∀ b ∈ ddeps ns a, b ∈ dnodes ns → rank a < rank b) :
    ∀ x, ¬ Relation.TransGen (eEdge ns) x x := by
  have hedge : ∀ a b, eEdge ns a b → rank a < rank b :=
    fun a b hb => h a hb.1 b hb.2.2 hb.2.1
  have mono : ∀ {a b : String}, Relation.TransGen (eEdge ns) a b →
      rank a < rank b := by
    intro a b hab
    induction hab with
    | single h1 => exact hedge _ _ h1
    | tail _ h2 ih => exact lt_trans ih (hedge _ _ h2)
  exact fun x hx => absurd (mono hx) (lt_irrefl _)

/-- C5: on an acyclic graph with the target present, the estimator
returns a success result, and its `pessimistic_days` is at least its
`optimistic_days` (the result clamps the pessimistic value from
below by the optimistic one). -/
theorem eta_pessimistic_ge_optimistic (ns : List DNode) (issue : String)
    (hacyc : ∀ x, ¬ Relation.TransGen (eEdge ns) x x)
    (hiss : issue ∈ dnodes ns) :
    ∃ o p, computeEta ns issue = .ok issue o p ∧ o ≤ p := by
  have hnil : detectCycles ns = [] := by
    by_contra hne
    obtain ⟨x, hx⟩ := (detectCycles_sound_complete ns).1 hne
    exact hacyc x hx
  refine ⟨optimisticEF ns issue,
    if pessimisticEF ns issue ≥ optimisticEF ns issue
      then pessimisticEF ns issue else optimisticEF ns issue, ?_, ?_⟩
  · unfold computeEta
    rw [if_neg (by simpa using hiss)]
    simp only [hnil]
    rw [if_neg (by simp)]
  · by_cases hc : pessimisticEF ns issue ≥ optimisticEF ns issue
    · rw [if_pos hc]
      exact hc
    · rw [if_neg hc]

/-- The 2-cycle of Scenario C: `T` depends on `U` and `U` on `T`. -/
def EnC3 : List DNode :=
  [⟨"T", "X", 1, ["U"]⟩, ⟨"U", "X", 1, ["T"]⟩]

/-- C3: whenever the sprint graph has a dependency cycle (in
particular one reachable from the target), the estimator terminates
and returns the cycle-error result — a constructor that carries the
recorded non-empty cycle list and no `optimistic_days` — and on the
concrete 2-cycle `T ↔ U` the recorded cycle list is `[[T, U, T]]`. -/
theorem eta_cycle_error :
    (∀ (ns : List DNode) (issue x : String), issue ∈ dnodes ns →
      Relation.TransGen (eEdge ns) x x →
      ∃ cys, computeEta ns issue = .cycleError issue cys ∧ cys ≠ []) ∧
    computeEta EnC3 "T" = .cycleError "T" [["T", "U", "T"]] := by
  constructor
  · intro ns issue x hiss hcyc
    have hne : detectCycles ns ≠ [] := by
      intro hnil
      exact (detectCycles_sound_complete ns).2 hnil x hcyc
    refine ⟨detectCycles ns, ?_, hne⟩
    unfold computeEta
    rw [if_neg (by simpa using hiss)]
    rw [if_pos hne]
  · decide

theorem eta_cycle_error_witness :
    ("T" ∈ dnodes EnC3) ∧
    (∃ cys, computeEta EnC3 "T" = .cycleError "T" cys ∧ cys ≠ []) := by
  have e1 : eEdge EnC3 "T" "U" := ⟨by decide, by decide, by decide⟩
  have e2 : eEdge EnC3 "U" "T" := ⟨by decide, by decide, by decide⟩
  exact ⟨by decide, eta_cycle_error.1 EnC3 "T" "T" (by decide)
    (Relation.TransGen.head e1 (Relation.TransGen.single e2))⟩

/-- An acyclic two-issue chain for the estimator. -/
def EnC5 : List DNode :=
  [⟨"T", "X", 2, []⟩, ⟨"U", "X", 3, ["T"]⟩]

theorem eta_pessimistic_ge_optimistic_witness :
    ("U" ∈ dnodes EnC5) ∧
    ∃ o p, computeEta EnC5 "U" = .ok "U" o p ∧ o ≤ p :=
  ⟨by decide, eta_pessimistic_ge_optimistic EnC5 "U"
    (eacyclic_of_rank EnC5 (fun s => if s = "U" then 0 else 1) (by decide))
    (by decide)⟩

lemma dnodeOf_eq_some {ns : List DNode} {u : String} {n : DNode}
    (h : dnodeOf ns u = some n) : n ∈ ns ∧ n.key = u := by
  unfold dnodeOf at h
  refine ⟨List.mem_of_find?_eq_some h, ?_⟩
  have := List.find?_some h
  exact beq_iff_eq.mp this

lemma dnodeOf_of_mem {ns : List DNode} {n : DNode}
    (hkeys : (dnodes ns).Nodup) (hn : n ∈ ns) : dnodeOf ns n.key = some n := by
  induction ns with
  | nil => cases hn
  | cons n' rest ih =>
    rcases List.mem_cons.mp hn with rfl | hn'
    · exact List.find?_cons_of_pos _ (by simp)
    · have hne : ¬ ((fun (x : DNode) => x.key == n.key) n' = true) := by
        simp only [beq_iff_eq]
        intro h
        apply (List.nodup_cons.mp hkeys).1
        show n'.key ∈ List.map (fun x => x.key) rest
        rw [h]
        exact List.mem_map.mpr ⟨n, hn', rfl⟩
      unfold dnodeOf
      exact (@List.find?_cons_of_neg DNode (fun x => x.key == n.key) n' rest hne).trans
        (ih (List.nodup_cons.mp hkeys).2 hn')

lemma mem_dsucc {ns : List DNode} {d v : String} :
    v ∈ dsucc ns d ↔ d ∈ dnodes ns ∧ ∃ n ∈ ns, n.key = v ∧ d ∈ n.dependencies := by
  unfold dsucc
  by_cases hd : d ∈ dnodes ns
  · rw [if_pos (by simpa using hd)]
    simp only [List.mem_flatMap, List.mem_map, List.mem_filter]
    constructor
    · rintro ⟨n, hn, x, ⟨hx, hxd⟩, hid⟩
      exact ⟨hd, n, hn, hid, (beq_iff_eq.mp hxd) ▸ hx⟩
    · rintro ⟨_, n, hn, hid, hdd⟩
      exact ⟨n, hn, d, ⟨hdd, beq_iff_eq.mpr rfl⟩, hid⟩
  · rw [if_neg (by simpa using hd)]
    simp [hd]

lemma dsucc_nodup {ns : List DNode} (hkeys : (dnodes ns).Nodup)
    (hdeps : ∀ n ∈ ns, n.dependencies.Nodup) (d : String) :
    (dsucc ns d).Nodup := by
  have key : ∀ (l : List DNode), (∀ n ∈ l, n.dependencies.Nodup) →
      (l.flatMap (fun n => (n.dependencies.filter (fun x => x == d)).map
        (fun _ => n.key))).Sublist (l.map (fun n => n.key)) := by
    intro l
    induction l with
    | nil => intro _; simp
    | cons n rest ih =>
      intro hdl
      rw [List.flatMap_cons, List.map_cons]
      exact (map_filter_beq_sublist (hdl n (by simp)) d n.key).append
        (ih (fun n' hn' => hdl n' (by simp [hn'])))
  unfold dsucc
  by_cases hd : d ∈ dnodes ns
  · rw [if_pos (by simpa using hd)]
    exact (key ns hdeps).nodup hkeys
  · rw [if_neg (by simpa using hd)]
    exact List.Pairwise.nil

/-- `u in nodes`-guarded dependency counting agrees with the
predecessor count derived from the successor lists. -/
lemma dIndeg0_eq_predsIn {ns : List DNode} (hkeys : (dnodes ns).Nodup)
    (hdeps : ∀ n ∈ ns, n.dependencies.Nodup) {v : String}
    (hv : v ∈ dnodes ns) :
    dIndeg0 ns v = ((predsIn (dnodes ns) (dsucc ns) v).length : ℤ) := by
  obtain ⟨nv, hnv⟩ : ∃ n, dnodeOf ns v = some n := by
    obtain ⟨n, hn, hkey⟩ := List.mem_map.mp hv
    exact ⟨n, hkey ▸ dnodeOf_of_mem hkeys hn⟩
  obtain ⟨hnvm, hnvk⟩ := dnodeOf_eq_some hnv
  have hmem : ∀ u, u ∈ (ddeps ns v).filter (fun x => decide (x ∈ dnodes ns)) ↔
      u ∈ predsIn (dnodes ns) (dsucc ns) v := by
    intro u
    rw [List.mem_filter, mem_predsIn, mem_dsucc]
    constructor
    · rintro ⟨hu1, hu2⟩
      have hu2' : u ∈ dnodes ns := by simpa using hu2
      refine ⟨hu2', hu2', nv, hnvm, hnvk, ?_⟩
      rw [ddeps, hnv] at hu1
      exact hu1
    · rintro ⟨hu1, -, n, hn, hnk, hnd⟩
      have : n = nv := by
        have h2 := dnodeOf_of_mem hkeys hn
        rw [hnk, hnv] at h2
        exact (Option.some.inj h2).symm
      subst this
      refine ⟨?_, by simpa using hu1⟩
      rw [ddeps, hnv]
      exact hnd
  have hnd1 : ((ddeps ns v).filter (fun x => decide (x ∈ dnodes ns))).Nodup := by
    apply List.Nodup.filter
    rw [ddeps, hnv]
    exact hdeps nv hnvm
  have hnd2 : (predsIn (dnodes ns) (dsucc ns) v).Nodup :=
    predsIn_nodup hkeys _ v
  have hlen : ((ddeps ns v).filter (fun x => decide (x ∈ dnodes ns))).length =
      (predsIn (dnodes ns) (dsucc ns) v).length := by
    refine le_antisymm ?_ ?_
    · exact (List.subperm_of_subset hnd1 (fun x hx => (hmem x).mp hx)).length_le
    · exact (List.subperm_of_subset hnd2 (fun x hx => (hmem x).mpr hx)).length_le
  rw [dIndeg0, if_pos hv, hlen]

/-- `_topo_order` emits pairwise-distinct issues (even on cyclic
input, where it is merely incomplete). -/
lemma eTopoOrder_nodup {ns : List DNode} (hkeys : (dnodes ns).Nodup)
    (hdeps : ∀ n ∈ ns, n.dependencies.Nodup) : (eTopoOrder ns).Nodup := by
  have hs : ∀ u, (dsucc ns u).Nodup := dsucc_nodup hkeys hdeps
  have hq0 : ∀ x, x ∈ (dnodes ns).filter
      (fun u => decide (dIndeg0 ns u = 0)) ↔
      x ∈ dnodes ns ∧ dIndeg0 ns x = 0 := by
    intro x
    rw [List.mem_filter]
    simp
  have hinv : KInv (dnodes ns) (dsucc ns) (dIndeg0 ns)
      ((dnodes ns).filter (fun u => decide (dIndeg0 ns u = 0))) [] := by
    refine ⟨List.Pairwise.nil, hkeys.filter _, ?_, ?_, ?_, ?_, ?_,
      List.Pairwise.nil, ?_, ?_, ?_⟩
    · intro x _ hx
      cases hx
    · intro x hx
      exact ((hq0 x).mp hx).1
    · intro x hx
      cases hx
    · intro v hv
      rw [dIndeg0_eq_predsIn hkeys hdeps hv]
      have hzf : (predsIn (dnodes ns) (dsucc ns) v).filter
          (fun u => decide (u ∈ ([] : List String))) = [] := by
        simp
      rw [hzf]
      simp
    · intro v hv u hu
      obtain ⟨hv1, hv2⟩ := (hq0 v).mp hv
      exfalso
      have hplen : ((predsIn (dnodes ns) (dsucc ns) v).length : ℤ) = 0 := by
        rw [← dIndeg0_eq_predsIn hkeys hdeps hv1, hv2]
      have : predsIn (dnodes ns) (dsucc ns) v = [] := by
        have : (predsIn (dnodes ns) (dsucc ns) v).length = 0 := by omega
        exact List.length_eq_zero.mp this
      rw [this] at hu
      cases hu
    · intro v _; cases ‹v ∈ ([] : List String)›
    · intro v hv
      rcases hv with hv | hv
      · have := ((hq0 v).mp hv).2
        omega
      · cases hv
    · intro v hv h0
      refine Or.inl ?_
      rw [hq0 v]
      exact ⟨hv, h0⟩
  obtain ⟨deg', acc', heq, hfin, -⟩ := kahnLoop_spec hkeys hs
    ((dnodes ns).length + 1) (dIndeg0 ns)
    ((dnodes ns).filter (fun u => decide (dIndeg0 ns u = 0))) [] hinv
    (by simp)
  rw [eTopoOrder, heq]
  exact List.nodup_reverse.mpr hfin.acc_nodup

/-- Full state of the optimistic pass (the `ES`, `EF` and `ass_avail`
dictionaries of `sprint_eta.py`). -/
structure OState where
  ES : String → ℕ
  EF : String → ℕ
  avail : String → ℕ

/-- One iteration of the optimistic `for u in order` loop. -/
def optStep (ns : List DNode) (st : OState) (u : String) : OState :=
  let deps := ddeps ns u
  let depsFinish := if deps = [] then 0 else (deps.map st.EF).foldl max 0
  let user := eassignee ns u
  let start_u := max depsFinish (st.avail user)
  let ef := start_u + edur ns u
  { ES := fun x => if x = u then start_u else st.ES x,
    EF := fun x => if x = u then ef else st.EF x,
    avail := fun w => if w = user then ef else st.avail w }

def optRun (ns : List DNode) : OState :=
  (eTopoOrder ns).foldl (optStep ns) ⟨fun _ => 0, fun _ => 0, fun _ => 0⟩

/-- The `EF`-only recursion computes the `EF` component of the full
pass. -/
lemma optAux_eq_optRun_EF {ns : List DNode} :
    ∀ (order : List String) (st : OState),
      optAux ns order st.EF st.avail = (order.foldl (optStep ns) st).EF := by
  intro order
  induction order with
  | nil => intro st; rfl
  | cons u rest ih =>
    intro st
    rw [List.foldl_cons]
    show optAux ns rest _ _ = _
    exact ih (optStep ns st u)

lemma optimisticEF_eq (ns : List DNode) (issue : String) :
    optimisticEF ns issue = (optRun ns).EF issue := by
  unfold optimisticEF optRun
  rw [show (fun (_ : String) => (0 : ℕ)) =
    (⟨fun _ => 0, fun _ => 0, fun _ => 0⟩ : OState).EF from rfl]
  rw [show (fun (_ : String) => (0 : ℕ)) =
    (⟨fun _ => 0, fun _ => 0, fun _ => 0⟩ : OState).avail from rfl]
  rw [optAux_eq_optRun_EF]

/-- Folding the optimistic pass over a duplicate-free order serializes
tasks that share an availability key. -/
lemma optFold_serialized {ns : List DNode} :
    ∀ (order : List String) (st : OState) (done : List String),
      order.Nodup → (∀ x ∈ order, x ∉ done) →
      done.Pairwise (fun a b => eassignee ns a = eassignee ns b →
        st.EF a ≤ st.ES b) →
      (∀ a ∈ done, st.EF a ≤ st.avail (eassignee ns a)) →
      (done ++ order).Pairwise (fun a b => eassignee ns a = eassignee ns b →
        (order.foldl (optStep ns) st).EF a ≤ (order.foldl (optStep ns) st).ES b) ∧
      (∀ a ∈ done ++ order, (order.foldl (optStep ns) st).EF a ≤
        (order.foldl (optStep ns) st).avail (eassignee ns a)) := by
  intro order
  induction order with
  | nil =>
    intro st done _ _ hpw hav
    rw [List.append_nil]
    exact ⟨hpw, hav⟩
  | cons u rest ih =>
    intro st done hnd hfresh hpw hav
    obtain ⟨hur, hrnd⟩ := List.nodup_cons.mp hnd
    have hud : u ∉ done := hfresh u (by simp)
    rw [List.foldl_cons]
    have hfresh' : ∀ x ∈ rest, x ∉ done ++ [u] := by
      intro x hx hc
      rcases List.mem_append.mp hc with hc | hc
      · exact hfresh x (by simp [hx]) hc
      · exact hur ((List.mem_singleton.mp hc) ▸ hx)
    have hpw' : (done ++ [u]).Pairwise (fun a b =>
        eassignee ns a = eassignee ns b →
        (optStep ns st u).EF a ≤ (optStep ns st u).ES b) := by
      rw [List.pairwise_append]
      refine ⟨?_, List.pairwise_singleton _ _, ?_⟩
      · refine hpw.imp_of_mem ?_
        intro a b ha hb hab hassn
        have hane : a ≠ u := fun hh => hud (hh ▸ ha)
        have hbne : b ≠ u := fun hh => hud (hh ▸ hb)
        show (if a = u then _ else st.EF a) ≤ (if b = u then _ else st.ES b)
        rw [if_neg hane, if_neg hbne]
        exact hab hassn
      · intro a ha b hb hassn
        rw [List.mem_singleton] at hb
        subst b
        have hane : a ≠ u := fun hh => hud (hh ▸ ha)
        show (if a = u then _ else st.EF a) ≤ (if u = u then _ else _)
        rw [if_neg hane, if_pos rfl]
        calc st.EF a ≤ st.avail (eassignee ns a) := hav a ha
          _ = st.avail (eassignee ns u) := by rw [hassn]
          _ ≤ max (if ddeps ns u = [] then 0
              else ((ddeps ns u).map st.EF).foldl max 0)
              (st.avail (eassignee ns u)) := le_max_right _ _
    have hav' : ∀ a ∈ done ++ [u],
        (optStep ns st u).EF a ≤ (optStep ns st u).avail (eassignee ns a) := by
      intro a ha
      rcases List.mem_append.mp ha with ha | ha
      · have hane : a ≠ u := fun hh => hud (hh ▸ ha)
        show (if a = u then _ else st.EF a) ≤
          (if eassignee ns a = eassignee ns u then _ else _)
        rw [if_neg hane]
        by_cases hw : eassignee ns a = eassignee ns u
        · rw [if_pos hw]
          calc st.EF a ≤ st.avail (eassignee ns a) := hav a ha
            _ = st.avail (eassignee ns u) := by rw [hw]
            _ ≤ max (if ddeps ns u = [] then 0
                else ((ddeps ns u).map st.EF).foldl max 0)
                (st.avail (eassignee ns u)) := le_max_right _ _
            _ ≤ max (if ddeps ns u = [] then 0
                else ((ddeps ns u).map st.EF).foldl max 0)
                (st.avail (eassignee ns u)) + edur ns u := Nat.le_add_right _ _
        · rw [if_neg hw]
          exact hav a ha
      · rw [List.mem_singleton] at ha
        subst a
        show (if u = u then _ else _) ≤ (if eassignee ns u = eassignee ns u then _ else _)
        rw [if_pos rfl, if_pos rfl]
    obtain ⟨hp2, ha2⟩ := ih (optStep ns st u) (done ++ [u]) hrnd hfresh' hpw' hav'
    rw [List.append_assoc, List.singleton_append] at hp2 ha2
    exact ⟨hp2, ha2⟩

lemma foldPick_mem {f : String → ℕ} :
    ∀ (cs : List String) (c : String),
      cs.foldl (fun best k => if f k > f best then k else best) c ∈ c :: cs := by
  intro cs
  induction cs with
  | nil => intro c; simp
  | cons y ys ih =>
    intro c
    rw [List.foldl_cons]
    have hmem := ih (if f y > f c then y else c)
    rcases List.mem_cons.mp hmem with h' | h'
    · rw [h']
      by_cases h : f y > f c
      · rw [if_pos h]; simp
      · rw [if_neg h]; simp
    · simp [h']

/-- Owner-serialization invariant of the pessimistic greedy loop. -/
structure PInv (ns : List DNode) (st : PState) : Prop where
  sched_nodup : st.schedOrder.Nodup
  ready_fresh : ∀ k ∈ st.ready, k ∉ st.schedOrder
  ready_nodup : st.ready.Nodup
  ready_le : ∀ k ∈ st.ready, st.indeg k ≤ 0
  sched_le : ∀ k ∈ st.schedOrder, st.indeg k ≤ 0
  owner_chain : st.schedOrder.Pairwise (fun a b =>
    eassignee ns a = eassignee ns b → st.EF2 a ≤ st.ES2 b)
  avail_ge : ∀ a ∈ st.schedOrder, st.EF2 a ≤ st.avail2 (eassignee ns a)

lemma pLoop_inv {ns : List DNode} {anc : List String} :
    ∀ (fuel : ℕ) (st : PState), PInv ns st →
      PInv ns (pLoop ns anc fuel st) := by
  intro fuel
  induction fuel with
  | zero => exact fun st h => h
  | succ fuel ih =>
    intro st hinv
    cases hr : st.ready with
    | nil =>
      simp only [pLoop, hr]
      exact hinv
    | cons k0 ktl =>
      simp only [pLoop, hr]
      rw [← hr]
      apply ih
      set minStart := (st.ready.map (pStart ns st)).foldl min (pStart ns st k0)
        with hmin
      set earliest := st.ready.filter
        (fun k => decide (pStart ns st k = minStart)) with hearly
      set nonAnc := earliest.filter (fun k => decide (k ∉ anc)) with hnon
      set pool := if nonAnc = [] then earliest else nonAnc with hpool
      set chosen := (match pool with
        | [] => k0
        | c :: cs => cs.foldl
            (fun best k => if edur ns k > edur ns best then k else best) c)
        with hchosen
      have hcr : chosen ∈ st.ready := by
        have hsub : ∀ x ∈ pool, x ∈ st.ready := by
          intro x hx
          rw [hpool] at hx
          by_cases hne : nonAnc = []
          · rw [if_pos hne, hearly, List.mem_filter] at hx
            exact hx.1
          · rw [if_neg hne, hnon, List.mem_filter] at hx
            rw [hearly, List.mem_filter] at hx
            exact hx.1.1
        rw [hchosen]
        cases hp : pool with
        | nil => rw [hr]; simp
        | cons c cs =>
          refine hsub _ ?_
          rw [hp]
          exact foldPick_mem cs c
      have hcs : chosen ∉ st.schedOrder := hinv.ready_fresh chosen hcr
      have hci : st.indeg chosen ≤ 0 := hinv.ready_le chosen hcr
      -- the state after recording the chosen issue
      have hinv1 : PInv ns { st with
          ES2 := fun x => if x = chosen then pStart ns st chosen else st.ES2 x,
          EF2 := fun x => if x = chosen
            then pStart ns st chosen + edur ns chosen else st.EF2 x,
          avail2 := fun w => if w = eassignee ns chosen
            then pStart ns st chosen + edur ns chosen else st.avail2 w,
          ready := st.ready.erase chosen,
          schedOrder := st.schedOrder ++ [chosen] } := by
        refine ⟨?_, ?_, ?_, ?_, ?_, ?_, ?_⟩
        · exact hinv.sched_nodup.append (List.nodup_singleton chosen)
            (fun a ha hb => hcs (by rwa [List.mem_singleton.mp hb] at ha))
        · intro k hk
          have hk' := (hinv.ready_nodup.mem_erase_iff.mp hk)
          intro hc
          rcases List.mem_append.mp hc with hc | hc
          · exact hinv.ready_fresh k hk'.2 hc
          · exact hk'.1 (List.mem_singleton.mp hc)
        · exact hinv.ready_nodup.erase chosen
        · intro k hk
          exact hinv.ready_le k (hinv.ready_nodup.mem_erase_iff.mp hk).2
        · intro k hk
          rcases List.mem_append.mp hk with hk | hk
          · exact hinv.sched_le k hk
          · rw [List.mem_singleton.mp hk]
            exact hci
        · rw [List.pairwise_append]
          refine ⟨?_, List.pairwise_singleton _ _, ?_⟩
          · refine hinv.owner_chain.imp_of_mem ?_
            intro a b ha hb hab hassn
            have hane : a ≠ chosen := fun hh => hcs (hh ▸ ha)
            have hbne : b ≠ chosen := fun hh => hcs (hh ▸ hb)
            dsimp only
            rw [if_neg hane, if_neg hbne]
            exact hab hassn
          · intro a ha b hb hassn
            rw [List.mem_singleton] at hb
            subst b
            have hane : a ≠ chosen := fun hh => hcs (hh ▸ ha)
            dsimp only
            rw [if_neg hane, if_pos rfl]
            calc st.EF2 a ≤ st.avail2 (eassignee ns a) := hinv.avail_ge a ha
              _ = st.avail2 (eassignee ns chosen) := by rw [hassn]
              _ ≤ pStart ns st chosen := le_max_left _ _
        · intro a ha
          rcases List.mem_append.mp ha with ha | ha
          · have hane : a ≠ chosen := fun hh => hcs (hh ▸ ha)
            dsimp only
            rw [if_neg hane]
            by_cases hw : eassignee ns a = eassignee ns chosen
            · rw [if_pos hw]
              calc st.EF2 a ≤ st.avail2 (eassignee ns a) := hinv.avail_ge a ha
                _ = st.avail2 (eassignee ns chosen) := by rw [hw]
                _ ≤ pStart ns st chosen := le_max_left _ _
                _ ≤ pStart ns st chosen + edur ns chosen := Nat.le_add_right _ _
            · rw [if_neg hw]
              exact hinv.avail_ge a ha
          · rw [List.mem_singleton] at ha
            subst a
            dsimp only
            rw [if_pos rfl, if_pos rfl]
      -- the successor fold only touches `indeg`, `depsFinReq`, `ready`
      have hsucc : ∀ (vs : List String) (s : PState), PInv ns s →
          PInv ns (vs.foldl (fun s v =>
            { s with
              indeg := fun x => if x = v then s.indeg v - 1 else s.indeg x,
              depsFinReq := fun x => if x = v
                then max (s.depsFinReq v) (pStart ns st chosen + edur ns chosen)
                else s.depsFinReq x,
              ready := if s.indeg v - 1 = 0 then s.ready ++ [v] else s.ready }) s) := by
        intro vs
        induction vs with
        | nil => exact fun s h => h
        | cons v vs ihv =>
          intro s hs
          rw [List.foldl_cons]
          apply ihv
          have hdec : ∀ x, (fun x => if x = v then s.indeg v - 1 else s.indeg x) x
              ≤ s.indeg x := by
            intro x
            dsimp only
            by_cases hxv : x = v
            · rw [if_pos hxv, hxv]
              omega
            · rw [if_neg hxv]
          refine ⟨hs.sched_nodup, ?_, ?_, ?_, ?_, hs.owner_chain, hs.avail_ge⟩
          · intro k hk
            by_cases hg : s.indeg v - 1 = 0
            · rw [if_pos hg] at hk
              rcases List.mem_append.mp hk with hk | hk
              · exact hs.ready_fresh k hk
              · rw [List.mem_singleton.mp hk]
                intro hc
                have := hs.sched_le v hc
                omega
            · rw [if_neg hg] at hk
              exact hs.ready_fresh k hk
          · by_cases hg : s.indeg v - 1 = 0
            · rw [if_pos hg]
              refine hs.ready_nodup.append (List.nodup_singleton v) ?_
              intro a ha hb
              rw [List.mem_singleton.mp hb] at ha
              have := hs.ready_le v ha
              omega
            · rw [if_neg hg]
              exact hs.ready_nodup
          · intro k hk
            by_cases hg : s.indeg v - 1 = 0
            · rw [if_pos hg] at hk
              rcases List.mem_append.mp hk with hk | hk
              · exact le_trans (hdec k) (hs.ready_le k hk)
              · rw [List.mem_singleton.mp hk]
                dsimp only
                rw [if_pos rfl]
                omega
            · rw [if_neg hg] at hk
              exact le_trans (hdec k) (hs.ready_le k hk)
          · intro k hk
            exact le_trans (hdec k) (hs.sched_le k hk)
      exact hsucc _ _ hinv1

/-- The pessimistic greedy schedule serializes issues sharing an
availability key (`"UNASSIGNED"` included). -/
lemma pessRun_serialized (ns : List DNode) (anc : List String)
    (hkeys : (dnodes ns).Nodup) :
    (pessRun ns anc).schedOrder.Pairwise (fun a b =>
      eassignee ns a = eassignee ns b →
      (pessRun ns anc).EF2 a ≤ (pessRun ns anc).ES2 b) := by
  refine (pLoop_inv _ _ ?_).owner_chain
  refine ⟨List.Pairwise.nil, ?_, hkeys.filter _, ?_, ?_, List.Pairwise.nil, ?_⟩
  · intro k _ hc
    cases hc
  · intro k hk
    have := (List.mem_filter.mp hk).2
    simp only [decide_eq_true_eq] at this
    show dIndeg0 ns k ≤ 0
    omega
  · intro k hk
    cases hk
  · intro a ha
    cases ha

/-- The optimistic pass serializes issues sharing an availability key
(`"UNASSIGNED"` included) along the topological order it walks. -/
lemma optRun_serialized (ns : List DNode)
    (hkeys : (dnodes ns).Nodup)
    (hdeps : ∀ n ∈ ns, n.dependencies.Nodup) :
    (eTopoOrder ns).Pairwise (fun a b =>
      eassignee ns a = eassignee ns b →
      (optRun ns).EF a ≤ (optRun ns).ES b) := by
  have h := @optFold_serialized ns (eTopoOrder ns)
    ⟨fun _ => 0, fun _ => 0, fun _ => 0⟩ []
    (eTopoOrder_nodup hkeys hdeps)
    (fun x _ hx => by cases hx)
    List.Pairwise.nil
    (fun a ha => by cases ha)
  rw [List.nil_append] at h
  exact h.1

/-- Two independent ownerless issues for the date-based scheduler. -/
def DnC7 : List DNode :=
  [⟨"T-1", "Unassigned", 2, []⟩, ⟨"T-2", "Unassigned", 3, []⟩]

/-- Two independent issues with an empty assignee for the estimator. -/
def EnC7 : List DNode :=
  [⟨"T-1", "", 1, []⟩, ⟨"T-2", "", 1, []⟩]

/-- C7 (corrected): none of the schedulers exempts ownerless work from
resource contention.  In `cpa.py` `next_free` is keyed by the raw
assignee value, so `None` acts as one shared single-capacity resource
and unassigned tasks are serialized against each other; in
`sprint_dependency.py` the shared key is the placeholder string
`"Unassigned"`, so such issues are strictly serialized; in
`sprint_eta.py` both the optimistic pass and the pessimistic greedy
pass key user availability by `"UNASSIGNED"`, so ownerless issues
again never overlap — exactly like items of a named owner. -/
theorem unassigned_owner_contention :
    (∀ (ts : List CTask), (cnodes ts).Nodup →
      (∀ t ∈ ts, t.dependencies.Nodup) →
      ((rcpspRun ts).log).Pairwise (fun a b => cassignee ts a = none →
        cassignee ts b = none → (rcpspRun ts).EF a ≤ (rcpspRun ts).ES b)) ∧
    (∀ (ns : List DNode) (wd ghols : Finset ℤ) (uhols : String → Finset ℤ)
      (base : ℤ) (s₂ : DState), (dnodes ns).Nodup →
      dRun ns wd ghols uhols base = some s₂ →
      s₂.log.Pairwise (fun a b => dassignee ns a = "Unassigned" →
        dassignee ns b = "Unassigned" →
        ∀ ea sb, s₂.endD a = some ea → s₂.startD b = some sb → ea < sb)) ∧
    (∀ (ns : List DNode), (dnodes ns).Nodup →
      (∀ n ∈ ns, n.dependencies.Nodup) →
      (eTopoOrder ns).Pairwise (fun a b => eassignee ns a = "UNASSIGNED" →
        eassignee ns b = "UNASSIGNED" →
        (optRun ns).EF a ≤ (optRun ns).ES b)) ∧
    (∀ (ns : List DNode) (anc : List String), (dnodes ns).Nodup →
      (pessRun ns anc).schedOrder.Pairwise (fun a b =>
        eassignee ns a = "UNASSIGNED" → eassignee ns b = "UNASSIGNED" →
        (pessRun ns anc).EF2 a ≤ (pessRun ns anc).ES2 b)) := by
  refine ⟨?_, ?_, ?_, ?_⟩
  · intro ts hids hdeps
    exact ((rcpspRun_spec hids hdeps).1).owner_chain.imp
      (fun h hna hnb => h (by rw [hna, hnb]))
  · intro ns wd ghols uhols base s₂ hkeys h
    exact (dRun_inv hkeys h).owner_chain.imp
      (fun h ha hb => h (by rw [ha, hb]))
  · intro ns hkeys hdeps
    exact (optRun_serialized ns hkeys hdeps).imp
      (fun h ha hb => h (by rw [ha, hb]))
  · intro ns anc hkeys
    exact (pessRun_serialized ns anc hkeys).imp
      (fun h ha hb => h (by rw [ha, hb]))

theorem unassigned_owner_contention_witness :
    ((cnodes CgC7).Nodup ∧
      ((rcpspRun CgC7).log).Pairwise (fun a b => cassignee CgC7 a = none →
        cassignee CgC7 b = none →
        (rcpspRun CgC7).EF a ≤ (rcpspRun CgC7).ES b)) ∧
    ((dnodes DnC7).Nodup ∧
      (dRun DnC7 {0, 1, 2, 3, 4, 5, 6} ∅ (fun _ => ∅) 0).elim True
        (fun s₂ => s₂.log.Pairwise (fun a b =>
          dassignee DnC7 a = "Unassigned" → dassignee DnC7 b = "Unassigned" →
          ∀ ea sb, s₂.endD a = some ea → s₂.startD b = some sb → ea < sb))) ∧
    ((dnodes EnC7).Nodup ∧
      (eTopoOrder EnC7).Pairwise (fun a b =>
        eassignee EnC7 a = "UNASSIGNED" → eassignee EnC7 b = "UNASSIGNED" →
        (optRun EnC7).EF a ≤ (optRun EnC7).ES b)) ∧
    ((dnodes EnC7).Nodup ∧
      (pessRun EnC7 []).schedOrder.Pairwise (fun a b =>
        eassignee EnC7 a = "UNASSIGNED" → eassignee EnC7 b = "UNASSIGNED" →
        (pessRun EnC7 []).EF2 a ≤ (pessRun EnC7 []).ES2 b)) := by
  refine ⟨⟨by decide, unassigned_owner_contention.1 CgC7 (by decide) (by decide)⟩,
    ⟨by decide, ?_⟩,
    ⟨by decide, unassigned_owner_contention.2.2.1 EnC7 (by decide) (by decide)⟩,
    ⟨by decide, unassigned_owner_contention.2.2.2 EnC7 [] (by decide)⟩⟩
  cases hrun : dRun DnC7 {0, 1, 2, 3, 4, 5, 6} ∅ (fun _ => ∅) 0 with
  | none => exact trivial
  | some s₂ =>
    exact unassigned_owner_contention.2.1 DnC7 {0, 1, 2, 3, 4, 5, 6} ∅
      (fun _ => ∅) 0 s₂ (by decide) hrun

/-- Counterexample to the spec's literal claim, in all three engines:
pairs of independent ownerless items where the later one's start is
pushed to the earlier one's finish instead of starting immediately. -/
theorem unassigned_owner_contention_cex :
    (cassignee CgC7 "A" = none ∧ cassignee CgC7 "B" = none ∧
      cpreds CgC7 "B" = [] ∧
      (rcpspRun CgC7).EF "A" = 3 ∧ (rcpspRun CgC7).ES "B" = 3) ∧
    (dassignee DnC7 "T-1" = "Unassigned" ∧
      dassignee DnC7 "T-2" = "Unassigned" ∧ ddeps DnC7 "T-2" = [] ∧
      (dRun DnC7 {0, 1, 2, 3, 4, 5, 6} ∅ (fun _ => ∅) 0).map
        (fun s => (s.endD "T-1", s.startD "T-2")) = some (some 1, some 2)) ∧
    (eassignee EnC7 "T-1" = "UNASSIGNED" ∧
      eassignee EnC7 "T-2" = "UNASSIGNED" ∧ ddeps EnC7 "T-2" = [] ∧
      (optRun EnC7).EF "T-1" = 1 ∧ (optRun EnC7).ES "T-2" = 1 ∧
      (pessRun EnC7 []).EF2 "T-1" = 1 ∧ (pessRun EnC7 []).ES2 "T-2" = 1) := by
  have h1 : keyTupleLE "A" "B" = true := by
    unfold keyTupleLE
    rw [show issueKeyNumber "A" = 0 from by decide,
      show issueKeyNumber "B" = 0 from by decide]
    simp
    decide
  have hready : rReady CgC7 = ["A", "B"] := by
    have hfilter : (cnodes CgC7).filter (fun k => decide (rIndeg0 CgC7 k = 0))
        = ["A", "B"] := by decide
    unfold rReady
    rw [hfilter]
    simp [sortLE, insertLE, h1]
  have hcA : csucc CgC7 "A" = [] := by decide
  have hcB : csucc CgC7 "B" = [] := by decide
  have hnodes : cnodes CgC7 = ["A", "B"] := by decide
  have hdA : cdur CgC7 "A" = 3 := by
    simp [cdur, taskOf, CgC7, List.find?]
  have hdB : cdur CgC7 "B" = 3 := by
    simp [cdur, taskOf, CgC7, List.find?]
  have haA : cassignee CgC7 "A" = none := by decide
  have haB : cassignee CgC7 "B" = none := by decide
  refine ⟨⟨haA, haB, by decide, ?_, ?_⟩,
    ⟨by decide, by decide, by decide, by decide⟩,
    ⟨by decide, by decide, by decide, by decide, by decide, by decide,
      by decide⟩⟩
  · rw [rcpspRun, hready, hnodes]
    simp only [List.foldl_cons, List.foldl_nil, List.length_cons,
      List.length_nil]
    simp [rcpspLoop, rTrySchedule, popMin, heapMin, pairLt, rVisit, hcA, hcB,
      hdA, hdB, haA, haB, heapKeys]
  · rw [rcpspRun, hready, hnodes]
    simp only [List.foldl_cons, List.foldl_nil, List.length_cons,
      List.length_nil]
    simp [rcpspLoop, rTrySchedule, popMin, heapMin, pairLt, rVisit, hcA, hcB,
      hdA, hdB, haA, haB, heapKeys]
